import Mathlib

/-!
# Concurrent_Queue/queue.c : a fair blocking queue

A shallow embedding of `queue.c`.  The two singly linked lists of the source
(`Queue` of `QueueElem`, `ThreadQueue` of `ThreadNode`) are kept as they are in
the C code: nodes live in a heap addressed by pointers, `head`, `tail` and
`next` are nullable pointers, `malloc` hands out a fresh address and `free`
invalidates one.  Dereferencing `NULL` or a freed address is undefined
behaviour in C; every operation of the model returns `none` there.

The mutex `queue_lock` makes each critical section one atomic step.  The only
place where a critical section is split is `cnd_wait` in
`deal_with_empty_queue`, so a blocking `dequeue` is two steps: the entry (up to
`cnd_wait`) and the resumption (after `cnd_wait` has returned with the lock
re-acquired).  `cnd_wait` returns only after a `cnd_signal` on its condition
variable; between the signal and the resumption other threads may take the
lock.

The counters `queue_size` (`int`) and `visited_items` (`size_t`) are unbounded
integers here: the heap of the model is unbounded as well, and a counter of the
source wraps only after 2^31 live nodes or 2^64 removals.
-/

namespace ConcurrentQueue

/-- The payload `void *item` of a queue element. -/
abbrev Item := Nat

/-- A wakeup handle `cnd_t *`: the address of a condition variable. -/
abbrev Cnd := Nat

/-- A heap address; the null pointer is `none : Option Ptr`. -/
abbrev Ptr := Nat

/-- The struct `QueueElem`. -/
structure QueueElem where
  item : Item
  next : Option Ptr
deriving DecidableEq, Repr

/-- The struct `Queue`. -/
structure Queue where
  head : Option Ptr
  tail : Option Ptr
  queue_size : Int
  visited_items : Nat
deriving DecidableEq, Repr

/-- The struct `ThreadNode`. -/
structure ThreadNode where
  condition : Cnd
  next : Option Ptr
deriving DecidableEq, Repr

/-- The struct `ThreadQueue`. -/
structure ThreadQueue where
  head : Option Ptr
  tail : Option Ptr
  queue_size : Int
deriving DecidableEq, Repr

/-- The memory the queue works on: the heap cells holding `QueueElem` and
`ThreadNode` values (`none` is an address that is not allocated, or freed), the
next address `malloc` returns, the globals `item_queue` and `thread_queue`, and
the handles passed to `cnd_signal` so far, oldest first. -/
structure State where
  elems : Ptr → Option QueueElem
  nodes : Ptr → Option ThreadNode
  brk : Ptr
  item_queue : Queue
  thread_queue : ThreadQueue
  signalled : List Cnd

/-- Writing one heap cell (`some v` stores a value, `none` frees the cell). -/
def store {β : Type} (h : Ptr → Option β) (p : Ptr) (v : Option β) : Ptr → Option β :=
  fun q => if q = p then v else h q

/-- The function `init_item_queue`. -/
def init_item_queue : Queue :=
  { head := none, tail := none, queue_size := 0, visited_items := 0 }

/-- The function `init_thread_queue`. -/
def init_thread_queue : ThreadQueue :=
  { head := none, tail := none, queue_size := 0 }

/-- The function `initQueue`. -/
def initQueue : State :=
  { elems := fun _ => none, nodes := fun _ => none, brk := 0,
    item_queue := init_item_queue, thread_queue := init_thread_queue,
    signalled := [] }

/-- The function `init_item`: a fresh `QueueElem` holding the item, `next = NULL`. -/
def init_item (s : State) (element_to_enqueue : Item) : Ptr × State :=
  (s.brk, { s with elems := store s.elems s.brk (some { item := element_to_enqueue, next := none }),
                   brk := s.brk + 1 })

/-- The function `add_element_to_item_queue`. -/
def add_element_to_item_queue (s : State) (element_to_add : Ptr) : Option State :=
  if s.item_queue.queue_size = 0 then
    some { s with item_queue :=
      { s.item_queue with head := some element_to_add, tail := some element_to_add,
                          queue_size := s.item_queue.queue_size + 1 } }
  else
    match s.item_queue.tail with
    | none => none
    | some t =>
      match s.elems t with
      | none => none
      | some e =>
        some { s with
          elems := store s.elems t (some { e with next := some element_to_add }),
          item_queue := { s.item_queue with tail := some element_to_add,
                                            queue_size := s.item_queue.queue_size + 1 } }

/-- The function `thread_dequeue`: unlinks and frees the head `ThreadNode`,
returns its condition. -/
def thread_dequeue (s : State) : Option (Cnd × State) :=
  match s.thread_queue.head with
  | none => none
  | some d =>
    match s.nodes d with
    | none => none
    | some n =>
      some (n.condition,
        { s with
          nodes := store s.nodes d none,
          thread_queue :=
            { head := n.next,
              tail := if s.thread_queue.queue_size - 1 = 0 then none else s.thread_queue.tail,
              queue_size := s.thread_queue.queue_size - 1 } })

/-- The function `check_for_waiting_threads`: `cnd_signal` appends the handle to
`signalled`. -/
def check_for_waiting_threads (s : State) : Option State :=
  if s.thread_queue.queue_size > 0 then
    match thread_dequeue s with
    | none => none
    | some (thread_to_wake, s1) => some { s1 with signalled := s1.signalled ++ [thread_to_wake] }
  else some s

/-- The function `enqueue` (one critical section). -/
def enqueue (s : State) (element_to_enqueue : Item) : Option State :=
  match add_element_to_item_queue (init_item s element_to_enqueue).2
      (init_item s element_to_enqueue).1 with
  | none => none
  | some s1 => check_for_waiting_threads s1

/-- The function `init_thread_node`. -/
def init_thread_node (s : State) (condition : Cnd) : Ptr × State :=
  (s.brk, { s with nodes := store s.nodes s.brk (some { condition := condition, next := none }),
                   brk := s.brk + 1 })

/-- The function `add_element_to_thread_queue`. -/
def add_element_to_thread_queue (s : State) (element_to_add : Ptr) : Option State :=
  if s.thread_queue.queue_size = 0 then
    some { s with thread_queue :=
      { head := some element_to_add, tail := some element_to_add,
        queue_size := s.thread_queue.queue_size + 1 } }
  else
    match s.thread_queue.tail with
    | none => none
    | some t =>
      match s.nodes t with
      | none => none
      | some n =>
        some { s with
          nodes := store s.nodes t (some { n with next := some element_to_add }),
          thread_queue := { s.thread_queue with tail := some element_to_add,
                                                queue_size := s.thread_queue.queue_size + 1 } }

/-- The function `thread_enqueue`. -/
def thread_enqueue (s : State) (condition : Cnd) : Option State :=
  add_element_to_thread_queue (init_thread_node s condition).2 (init_thread_node s condition).1

/-- The function `item_dequeue_impl`: unlinks and frees the head `QueueElem`,
returns its item. -/
def item_dequeue_impl (s : State) : Option (Item × State) :=
  match s.item_queue.head with
  | none => none
  | some d =>
    match s.elems d with
    | none => none
    | some e =>
      some (e.item,
        { s with
          elems := store s.elems d none,
          item_queue :=
            { head := e.next,
              tail := if s.item_queue.queue_size - 1 = 0 then none else s.item_queue.tail,
              queue_size := s.item_queue.queue_size - 1,
              visited_items := s.item_queue.visited_items + 1 } })

/-- What a call of `dequeue` has done at the end of its first critical section:
it returned an item, or it registered its handle and waits in `cnd_wait`. -/
inductive Dequeued where
  | returned (item : Item) (s : State)
  | waiting (s : State)

/-- The function `deal_with_empty_queue` up to `cnd_wait`: with an empty item
queue it registers the caller's condition variable and answers `true` (the
caller goes to wait), otherwise it does nothing and answers `false`. -/
def deal_with_empty_queue (s : State) (current_thread_cond : Cnd) : Option (Bool × State) :=
  if s.item_queue.queue_size = 0 then
    match thread_enqueue s current_thread_cond with
    | none => none
    | some s1 => some (true, s1)
  else some (false, s)

/-- The function `dequeue` from `mtx_lock` up to its return or, when
`deal_with_empty_queue` finds the item queue empty, up to `cnd_wait`.
`current_thread_cond` is the address of the caller's condition variable. -/
def dequeue (s : State) (current_thread_cond : Cnd) : Option Dequeued :=
  match deal_with_empty_queue s current_thread_cond with
  | none => none
  | some (true, s1) => some (Dequeued.waiting s1)
  | some (false, s1) =>
    match item_dequeue_impl s1 with
    | none => none
    | some (item_to_return, s2) => some (Dequeued.returned item_to_return s2)

/-- The rest of `dequeue` after `cnd_wait` has returned: `cnd_destroy`, then
`item_dequeue_impl`, unlock and return. -/
def dequeue_resume (s : State) : Option (Item × State) :=
  item_dequeue_impl s

/-- The loop `for (i = 1; i < index; i++) current_elem = current_elem->next;`
run `n` times from `cur`. -/
def advance (elems : Ptr → Option QueueElem) : Nat → Option Ptr → Option (Option Ptr)
  | 0, cur => some cur
  | n + 1, cur =>
    match cur with
    | none => none
    | some p =>
      match elems p with
      | none => none
      | some e => advance elems n e.next

/-- The function `dequeue_first_non_acquired_element`: returns the unlinked
element (still allocated). -/
def dequeue_first_non_acquired_element (s : State) (index : Int) : Option (Ptr × State) :=
  match advance s.elems (index - 1).toNat s.item_queue.head with
  | none => none
  | some none => none
  | some (some current_elem) =>
    match s.elems current_elem with
    | none => none
    | some c =>
      match c.next with
      | none => none
      | some element_to_return =>
        match s.elems element_to_return with
        | none => none
        | some r =>
          some (element_to_return,
            { s with
              elems := store s.elems current_elem (some { c with next := r.next }),
              item_queue := { s.item_queue with
                queue_size := s.item_queue.queue_size - 1,
                visited_items := s.item_queue.visited_items + 1 } })

/-- The function `tryDequeue`.  `out` is what the caller's location
`*item_of_element_to_dequeue` holds before the call; the result is the returned
boolean, what the location holds afterwards, and the new state. -/
def tryDequeue (s : State) (out : Item) : Option (Bool × Item × State) :=
  if s.item_queue.queue_size > s.thread_queue.queue_size then
    if s.thread_queue.queue_size = 0 then
      match item_dequeue_impl s with
      | none => none
      | some (item, s1) => some (true, item, s1)
    else
      match dequeue_first_non_acquired_element s s.thread_queue.queue_size with
      | none => none
      | some (dequeued_element, s1) =>
        match s1.elems dequeued_element with
        | none => none
        | some r => some (true, r.item, { s1 with elems := store s1.elems dequeued_element none })
  else some (false, out, s)

/-- The function `visited`. -/
def visited (s : State) : Nat :=
  s.item_queue.visited_items

/-! ## Reading the linked lists -/

/-- The cells met when following `nxt` from `head`, at most `fuel` of them:
address and content of each, in order.  The walk stops at `NULL`, at an
address that holds no cell, or when the fuel runs out. -/
def walk {β : Type} (heap : Ptr → Option β) (nxt : β → Option Ptr) :
    Nat → Option Ptr → List (Ptr × β)
  | 0, _ => []
  | _ + 1, none => []
  | n + 1, some p =>
    match heap p with
    | none => []
    | some b => (p, b) :: walk heap nxt n (nxt b)

/-- Whether `cells` is exactly the list linked from `head`: each cell is
allocated with that content, is the `next` of the one before, and the last
one has `next = NULL`. -/
def is_chain {β : Type} [DecidableEq β] (heap : Ptr → Option β) (nxt : β → Option Ptr) :
    Option Ptr → List (Ptr × β) → Bool
  | h, [] => decide (h = none)
  | h, c :: rest =>
    decide (h = some c.1) && (decide (heap c.1 = some c.2) && is_chain heap nxt (nxt c.2) rest)

/-- The `QueueElem` cells linked from `item_queue->head`. -/
def item_cells (s : State) : List (Ptr × QueueElem) :=
  walk s.elems QueueElem.next s.brk s.item_queue.head

/-- The `ThreadNode` cells linked from `thread_queue->head`. -/
def thread_cells (s : State) : List (Ptr × ThreadNode) :=
  walk s.nodes ThreadNode.next s.brk s.thread_queue.head

/-- The item sequence: the payloads of the linked elements, head first. -/
def items (s : State) : List Item :=
  (item_cells s).map (fun c => c.2.item)

/-- The waiter sequence: the handles of the linked thread nodes, head first. -/
def waiters (s : State) : List Cnd :=
  (thread_cells s).map (fun c => c.2.condition)

/-- The item list is a proper list of allocated cells ending in `NULL`,
and `queue_size` is its number of nodes. -/
def ItemsLinked (s : State) : Prop :=
  is_chain s.elems QueueElem.next s.item_queue.head (item_cells s) = true ∧
  (∀ c ∈ item_cells s, c.1 < s.brk) ∧
  s.item_queue.queue_size = ((item_cells s).length : Int)

/-- Well-formed item queue: linked as above, and `tail` is the last node
(`NULL` when there is none). -/
def WFItems (s : State) : Prop :=
  ItemsLinked s ∧ s.item_queue.tail = (item_cells s).getLast?.map Prod.fst

/-- Well-formed waiter queue. -/
def WFThreads (s : State) : Prop :=
  is_chain s.nodes ThreadNode.next s.thread_queue.head (thread_cells s) = true ∧
  (∀ c ∈ thread_cells s, c.1 < s.brk) ∧
  s.thread_queue.queue_size = ((thread_cells s).length : Int) ∧
  s.thread_queue.tail = (thread_cells s).getLast?.map Prod.fst

/-- Well-formed state. -/
def WF (s : State) : Prop :=
  WFItems s ∧ WFThreads s

instance (s : State) : Decidable (ItemsLinked s) := by
  unfold ItemsLinked; infer_instance

instance (s : State) : Decidable (WFItems s) := by
  unfold WFItems; infer_instance

instance (s : State) : Decidable (WFThreads s) := by
  unfold WFThreads; infer_instance

instance (s : State) : Decidable (WF s) := by
  unfold WF; infer_instance

/-! ## The calls of several threads, one critical section at a time -/

/-- One atomic step of the system: a whole `enqueue` or `tryDequeue`, the
first critical section of a `dequeue` called with the condition variable at
`c`, or the resumption of the `dequeue` that waits on `c`. -/
inductive Op where
  | enq (x : Item)
  | deq (c : Cnd)
  | resume (c : Cnd)
  | tryDeq (out : Item)
deriving DecidableEq, Repr

/-- What a step did: `returned c x` is a `dequeue` (of the consumer with
handle `c`) returning `x`; `blocked c` a `dequeue` that went to wait;
`tried found out` a `tryDequeue` returning `found` with `out` in the caller's
location. -/
inductive Event where
  | enqueued (x : Item)
  | returned (c : Cnd) (x : Item)
  | blocked (c : Cnd)
  | tried (found : Bool) (out : Item)
deriving DecidableEq, Repr

/-- The queue together with the consumers that were signalled by `enqueue`
and have not yet resumed (`woken`, in the order of their signals), and the
history of the calls. -/
structure Sys where
  st : State
  woken : List Cnd
  log : List Event

/-- The system after `initQueue`. -/
def initSys : Sys :=
  { st := initQueue, woken := [], log := [] }

/-- One step.  `none` when the code dereferences `NULL` or freed memory, and
for `resume c` when `c` has not been signalled. -/
def step (y : Sys) : Op → Option Sys
  | Op.enq x =>
    match enqueue y.st x with
    | none => none
    | some s1 =>
      some { st := s1,
             woken := y.woken ++ s1.signalled.drop y.st.signalled.length,
             log := y.log ++ [Event.enqueued x] }
  | Op.deq c =>
    match dequeue y.st c with
    | none => none
    | some (Dequeued.returned x s1) =>
      some { y with st := s1, log := y.log ++ [Event.returned c x] }
    | some (Dequeued.waiting s1) =>
      some { y with st := s1, log := y.log ++ [Event.blocked c] }
  | Op.resume c =>
    if c ∈ y.woken then
      match dequeue_resume y.st with
      | none => none
      | some (x, s1) =>
        some { st := s1, woken := y.woken.erase c, log := y.log ++ [Event.returned c x] }
    else none
  | Op.tryDeq out =>
    match tryDequeue y.st out with
    | none => none
    | some (found, out1, s1) =>
      some { y with st := s1, log := y.log ++ [Event.tried found out1] }

/-- A sequence of steps. -/
def run (y : Sys) : List Op → Option Sys
  | [] => some y
  | op :: ops =>
    match step y op with
    | none => none
    | some y1 => run y1 ops

/-- The system after `ops`, run from `initSys` (`initSys` itself if the run
faults). -/
def sys_after (ops : List Op) : Sys :=
  match run initSys ops with
  | none => initSys
  | some y => y

/-- The state after `ops`, run from `initQueue`. -/
def state_after (ops : List Op) : State :=
  (sys_after ops).st

/-- A sample state with two queued items and one registered waiter: three
consumers went to wait and two of them have been signalled. -/
def two_items_one_waiter : State :=
  state_after [Op.deq 1, Op.deq 2, Op.deq 3, Op.enq 10, Op.enq 20]

/-- A sample state with two registered waiters and no item. -/
def two_waiters : State :=
  state_after [Op.deq 1, Op.deq 2]

/-- How many calls of the history returned an item: a `dequeue` that returned,
or a `tryDequeue` that returned true. -/
def successes : List Event → Nat
  | [] => 0
  | Event.returned _ _ :: rest => successes rest + 1
  | Event.tried true _ :: rest => successes rest + 1
  | _ :: rest => successes rest

/-- The loop `for (i = 0; i < amount_of_items; i++) item_dequeue_impl();` of
`destroyQueue`, run `n` times; the returned items are dropped. -/
def drain_items : Nat → State → Option State
  | 0, s => some s
  | n + 1, s =>
    match item_dequeue_impl s with
    | none => none
    | some (_, s1) => drain_items n s1

/-- The loop `for (i = 0; i < amount_of_threads; i++) thread_dequeue();` of
`destroyQueue`, run `n` times; the returned handles are dropped and no
`cnd_signal` is issued. -/
def drain_threads : Nat → State → Option State
  | 0, s => some s
  | n + 1, s =>
    match thread_dequeue s with
    | none => none
    | some (_, s1) => drain_threads n s1

/-- The function `destroyQueue` up to `free(item_queue); free(thread_queue);`:
the state in which the two containers are freed. -/
def destroyQueue (s : State) : Option State :=
  match drain_items s.item_queue.queue_size.toNat s with
  | none => none
  | some s1 => drain_threads s1.thread_queue.queue_size.toNat s1

/-- The same state with every payload `x` replaced by `f x`. -/
def relabel (f : Item → Item) (s : State) : State :=
  { s with elems := fun p => (s.elems p).map (fun e => { e with item := f e.item }) }

/-- A call made at a quiescent point. -/
inductive Call where
  | enqueue (x : Item)
  | dequeue (c : Cnd)
  | tryDequeue (out : Item)
deriving DecidableEq, Repr

/-- One call in a schedule where a `dequeue` that waited completes its head
removal right after the `enqueue` that signals it: after `enqueue` the
signalled consumer, if there is one, resumes at once. -/
def quiet_step (y : Sys) : Call → Option Sys
  | Call.enqueue x =>
    match step y (Op.enq x) with
    | none => none
    | some y1 =>
      match y1.woken with
      | [] => some y1
      | c :: _ => step y1 (Op.resume c)
  | Call.dequeue c => step y (Op.deq c)
  | Call.tryDequeue out => step y (Op.tryDeq out)

/-- A sequence of such calls. -/
def quiet_run (y : Sys) : List Call → Option Sys
  | [] => some y
  | call :: calls =>
    match quiet_step y call with
    | none => none
    | some y1 => quiet_run y1 calls

/-- The items passed to `enqueue` in the history, in order. -/
def enqueued_items : List Event → List Item
  | [] => []
  | Event.enqueued x :: rest => x :: enqueued_items rest
  | _ :: rest => enqueued_items rest

/-- The items handed out in the history, in order: by a `dequeue` that
returned or by a `tryDequeue` that returned true. -/
def returned_items : List Event → List Item
  | [] => []
  | Event.returned _ x :: rest => x :: returned_items rest
  | Event.tried true x :: rest => x :: returned_items rest
  | _ :: rest => returned_items rest

/-! ## Predicates used in the proofs -/

/-- A list segment: `cells` are allocated with their contents and linked from
`h`, and the `next` of the last one (or `h` itself when there is none) is
`e`. -/
def Seg {β : Type} (heap : Ptr → Option β) (nxt : β → Option Ptr) :
    Option Ptr → List (Ptr × β) → Option Ptr → Prop
  | h, [], e => h = e
  | h, c :: rest, e => h = some c.1 ∧ heap c.1 = some c.2 ∧ Seg heap nxt (nxt c.2) rest e

/-- The item list of `s` is `cells`: linked from `head` up to `NULL`, all
allocated below `brk`, and counted by `queue_size`. -/
structure ItemRep (s : State) (cells : List (Ptr × QueueElem)) : Prop where
  seg : Seg s.elems QueueElem.next s.item_queue.head cells none
  bound : ∀ c ∈ cells, c.1 < s.brk
  size : s.item_queue.queue_size = (cells.length : Int)

/-- The waiter list of `s` is `cells`, with `tail` its last node. -/
structure ThreadRep (s : State) (cells : List (Ptr × ThreadNode)) : Prop where
  seg : Seg s.nodes ThreadNode.next s.thread_queue.head cells none
  bound : ∀ c ∈ cells, c.1 < s.brk
  size : s.thread_queue.queue_size = (cells.length : Int)
  tail : s.thread_queue.tail = cells.getLast?.map Prod.fst

/-- Both lists of `s` at once: `ic` is the item list with `tail` its last
node, `tc` the waiter list. -/
structure Rep (s : State) (ic : List (Ptr × QueueElem)) (tc : List (Ptr × ThreadNode)) :
    Prop where
  irep : ItemRep s ic
  itail : s.item_queue.tail = ic.getLast?.map Prod.fst
  trep : ThreadRep s tc

/-- The `tail` pointer is stale: it holds the address of a freed cell while
nodes are still linked from `head`. -/
def TailDangling (s : State) : Prop :=
  ∃ t, s.item_queue.tail = some t ∧ s.elems t = none ∧ t < s.brk ∧ item_cells s ≠ []

/-- What holds of every state reached without a fault: both lists are proper
lists, and `tail` is the last item node or stale. -/
def Sound (s : State) : Prop :=
  WFThreads s ∧ ItemsLinked s ∧
    (s.item_queue.tail = (item_cells s).getLast?.map Prod.fst ∨ TailDangling s)

end ConcurrentQueue

/-!
# Message_Slot/message_slot.c : per-minor, per-channel message slots

A shallow embedding of the character device driver.  The global `manager`
is passed explicitly; a `struct file` is the pair of the minor number of its
inode and `private_data`.  The red-black tree of the kernel is a binary tree
of `Channel` values searched by `channel_id`: `find_channel` and
`insert_channel` walk it exactly as the source does, a write through a
`Channel *` replaces the channel at the node the search reaches, and the
rebalancing done by `rb_insert_color`, which keeps the in-order sequence of
the nodes, is not represented.  User memory is given by the result of
`get_user` / `put_user` at every offset.  A `NULL` dereference or an access
past `message_slots` gives `none`.
-/

namespace MessageSlotDriver

/-- One `char`. -/
abbrev Byte := Fin 256

/-- The constant `BUFF_SIZE`. -/
def BUFF_SIZE : Nat := 128

/-- The constant `MAX_MESSAGE_SLOT_AMOUNT`. -/
def MAX_MESSAGE_SLOT_AMOUNT : Nat := 256

/-- The constant `SUCCESS`. -/
def SUCCESS : Int := 0

/-- The constant `MSG_SLOT_CHANNEL`, that is `_IOW(235, 0, unsigned long)`, with
the encoding of Linux on x86-64. -/
def MSG_SLOT_CHANNEL : Nat := 0x4008EB00

/-- The errno values of Linux the driver returns. -/
def ENOMEM : Int := 12

def EEXIST : Int := 17

def EINVAL : Int := 22

def ENOSPC : Int := 28

def EWOULDBLOCK : Int := 11

def EMSGSIZE : Int := 90

/-- The struct `Channel` (without its tree node). -/
structure Channel where
  message : List Byte
  size_of_message : Nat
  channel_id : Nat
deriving DecidableEq, Repr

/-- A tree of channels: `struct rb_root` / `struct rb_node` with the `Channel`
that contains each node. -/
inductive RbTree where
  | nil
  | node (rb_left : RbTree) (channel : Channel) (rb_right : RbTree)
deriving DecidableEq, Repr

/-- The struct `MessageSlot`. -/
structure MessageSlot where
  minor_number : Int
  channel_amount : Int
  channels : RbTree
deriving DecidableEq, Repr

/-- The struct `MessageSlotManager`: the array `message_slots`, `none` for a
`NULL` entry. -/
structure MessageSlotManager where
  message_slots : List (Option MessageSlot)
deriving DecidableEq, Repr

/-- The static `manager` when the module is loaded: 256 `NULL` entries. -/
def manager_init : MessageSlotManager :=
  { message_slots := List.replicate MAX_MESSAGE_SLOT_AMOUNT none }

/-- What the driver uses of a `struct file`: the minor number of `f_inode` and
`private_data` as an integer. -/
structure File where
  f_inode : Nat
  private_data : Nat
deriving DecidableEq, Repr

/-- A user buffer that is written to: its bytes, and what `put_user` returns at
each offset. -/
structure UserBuffer where
  bytes : Nat → Byte
  put_result : Nat → Int

/-- The conversion `(unsigned int)` of an `unsigned long` or a pointer. -/
def to_unsigned_int (v : Nat) : Nat :=
  v % 4294967296

/-- The function `find_channel`. -/
def find_channel : RbTree → Nat → Option Channel
  | RbTree.nil, _ => none
  | RbTree.node rb_left current_channel rb_right, search_id =>
    if current_channel.channel_id < search_id then find_channel rb_right search_id
    else if current_channel.channel_id > search_id then find_channel rb_left search_id
    else some current_channel

/-- A write through the pointer `find_channel` returns: the channel at the
node reached by the search for `search_id` becomes `new_channel`. -/
def store_channel : RbTree → Nat → Channel → RbTree
  | RbTree.nil, _, _ => RbTree.nil
  | RbTree.node rb_left current_channel rb_right, search_id, new_channel =>
    if current_channel.channel_id < search_id then
      RbTree.node rb_left current_channel (store_channel rb_right search_id new_channel)
    else if current_channel.channel_id > search_id then
      RbTree.node (store_channel rb_left search_id new_channel) current_channel rb_right
    else RbTree.node rb_left new_channel rb_right

/-- The function `create_channel` when `kmalloc` succeeds. -/
def create_channel (channel_id : Nat) : Channel :=
  { message := List.replicate BUFF_SIZE 0, size_of_message := 0, channel_id := channel_id }

/-- The function `insert_channel`; `alloc_ok` says whether `kmalloc` in
`create_channel` succeeds. -/
def insert_channel : RbTree → Nat → Bool → Int × RbTree
  | RbTree.nil, search_id, alloc_ok =>
    if alloc_ok then (SUCCESS, RbTree.node RbTree.nil (create_channel search_id) RbTree.nil)
    else (-ENOMEM, RbTree.nil)
  | RbTree.node rb_left current_channel rb_right, search_id, alloc_ok =>
    if current_channel.channel_id < search_id then
      ((insert_channel rb_right search_id alloc_ok).1,
        RbTree.node rb_left current_channel (insert_channel rb_right search_id alloc_ok).2)
    else if current_channel.channel_id > search_id then
      ((insert_channel rb_left search_id alloc_ok).1,
        RbTree.node (insert_channel rb_left search_id alloc_ok).2 current_channel rb_right)
    else (-EEXIST, RbTree.node rb_left current_channel rb_right)

/-- The function `get_files_message_slot`, with the dereference its callers
make at once: `none` for a minor past the array or a `NULL` entry. -/
def get_files_message_slot (manager : MessageSlotManager) (file : File) : Option MessageSlot :=
  match manager.message_slots[file.f_inode]? with
  | none => none
  | some slot => slot

/-- The function `create_message_slot`; `alloc_ok` says whether `kmalloc`
succeeds. -/
def create_message_slot (manager : MessageSlotManager) (minor_number : Nat) (alloc_ok : Bool) :
    Option (Int × MessageSlotManager) :=
  match manager.message_slots[minor_number]? with
  | none => none
  | some (some _) => some ((minor_number : Int), manager)
  | some none =>
    if alloc_ok then
      some ((minor_number : Int),
        { message_slots := manager.message_slots.set minor_number
            (some { minor_number := minor_number, channel_amount := 0,
                    channels := RbTree.nil }) })
    else some (-ENOMEM, manager)

/-- The function `device_open`. -/
def device_open (manager : MessageSlotManager) (file : File) (alloc_ok : Bool) :
    Option (Int × MessageSlotManager × File) :=
  match create_message_slot manager file.f_inode alloc_ok with
  | none => none
  | some (minor_number, manager1) =>
    if minor_number < 0 then some (minor_number, manager1, file)
    else some (SUCCESS, manager1, { file with private_data := 0 })

/-- The function `device_ioctl`. -/
def device_ioctl (manager : MessageSlotManager) (file : File) (command_code : Nat)
    (channel_id : Nat) (alloc_ok : Bool) : Option (Int × MessageSlotManager × File) :=
  if command_code ≠ MSG_SLOT_CHANNEL ∨ to_unsigned_int channel_id = 0 then
    some (-EINVAL, manager, file)
  else
    match get_files_message_slot manager file with
    | none => none
    | some given_files_message_slot =>
      match find_channel given_files_message_slot.channels (to_unsigned_int channel_id) with
      | some _ =>
        some (SUCCESS, manager, { file with private_data := to_unsigned_int channel_id })
      | none =>
        if (insert_channel given_files_message_slot.channels (to_unsigned_int channel_id)
            alloc_ok).1 < 0 then
          some ((insert_channel given_files_message_slot.channels
            (to_unsigned_int channel_id) alloc_ok).1, manager, file)
        else
          some (SUCCESS,
            { message_slots := manager.message_slots.set file.f_inode
                (some { given_files_message_slot with
                  channels := (insert_channel given_files_message_slot.channels
                    (to_unsigned_int channel_id) alloc_ok).2,
                  channel_amount := given_files_message_slot.channel_amount + 1 }) },
            { file with private_data := channel_id })

/-- The loop of `copy_user_message`: `k` more bytes are fetched from offset `i`
on into `temp_message_arr`; `user_message i` is what `get_user` returns at
offset `i` and the byte it fetches. -/
def copy_user_loop (user_message : Nat → Int × Byte) :
    Nat → Nat → List Byte → Except Int (List Byte)
  | 0, _, temp_message_arr => Except.ok temp_message_arr
  | k + 1, i, temp_message_arr =>
    if (user_message i).1 < 0 then Except.error (user_message i).1
    else copy_user_loop user_message k (i + 1) (temp_message_arr.set i (user_message i).2)

/-- The function `copy_user_message`: an error of `get_user` (the channel is
not reached), or the return value and the channel after `memcpy`; `none` when
`channel` is `NULL` at the `memcpy`. -/
def copy_user_message (channel : Option Channel) (user_message : Nat → Int × Byte)
    (message_len : Nat) : Option (Int × Option Channel) :=
  match copy_user_loop user_message message_len 0 (List.replicate BUFF_SIZE 0) with
  | Except.error result => some (result, channel)
  | Except.ok temp_message_arr =>
    match channel with
    | none => none
    | some ch =>
      some ((message_len : Int),
        some { ch with
          message := temp_message_arr.take message_len ++ ch.message.drop message_len,
          size_of_message := message_len })

/-- The function `device_write`. -/
def device_write (manager : MessageSlotManager) (file : File)
    (user_message : Nat → Int × Byte) (message_len : Nat) :
    Option (Int × MessageSlotManager) :=
  if message_len = 0 ∨ message_len > BUFF_SIZE then some (-EMSGSIZE, manager)
  else if to_unsigned_int file.private_data = 0 then some (-EINVAL, manager)
  else
    match get_files_message_slot manager file with
    | none => none
    | some slot =>
      match copy_user_message (find_channel slot.channels (to_unsigned_int file.private_data))
          user_message message_len with
      | none => none
      | some (result, none) => some (result, manager)
      | some (result, some ch) =>
        some (result,
          { message_slots := manager.message_slots.set file.f_inode
              (some { slot with
                channels := store_channel slot.channels
                  (to_unsigned_int file.private_data) ch }) })

/-- The loop of `copy_channel_message`: `k` more bytes of `message` are put to
the user buffer from offset `i` on; the result is the error of `put_user`, if
one failed, and the user buffer. -/
def copy_channel_loop (message : List Byte) : Nat → Nat → UserBuffer → Option Int × UserBuffer
  | 0, _, user_buffer => (none, user_buffer)
  | k + 1, i, user_buffer =>
    if user_buffer.put_result i < 0 then (some (user_buffer.put_result i), user_buffer)
    else
      copy_channel_loop message k (i + 1)
        { user_buffer with
          bytes := fun j => if j = i then message.getD i 0 else user_buffer.bytes j }

/-- The function `copy_channel_message`. -/
def copy_channel_message (channel : Channel) (user_buffer : UserBuffer) : Int × UserBuffer :=
  match copy_channel_loop channel.message channel.size_of_message 0 user_buffer with
  | (some result, user_buffer1) => (result, user_buffer1)
  | (none, user_buffer1) => ((channel.size_of_message : Int), user_buffer1)

/-- The function `device_read`. -/
def device_read (manager : MessageSlotManager) (file : File) (user_buffer : UserBuffer)
    (buffer_len : Nat) : Option (Int × UserBuffer) :=
  if to_unsigned_int file.private_data = 0 then some (-EINVAL, user_buffer)
  else
    match get_files_message_slot manager file with
    | none => none
    | some slot =>
      match find_channel slot.channels (to_unsigned_int file.private_data) with
      | none => none
      | some given_files_channel =>
        if given_files_channel.size_of_message = 0 then some (-EWOULDBLOCK, user_buffer)
        else if given_files_channel.size_of_message > buffer_len then
          some (-ENOSPC, user_buffer)
        else some (copy_channel_message given_files_channel user_buffer)

/-- The function `device_release`. -/
def device_release (manager : MessageSlotManager) (file : File) :
    Option (Int × MessageSlotManager × File) :=
  match manager.message_slots[file.f_inode]? with
  | none => none
  | some _ => some (SUCCESS, manager, { file with private_data := 0 })

/-- A call on the device other than `device_write`. -/
inductive SlotCall where
  | open (file : File) (alloc_ok : Bool)
  | ioctl (file : File) (command_code : Nat) (channel_id : Nat) (alloc_ok : Bool)
  | release (file : File)
  | read (file : File) (user_buffer : UserBuffer) (buffer_len : Nat)

/-- The manager after one such call, whatever the call returns. -/
def slot_step (manager : MessageSlotManager) : SlotCall → Option MessageSlotManager
  | SlotCall.open file alloc_ok => (device_open manager file alloc_ok).map (fun r => r.2.1)
  | SlotCall.ioctl file command_code channel_id alloc_ok =>
    (device_ioctl manager file command_code channel_id alloc_ok).map (fun r => r.2.1)
  | SlotCall.release file => (device_release manager file).map (fun r => r.2.1)
  | SlotCall.read file user_buffer buffer_len =>
    (device_read manager file user_buffer buffer_len).map (fun _ => manager)

/-- The manager after a sequence of such calls. -/
def slot_run (manager : MessageSlotManager) : List SlotCall → Option MessageSlotManager
  | [] => some manager
  | call :: calls =>
    match slot_step manager call with
    | none => none
    | some manager1 => slot_run manager1 calls

/-- The channel `channel_id` of minor `minor`; `none` when there is no such
channel. -/
def channel_at (manager : MessageSlotManager) (minor : Nat) (channel_id : Nat) :
    Option Channel :=
  match manager.message_slots[minor]? with
  | some (some slot) => find_channel slot.channels channel_id
  | _ => none

/-- The message stored in channel `channel_id` of minor `minor`: the first
`size_of_message` bytes of its buffer. -/
def stored (manager : MessageSlotManager) (minor : Nat) (channel_id : Nat) :
    Option (List Byte) :=
  (channel_at manager minor channel_id).map (fun ch => ch.message.take ch.size_of_message)

/-- A sample state: minor 3 was opened, and channel 7 holds the 5 bytes
1, 2, 3, 4, 5. -/
def sample_manager : MessageSlotManager :=
  { message_slots := (List.replicate MAX_MESSAGE_SLOT_AMOUNT none).set 3
      (some { minor_number := 3, channel_amount := 1,
              channels := RbTree.node RbTree.nil
                { message := [1, 2, 3, 4, 5] ++ List.replicate 123 0, size_of_message := 5,
                  channel_id := 7 } RbTree.nil }) }

/-- The slot of minor 3 in `sample_manager`. -/
def sample_slot : MessageSlot :=
  { minor_number := 3, channel_amount := 1,
    channels := RbTree.node RbTree.nil
      { message := [1, 2, 3, 4, 5] ++ List.replicate 123 0, size_of_message := 5,
        channel_id := 7 } RbTree.nil }

/-- The channel 7 of minor 3 in `sample_manager`. -/
def sample_channel : Channel :=
  { message := [1, 2, 3, 4, 5] ++ List.replicate 123 0, size_of_message := 5, channel_id := 7 }

/-- A second sample state: as `sample_manager`, with the empty channel 8 added
by `device_ioctl`. -/
def sample_manager_two : MessageSlotManager :=
  { message_slots := (List.replicate MAX_MESSAGE_SLOT_AMOUNT none).set 3
      (some { minor_number := 3, channel_amount := 2,
              channels := RbTree.node RbTree.nil sample_channel
                (RbTree.node RbTree.nil (create_channel 8) RbTree.nil) }) }

/-- The state `sample_manager_two` after the bytes 9, 8 were written to channel 7
of minor 3. -/
def sample_after_write : MessageSlotManager :=
  { message_slots := (List.replicate MAX_MESSAGE_SLOT_AMOUNT none).set 3
      (some { minor_number := 3, channel_amount := 2,
              channels := RbTree.node RbTree.nil
                { message := [9, 8, 3, 4, 5] ++ List.replicate 123 0, size_of_message := 2,
                  channel_id := 7 }
                (RbTree.node RbTree.nil (create_channel 8) RbTree.nil) }) }

/-- The state `sample_manager_two` after `device_ioctl` created channel 9 of
minor 3. -/
def sample_after_ioctl : MessageSlotManager :=
  { message_slots := (List.replicate MAX_MESSAGE_SLOT_AMOUNT none).set 3
      (some { minor_number := 3, channel_amount := 3,
              channels := RbTree.node RbTree.nil sample_channel
                (RbTree.node RbTree.nil (create_channel 8)
                  (RbTree.node RbTree.nil (create_channel 9) RbTree.nil)) }) }

/-- User memory holding the bytes `l`, all readable. -/
def user_bytes (l : List Byte) : Nat → Int × Byte :=
  fun i => (0, l.getD i 0)

/-- A user buffer of zeros, all writable. -/
def empty_buffer : UserBuffer :=
  { bytes := fun _ => 0, put_result := fun _ => 0 }

/-- The errno value `EFAULT`, returned by `get_user` and `put_user` for a bad
user address. -/
def EFAULT : Int := 14

/-- User memory holding the bytes `l` where the fetch at offset `bad`
fails. -/
def user_bytes_bad_at (l : List Byte) (bad : Nat) : Nat → Int × Byte :=
  fun i => (if i = bad then -EFAULT else 0, l.getD i 0)

/-- A user buffer of zeros where the store at offset `bad` fails. -/
def buffer_bad_at (bad : Nat) : UserBuffer :=
  { bytes := fun _ => 0, put_result := fun i => if i = bad then -EFAULT else 0 }

end MessageSlotDriver

namespace ConcurrentQueue

/-! ## List segments in a heap -/

section Segments

variable {β : Type}

theorem store_same (heap : Ptr → Option β) (p : Ptr) (v : Option β) :
    store heap p v p = v := by
  simp [store]

theorem store_other (heap : Ptr → Option β) (p q : Ptr) (v : Option β) (hne : q ≠ p) :
    store heap p v q = heap q := by
  simp [store, hne]

theorem is_chain_iff_seg [DecidableEq β] (heap : Ptr → Option β) (nxt : β → Option Ptr) :
    ∀ (cells : List (Ptr × β)) (h : Option Ptr),
      is_chain heap nxt h cells = true ↔ Seg heap nxt h cells none
  | [], h => by simp [is_chain, Seg]
  | c :: rest, h => by
    simp only [is_chain, Seg, Bool.and_eq_true, decide_eq_true_eq]
    rw [is_chain_iff_seg heap nxt rest]

theorem seg_append (heap : Ptr → Option β) (nxt : β → Option Ptr) :
    ∀ (l1 l2 : List (Ptr × β)) (h e : Option Ptr),
      Seg heap nxt h (l1 ++ l2) e ↔ ∃ m, Seg heap nxt h l1 m ∧ Seg heap nxt m l2 e
  | [], l2, h, e => by simp [Seg]
  | c :: rest, l2, h, e => by
    have ih := seg_append heap nxt rest l2 (nxt c.2) e
    show (h = some c.1 ∧ heap c.1 = some c.2 ∧ Seg heap nxt (nxt c.2) (rest ++ l2) e) ↔
      ∃ m, (h = some c.1 ∧ heap c.1 = some c.2 ∧ Seg heap nxt (nxt c.2) rest m) ∧
        Seg heap nxt m l2 e
    rw [ih]
    constructor
    · rintro ⟨h1, h2, m, h3, h4⟩
      exact ⟨m, ⟨h1, h2, h3⟩, h4⟩
    · rintro ⟨m, ⟨h1, h2, h3⟩, h4⟩
      exact ⟨h1, h2, m, h3, h4⟩

theorem seg_frame (heap : Ptr → Option β) (nxt : β → Option Ptr) (q : Ptr) (v : Option β) :
    ∀ (l : List (Ptr × β)) (h e : Option Ptr),
      Seg heap nxt h l e → (∀ c ∈ l, c.1 ≠ q) → Seg (store heap q v) nxt h l e
  | [], h, e => by simp [Seg]
  | c :: rest, h, e => by
    intro hs hq
    obtain ⟨h1, h2, h3⟩ := hs
    refine ⟨h1, ?_, seg_frame heap nxt q v rest _ _ h3 ?_⟩
    · rw [store_other heap q c.1 v (hq c (List.mem_cons_self _ _))]
      exact h2
    · intro c1 hc1
      exact hq c1 (List.mem_cons_of_mem _ hc1)

theorem seg_unique (heap : Ptr → Option β) (nxt : β → Option Ptr) :
    ∀ (l1 l2 : List (Ptr × β)) (h : Option Ptr),
      Seg heap nxt h l1 none → Seg heap nxt h l2 none → l1 = l2
  | [], [], _ => by simp
  | [], c :: rest, h => by
    intro h1 h2
    simp only [Seg] at h1 h2
    rw [h1] at h2
    exact absurd h2.1 (by simp)
  | c :: rest, [], h => by
    intro h1 h2
    simp only [Seg] at h1 h2
    rw [h2] at h1
    exact absurd h1.1 (by simp)
  | c :: rest, d :: rest2, h => by
    intro h1 h2
    obtain ⟨a1, a2, a3⟩ := h1
    obtain ⟨b1, b2, b3⟩ := h2
    have e1 : c.1 = d.1 := by
      rw [a1] at b1
      exact Option.some.inj b1
    have e2 : c.2 = d.2 := by
      rw [e1, b2] at a2
      exact (Option.some.inj a2).symm
    have e3 : c = d := Prod.ext e1 e2
    subst e3
    rw [seg_unique heap nxt rest rest2 _ a3 b3]

theorem seg_not_mem (heap : Ptr → Option β) (nxt : β → Option Ptr)
    (c : Ptr × β) (rest : List (Ptr × β)) (h : Option Ptr)
    (hs : Seg heap nxt h (c :: rest) none) : ∀ d ∈ rest, d.1 ≠ c.1 := by
  intro d hd hne
  obtain ⟨_, h2, h3⟩ := hs
  obtain ⟨pre, suf, hsplit⟩ := List.append_of_mem hd
  rw [hsplit, seg_append] at h3
  obtain ⟨m, _, h5⟩ := h3
  obtain ⟨_, b2, b3⟩ := h5
  rw [hne, h2] at b2
  have e2 : c.2 = d.2 := Option.some.inj b2
  rw [← e2] at b3
  have h3b : Seg heap nxt (nxt c.2) (pre ++ d :: suf) none := by
    rw [seg_append]
    rename_i h4 _
    refine ⟨m, h4, ?_, ?_, ?_⟩
    · assumption
    · rw [hne, h2, e2]
    · rw [← e2]; exact b3
  have hlen := congrArg List.length (seg_unique heap nxt _ _ _ h3b b3)
  simp at hlen
  omega

theorem seg_nodup (heap : Ptr → Option β) (nxt : β → Option Ptr) :
    ∀ (l : List (Ptr × β)) (h : Option Ptr),
      Seg heap nxt h l none → (l.map Prod.fst).Nodup
  | [], _ => by simp
  | c :: rest, h => by
    intro hs
    rw [List.map_cons, List.nodup_cons]
    refine ⟨?_, seg_nodup heap nxt rest _ hs.2.2⟩
    intro hmem
    obtain ⟨d, hd, hd1⟩ := List.mem_map.mp hmem
    exact seg_not_mem heap nxt c rest h hs d hd hd1

theorem walk_of_seg (heap : Ptr → Option β) (nxt : β → Option Ptr) :
    ∀ (l : List (Ptr × β)) (h : Option Ptr) (fuel : Nat),
      Seg heap nxt h l none → l.length ≤ fuel → walk heap nxt fuel h = l
  | [], h, fuel => by
    intro hs _
    simp only [Seg] at hs
    subst hs
    cases fuel <;> rfl
  | c :: rest, h, 0 => by
    intro _ hl
    simp at hl
  | c :: rest, h, fuel + 1 => by
    intro hs hl
    obtain ⟨h1, h2, h3⟩ := hs
    subst h1
    simp only [walk, h2]
    rw [walk_of_seg heap nxt rest _ fuel h3 (by simpa using hl)]

theorem nil_or_snoc {α : Type} (l : List α) : l = [] ∨ ∃ pre c, l = pre ++ [c] := by
  rcases List.eq_nil_or_concat l with h | ⟨pre, c, h⟩
  · exact Or.inl h
  · exact Or.inr ⟨pre, c, by rw [h, List.concat_eq_append]⟩

theorem length_le_of_nodup_lt (l : List Nat) (n : Nat) (hn : l.Nodup) (hb : ∀ x ∈ l, x < n) :
    l.length ≤ n := by
  have hsub : l.toFinset ⊆ Finset.range n := by
    intro x hx
    rw [List.mem_toFinset] at hx
    exact Finset.mem_range.mpr (hb x hx)
  have hc := Finset.card_le_card hsub
  rw [List.toFinset_card_of_nodup hn, Finset.card_range] at hc
  exact hc

theorem walk_of_seg_bounded (heap : Ptr → Option β) (nxt : β → Option Ptr)
    (l : List (Ptr × β)) (h : Option Ptr) (fuel : Nat)
    (hs : Seg heap nxt h l none) (hb : ∀ c ∈ l, c.1 < fuel) :
    walk heap nxt fuel h = l := by
  apply walk_of_seg heap nxt l h fuel hs
  have hlen := length_le_of_nodup_lt (l.map Prod.fst) fuel (seg_nodup heap nxt l h hs) (by
    intro x hx
    obtain ⟨c, hc, rfl⟩ := List.mem_map.mp hx
    exact hb c hc)
  simpa using hlen

end Segments

/-! ## The item queue as a list of cells -/

theorem item_cells_of_rep (s : State) (cells : List (Ptr × QueueElem)) (h : ItemRep s cells) :
    item_cells s = cells :=
  walk_of_seg_bounded s.elems QueueElem.next cells s.item_queue.head s.brk h.seg h.bound

theorem itemRep_of_linked (s : State) (h : ItemsLinked s) : ItemRep s (item_cells s) :=
  ⟨(is_chain_iff_seg s.elems QueueElem.next _ _).mp h.1, h.2.1, h.2.2⟩

theorem linked_of_itemRep (s : State) (cells : List (Ptr × QueueElem)) (h : ItemRep s cells) :
    ItemsLinked s := by
  unfold ItemsLinked
  rw [item_cells_of_rep s cells h]
  exact ⟨(is_chain_iff_seg s.elems QueueElem.next _ _).mpr h.seg, h.bound, h.size⟩

theorem items_of_rep (s : State) (cells : List (Ptr × QueueElem)) (h : ItemRep s cells) :
    items s = cells.map (fun c => c.2.item) := by
  unfold items
  rw [item_cells_of_rep s cells h]

theorem add_item_rep (s : State) (cells : List (Ptr × QueueElem)) (x : Item)
    (h : ItemRep s cells) (ht : s.item_queue.tail = cells.getLast?.map Prod.fst) :
    ∃ s1 cells1,
      add_element_to_item_queue (init_item s x).2 (init_item s x).1 = some s1 ∧
      ItemRep s1 cells1 ∧ s1.item_queue.tail = cells1.getLast?.map Prod.fst ∧
      cells1.map (fun c => c.2.item) = cells.map (fun c => c.2.item) ++ [x] ∧
      s1.nodes = s.nodes ∧ s1.thread_queue = s.thread_queue ∧ s1.brk = s.brk + 1 ∧
      s1.signalled = s.signalled ∧
      s1.item_queue.visited_items = s.item_queue.visited_items := by
  obtain ⟨hseg, hbound, hsize⟩ := h
  rcases nil_or_snoc cells with rfl | ⟨pre, c, rfl⟩
  · have hz : s.item_queue.queue_size = 0 := by simpa using hsize
    apply Exists.intro
    refine ⟨[(s.brk, { item := x, next := none })], ?comp, ?rep, ?tl, ?its,
      ?f1, ?f2, ?f3, ?f4, ?f5⟩
    case comp =>
      simp only [add_element_to_item_queue, init_item, hz, if_true]
      rfl
    case rep =>
      refine ⟨?_, ?_, ?_⟩
      · simp [Seg, store_same]
      · simp
      · simp
    case tl => simp
    case its => simp
    all_goals rfl
  · have hnz : s.item_queue.queue_size ≠ 0 := by
      rw [hsize, List.length_append, List.length_singleton]
      omega
    have htail : s.item_queue.tail = some c.1 := by simpa using ht
    rw [seg_append] at hseg
    obtain ⟨m, hpre, hm, hc, hnext⟩ := hseg
    have hcb : c.1 < s.brk := hbound c (by simp)
    have hlook : store s.elems s.brk (some { item := x, next := none }) c.1 = some c.2 := by
      rw [store_other _ _ _ _ (Nat.ne_of_lt hcb)]; exact hc
    have hnd := seg_nodup s.elems QueueElem.next (pre ++ [c]) s.item_queue.head
      ((seg_append _ _ _ _ _ _).mpr ⟨m, hpre, hm, hc, hnext⟩)
    apply Exists.intro
    refine ⟨pre ++ [(c.1, { c.2 with next := some s.brk }),
      (s.brk, { item := x, next := none })], ?compB, ?repB, ?tlB, ?itsB, ?g1, ?g2, ?g3, ?g4, ?g5⟩
    case compB =>
      simp only [add_element_to_item_queue, init_item, hnz, if_false, htail, hlook]
      rfl
    case repB =>
      refine ⟨?_, ?_, ?_⟩
      · rw [seg_append]
        refine ⟨m, ?_, ?_⟩
        · apply seg_frame
          · apply seg_frame _ _ _ _ _ _ _ hpre
            intro d hd
            exact Nat.ne_of_lt (hbound d (by simp [hd]))
          · intro d hd hne
            rw [List.map_append, List.nodup_append] at hnd
            exact hnd.2.2 (List.mem_map_of_mem Prod.fst hd) (by simp [hne])
        · refine ⟨hm, ?_, ?_, ?_, ?_⟩
          · simp [store_same]
          · rfl
          · show store _ _ _ s.brk = _
            rw [store_other _ _ _ _ (Nat.ne_of_gt hcb)]
            simp [store_same]
          · rfl
      · intro d hd
        simp only [List.mem_append, List.mem_cons, List.mem_singleton, List.not_mem_nil,
          or_false] at hd
        show d.1 < s.brk + 1
        rcases hd with hd | hd | hd
        · exact Nat.lt_succ_of_lt (hbound d (by simp [hd]))
        · rw [hd]; exact Nat.lt_succ_of_lt hcb
        · rw [hd]; exact Nat.lt_succ_self _
      · show s.item_queue.queue_size + 1 = _
        rw [hsize]
        simp only [List.length_append, List.length_singleton, List.length_cons, List.length_nil]
        omega
    case tlB => simp [List.getLast?_append]
    case itsB => simp
    all_goals rfl

theorem itemRep_transfer (s s1 : State) (cells : List (Ptr × QueueElem)) (h : ItemRep s cells)
    (he : s1.elems = s.elems) (hq : s1.item_queue = s.item_queue) (hb : s.brk ≤ s1.brk) :
    ItemRep s1 cells := by
  obtain ⟨hseg, hbound, hsize⟩ := h
  refine ⟨?_, ?_, ?_⟩
  · rw [he, hq]; exact hseg
  · intro c hc
    exact Nat.lt_of_lt_of_le (hbound c hc) hb
  · rw [hq]; exact hsize

theorem ne_of_nodup_mid {β : Type} (l1 l2 : List (Ptr × β)) (c : Ptr × β)
    (hnd : ((l1 ++ c :: l2).map Prod.fst).Nodup) :
    (∀ d ∈ l1, d.1 ≠ c.1) ∧ (∀ d ∈ l2, d.1 ≠ c.1) := by
  rw [List.map_append, List.map_cons, List.nodup_append, List.nodup_cons] at hnd
  obtain ⟨_, ⟨hc, _⟩, hdis⟩ := hnd
  constructor
  · intro d hd hne
    exact hdis (List.mem_map_of_mem Prod.fst hd) (by simp [hne])
  · intro d hd hne
    exact hc (by rw [← hne]; exact List.mem_map_of_mem Prod.fst hd)

theorem pop_item_rep (s : State) (c : Ptr × QueueElem) (rest : List (Ptr × QueueElem))
    (h : ItemRep s (c :: rest)) :
    ∃ s1, item_dequeue_impl s = some (c.2.item, s1) ∧ ItemRep s1 rest ∧
      (s.item_queue.tail = (c :: rest).getLast?.map Prod.fst →
        s1.item_queue.tail = rest.getLast?.map Prod.fst) ∧
      s1.nodes = s.nodes ∧ s1.thread_queue = s.thread_queue ∧ s1.brk = s.brk ∧
      s1.signalled = s.signalled ∧
      s1.item_queue.visited_items = s.item_queue.visited_items + 1 := by
  obtain ⟨hseg, hbound, hsize⟩ := h
  have hne := (ne_of_nodup_mid [] rest c
    (seg_nodup s.elems QueueElem.next (c :: rest) s.item_queue.head hseg)).2
  obtain ⟨hh, hc, hrest⟩ := hseg
  apply Exists.intro
  refine ⟨?comp, ?rep, ?tl, ?f1, ?f2, ?f3, ?f4, ?f5⟩
  case comp =>
    simp only [item_dequeue_impl, hh, hc]
    rfl
  case rep =>
    refine ⟨?_, ?_, ?_⟩
    · exact seg_frame _ _ _ _ _ _ _ hrest hne
    · intro d hd
      exact hbound d (List.mem_cons_of_mem _ hd)
    · show s.item_queue.queue_size - 1 = _
      rw [hsize, List.length_cons]
      omega
  case tl =>
    intro ht
    show (if s.item_queue.queue_size - 1 = 0 then none else s.item_queue.tail) = _
    rw [hsize, List.length_cons]
    cases rest with
    | nil => simp
    | cons d rest2 =>
      rw [if_neg (by simp only [List.length_cons]; omega), ht]
      simp [List.getLast?_cons_cons]
  all_goals rfl

theorem advance_of_seg (elems : Ptr → Option QueueElem) :
    ∀ (l : List (Ptr × QueueElem)) (h e : Option Ptr),
      Seg elems QueueElem.next h l e → advance elems l.length h = some e
  | [], h, e => by
    intro hs
    simp only [Seg] at hs
    simp [advance, hs]
  | c :: rest, h, e => by
    intro hs
    obtain ⟨h1, h2, h3⟩ := hs
    subst h1
    simp only [List.length_cons, advance, h2]
    exact advance_of_seg elems rest _ e h3

theorem skip_item_rep (s : State) (out : Item) (pre suf : List (Ptr × QueueElem))
    (c r : Ptr × QueueElem) (h : ItemRep s (pre ++ c :: r :: suf))
    (hW : s.thread_queue.queue_size = (pre.length : Int) + 1) :
    ∃ s1, tryDequeue s out = some (true, r.2.item, s1) ∧
      ItemRep s1 (pre ++ (c.1, { c.2 with next := r.2.next }) :: suf) ∧
      s1.item_queue.tail = s.item_queue.tail ∧
      s1.nodes = s.nodes ∧ s1.thread_queue = s.thread_queue ∧ s1.brk = s.brk ∧
      s1.signalled = s.signalled ∧
      s1.item_queue.visited_items = s.item_queue.visited_items + 1 := by
  obtain ⟨hseg, hbound, hsize⟩ := h
  have hnd := seg_nodup s.elems QueueElem.next _ s.item_queue.head hseg
  have hcne := ne_of_nodup_mid pre (r :: suf) c hnd
  have hrne := ne_of_nodup_mid (pre ++ [c]) suf r (by simpa using hnd)
  have hrc : r.1 ≠ c.1 := hcne.2 r (List.mem_cons_self _ _)
  rw [seg_append] at hseg
  obtain ⟨m, hpre, hm, hc, hcn, hr, hsuf⟩ := hseg
  have hadv : advance s.elems (s.thread_queue.queue_size - 1).toNat s.item_queue.head =
      some (some c.1) := by
    have e1 : (s.thread_queue.queue_size - 1).toNat = pre.length := by
      rw [hW]; simp
    rw [e1, ← hm]
    exact advance_of_seg s.elems pre _ _ hpre
  have hgt : s.item_queue.queue_size > s.thread_queue.queue_size := by
    rw [hsize, hW]
    simp only [List.length_append, List.length_cons]
    omega
  have hWne : s.thread_queue.queue_size ≠ 0 := by
    rw [hW]; omega
  have hlook : store s.elems c.1 (some { item := c.2.item, next := r.2.next }) r.1 =
      some r.2 := by
    rw [store_other _ _ _ _ hrc]; exact hr
  apply Exists.intro
  refine ⟨?comp, ?rep, ?tl, ?f1, ?f2, ?f3, ?f4, ?f5⟩
  case comp =>
    simp only [tryDequeue, hgt, if_true, hWne, if_false, dequeue_first_non_acquired_element,
      hadv, hc, hcn, hr, hlook]
    rfl
  case rep =>
    refine ⟨?_, ?_, ?_⟩
    · rw [seg_append]
      refine ⟨m, ?_, hm, ?_, ?_⟩
      · apply seg_frame
        · exact seg_frame _ _ _ _ _ _ _ hpre hcne.1
        · intro d hd
          exact hrne.1 d (by simp [hd])
      · show store _ _ _ c.1 = _
        rw [store_other _ _ _ _ (Ne.symm hrc), store_same]
      · apply seg_frame
        · apply seg_frame _ _ _ _ _ _ _ hsuf
          intro d hd
          exact hcne.2 d (List.mem_cons_of_mem _ hd)
        · exact hrne.2
    · intro d hd
      simp only [List.mem_append, List.mem_cons] at hd
      show d.1 < s.brk
      rcases hd with hd | hd | hd
      · exact hbound d (by simp [hd])
      · rw [hd]; exact hbound c (by simp)
      · exact hbound d (by simp [hd])
    · show s.item_queue.queue_size - 1 = _
      rw [hsize]
      simp only [List.length_append, List.length_cons]
      omega
  all_goals rfl

/-! ## The waiter queue as a list of cells -/

theorem thread_cells_of_rep (s : State) (cells : List (Ptr × ThreadNode))
    (h : ThreadRep s cells) : thread_cells s = cells :=
  walk_of_seg_bounded s.nodes ThreadNode.next cells s.thread_queue.head s.brk h.seg h.bound

theorem threadRep_of_wf (s : State) (h : WFThreads s) : ThreadRep s (thread_cells s) :=
  ⟨(is_chain_iff_seg s.nodes ThreadNode.next _ _).mp h.1, h.2.1, h.2.2.1, h.2.2.2⟩

theorem wf_of_threadRep (s : State) (cells : List (Ptr × ThreadNode)) (h : ThreadRep s cells) :
    WFThreads s := by
  unfold WFThreads
  rw [thread_cells_of_rep s cells h]
  exact ⟨(is_chain_iff_seg s.nodes ThreadNode.next _ _).mpr h.seg, h.bound, h.size, h.tail⟩

theorem waiters_of_rep (s : State) (cells : List (Ptr × ThreadNode)) (h : ThreadRep s cells) :
    waiters s = cells.map (fun c => c.2.condition) := by
  unfold waiters
  rw [thread_cells_of_rep s cells h]

theorem threadRep_transfer (s s1 : State) (cells : List (Ptr × ThreadNode))
    (h : ThreadRep s cells) (he : s1.nodes = s.nodes) (hq : s1.thread_queue = s.thread_queue)
    (hb : s.brk ≤ s1.brk) : ThreadRep s1 cells := by
  obtain ⟨hseg, hbound, hsize, htail⟩ := h
  refine ⟨?_, ?_, ?_, ?_⟩
  · rw [he, hq]; exact hseg
  · intro c hc
    exact Nat.lt_of_lt_of_le (hbound c hc) hb
  · rw [hq]; exact hsize
  · rw [hq]; exact htail

theorem add_thread_rep (s : State) (cells : List (Ptr × ThreadNode)) (x : Cnd)
    (h : ThreadRep s cells) :
    ∃ s1 cells1,
      thread_enqueue s x = some s1 ∧ ThreadRep s1 cells1 ∧
      cells1.map (fun c => c.2.condition) = cells.map (fun c => c.2.condition) ++ [x] ∧
      s1.elems = s.elems ∧ s1.item_queue = s.item_queue ∧ s1.brk = s.brk + 1 ∧
      s1.signalled = s.signalled := by
  obtain ⟨hseg, hbound, hsize, ht⟩ := h
  rcases nil_or_snoc cells with rfl | ⟨pre, c, rfl⟩
  · have hz : s.thread_queue.queue_size = 0 := by simpa using hsize
    apply Exists.intro
    refine ⟨[(s.brk, { condition := x, next := none })], ?comp, ?rep, ?its, ?f1, ?f2, ?f3, ?f4⟩
    case comp =>
      simp only [thread_enqueue, add_element_to_thread_queue, init_thread_node, hz, if_true]
      rfl
    case rep =>
      refine ⟨?_, ?_, ?_, ?_⟩
      · simp [Seg, store_same]
      · simp
      · simp
      · simp
    case its => simp
    all_goals rfl
  · have hnz : s.thread_queue.queue_size ≠ 0 := by
      rw [hsize, List.length_append, List.length_singleton]
      omega
    have htail : s.thread_queue.tail = some c.1 := by simpa using ht
    rw [seg_append] at hseg
    obtain ⟨m, hpre, hm, hc, hnext⟩ := hseg
    have hcb : c.1 < s.brk := hbound c (by simp)
    have hlook : store s.nodes s.brk (some { condition := x, next := none }) c.1 = some c.2 := by
      rw [store_other _ _ _ _ (Nat.ne_of_lt hcb)]; exact hc
    have hnd := seg_nodup s.nodes ThreadNode.next (pre ++ [c]) s.thread_queue.head
      ((seg_append _ _ _ _ _ _).mpr ⟨m, hpre, hm, hc, hnext⟩)
    have hcne := ne_of_nodup_mid pre [] c hnd
    apply Exists.intro
    refine ⟨pre ++ [(c.1, { c.2 with next := some s.brk }),
      (s.brk, { condition := x, next := none })], ?compB, ?repB, ?itsB, ?g1, ?g2, ?g3, ?g4⟩
    case compB =>
      simp only [thread_enqueue, add_element_to_thread_queue, init_thread_node, hnz, if_false,
        htail, hlook]
      rfl
    case repB =>
      refine ⟨?_, ?_, ?_, ?_⟩
      · rw [seg_append]
        refine ⟨m, ?_, ?_⟩
        · apply seg_frame
          · apply seg_frame _ _ _ _ _ _ _ hpre
            intro d hd
            exact Nat.ne_of_lt (hbound d (by simp [hd]))
          · exact hcne.1
        · refine ⟨hm, ?_, ?_, ?_, ?_⟩
          · simp [store_same]
          · rfl
          · show store _ _ _ s.brk = _
            rw [store_other _ _ _ _ (Nat.ne_of_gt hcb)]
            simp [store_same]
          · rfl
      · intro d hd
        simp only [List.mem_append, List.mem_cons, List.mem_singleton, List.not_mem_nil,
          or_false] at hd
        show d.1 < s.brk + 1
        rcases hd with hd | hd | hd
        · exact Nat.lt_succ_of_lt (hbound d (by simp [hd]))
        · rw [hd]; exact Nat.lt_succ_of_lt hcb
        · rw [hd]; exact Nat.lt_succ_self _
      · show s.thread_queue.queue_size + 1 = _
        rw [hsize]
        simp only [List.length_append, List.length_singleton, List.length_cons, List.length_nil]
        omega
      · simp [List.getLast?_append]
    case itsB => simp
    all_goals rfl

theorem pop_thread_rep (s : State) (c : Ptr × ThreadNode) (rest : List (Ptr × ThreadNode))
    (h : ThreadRep s (c :: rest)) :
    ∃ s1, thread_dequeue s = some (c.2.condition, s1) ∧ ThreadRep s1 rest ∧
      s1.elems = s.elems ∧ s1.item_queue = s.item_queue ∧ s1.brk = s.brk ∧
      s1.signalled = s.signalled := by
  obtain ⟨hseg, hbound, hsize, ht⟩ := h
  have hne := (ne_of_nodup_mid [] rest c
    (seg_nodup s.nodes ThreadNode.next (c :: rest) s.thread_queue.head hseg)).2
  obtain ⟨hh, hc, hrest⟩ := hseg
  apply Exists.intro
  refine ⟨?comp, ?rep, ?f1, ?f2, ?f3, ?f4⟩
  case comp =>
    simp only [thread_dequeue, hh, hc]
    rfl
  case rep =>
    refine ⟨?_, ?_, ?_, ?_⟩
    · exact seg_frame _ _ _ _ _ _ _ hrest hne
    · intro d hd
      exact hbound d (List.mem_cons_of_mem _ hd)
    · show s.thread_queue.queue_size - 1 = _
      rw [hsize, List.length_cons]
      omega
    · show (if s.thread_queue.queue_size - 1 = 0 then none else s.thread_queue.tail) = _
      rw [hsize, List.length_cons]
      cases rest with
      | nil => simp
      | cons d rest2 =>
        rw [if_neg (by simp only [List.length_cons]; omega), ht]
        simp [List.getLast?_cons_cons]
  all_goals rfl

/-! ## The operations on well-formed states -/

theorem rep_of_wf (s : State) (h : WF s) : Rep s (item_cells s) (thread_cells s) :=
  ⟨itemRep_of_linked s h.1.1, h.1.2, threadRep_of_wf s h.2⟩

theorem wf_of_rep (s : State) (ic : List (Ptr × QueueElem)) (tc : List (Ptr × ThreadNode))
    (h : Rep s ic tc) : WF s := by
  refine ⟨⟨linked_of_itemRep s ic h.irep, ?_⟩, wf_of_threadRep s tc h.trep⟩
  rw [item_cells_of_rep s ic h.irep]
  exact h.itail

theorem wf_size_items (s : State) (h : WF s) :
    s.item_queue.queue_size = ((items s).length : Int) := by
  rw [h.1.1.2.2]; simp [items]

theorem wf_size_waiters (s : State) (h : WF s) :
    s.thread_queue.queue_size = ((waiters s).length : Int) := by
  rw [h.2.2.2.1]; simp [waiters]

/-- What `enqueue` does to a well-formed state. -/
theorem enqueue_wf (s : State) (x : Item) (h : WF s) :
    ∃ s1, enqueue s x = some s1 ∧ WF s1 ∧ items s1 = items s ++ [x] ∧
      waiters s1 = (waiters s).tail ∧
      s1.signalled = s.signalled ++ (waiters s).head?.toList ∧
      visited s1 = visited s := by
  obtain ⟨hi, hit, hth⟩ := rep_of_wf s h
  obtain ⟨s1, ic1, hadd, hi1, hit1, hmap, hn1, hq1, hb1, hs1, hv1⟩ :=
    add_item_rep s (item_cells s) x hi hit
  have hth1 : ThreadRep s1 (thread_cells s) :=
    threadRep_transfer s s1 _ hth hn1 hq1 (by rw [hb1]; exact Nat.le_succ _)
  have hitems : ic1.map (fun c => c.2.item) = items s ++ [x] := hmap
  have hwaiters : waiters s = (thread_cells s).map (fun c => c.2.condition) := rfl
  cases hc : thread_cells s with
  | nil =>
    rw [hc] at hth1
    have hz : ¬ s1.thread_queue.queue_size > 0 := by
      rw [hth1.size]; simp
    have hrep : Rep s1 ic1 [] := ⟨hi1, hit1, hth1⟩
    refine ⟨s1, ?_, wf_of_rep s1 _ _ hrep, ?_, ?_, ?_, ?_⟩
    · simp only [enqueue, hadd, check_for_waiting_threads, hz, if_false]
    · rw [items_of_rep s1 ic1 hi1, hitems]
    · rw [waiters_of_rep s1 [] hth1, hwaiters, hc]; rfl
    · rw [hs1, hwaiters, hc]; simp
    · exact hv1
  | cons c rest =>
    rw [hc] at hth1
    have hpos : s1.thread_queue.queue_size > 0 := by
      rw [hth1.size, List.length_cons]; omega
    obtain ⟨s2, hpop, hth2, he2, hq2, hb2, hs2⟩ := pop_thread_rep s1 c rest hth1
    have hi2 : ItemRep { s2 with signalled := s2.signalled ++ [c.2.condition] } ic1 :=
      itemRep_transfer s1 _ ic1 hi1 he2 hq2 (by show s1.brk ≤ s2.brk; rw [hb2])
    have hth3 : ThreadRep { s2 with signalled := s2.signalled ++ [c.2.condition] } rest :=
      threadRep_transfer s2 _ rest hth2 rfl rfl (Nat.le_refl _)
    have hrep : Rep { s2 with signalled := s2.signalled ++ [c.2.condition] } ic1 rest :=
      ⟨hi2, by show s2.item_queue.tail = _; rw [hq2]; exact hit1, hth3⟩
    refine ⟨_, ?_, wf_of_rep _ _ _ hrep, ?_, ?_, ?_, ?_⟩
    · simp only [enqueue, hadd, check_for_waiting_threads, hpos, if_true, hpop]
    · rw [items_of_rep _ ic1 hi2, hitems]
    · rw [waiters_of_rep _ rest hth3, hwaiters, hc]; rfl
    · show s2.signalled ++ [c.2.condition] = _
      rw [hs2, hs1, hwaiters, hc]; simp
    · show s2.item_queue.visited_items = _
      rw [hq2]; exact hv1

/-- What `item_dequeue_impl` does to a well-formed state with a queued item. -/
theorem item_dequeue_wf (s : State) (a : Item) (rest : List Item) (h : WF s)
    (he : items s = a :: rest) :
    ∃ s1, item_dequeue_impl s = some (a, s1) ∧ WF s1 ∧ items s1 = rest ∧
      waiters s1 = waiters s ∧ s1.signalled = s.signalled ∧
      visited s1 = visited s + 1 := by
  obtain ⟨hi, hit, hth⟩ := rep_of_wf s h
  cases hc : item_cells s with
  | nil => simp [items, hc] at he
  | cons c cells =>
    rw [hc] at hi hit
    have he2 : c.2.item = a ∧ cells.map (fun c => c.2.item) = rest := by
      simpa [items, hc] using he
    obtain ⟨s1, hpop, hi1, hit1, hn1, hq1, hb1, hs1, hv1⟩ := pop_item_rep s c cells hi
    have hth1 : ThreadRep s1 (thread_cells s) :=
      threadRep_transfer s s1 _ hth hn1 hq1 (by rw [hb1])
    have hrep : Rep s1 cells (thread_cells s) := ⟨hi1, hit1 hit, hth1⟩
    refine ⟨s1, ?_, wf_of_rep s1 _ _ hrep, ?_, ?_, hs1, hv1⟩
    · rw [hpop, he2.1]
    · rw [items_of_rep s1 cells hi1]; exact he2.2
    · rw [waiters_of_rep s1 _ hth1]; rfl

/-- The first critical section of `dequeue` on a well-formed state whose item
queue is empty: the caller is appended to the waiter queue. -/
theorem dequeue_wf_empty (s : State) (c : Cnd) (h : WF s) (he : items s = []) :
    ∃ s1, dequeue s c = some (Dequeued.waiting s1) ∧ WF s1 ∧ items s1 = [] ∧
      waiters s1 = waiters s ++ [c] ∧ s1.signalled = s.signalled ∧
      visited s1 = visited s := by
  obtain ⟨hi, hit, hth⟩ := rep_of_wf s h
  have hz : s.item_queue.queue_size = 0 := by
    rw [wf_size_items s h, he]; rfl
  have hcells : item_cells s = [] := by
    simpa [items] using he
  obtain ⟨s1, tc1, hadd, hth1, hmap, he1, hq1, hb1, hs1⟩ := add_thread_rep s _ c hth
  have hi1 : ItemRep s1 (item_cells s) :=
    itemRep_transfer s s1 _ hi he1 hq1 (by rw [hb1]; exact Nat.le_succ _)
  have hrep : Rep s1 (item_cells s) tc1 := ⟨hi1, by rw [hq1]; exact hit, hth1⟩
  refine ⟨s1, ?_, wf_of_rep s1 _ _ hrep, ?_, ?_, hs1, ?_⟩
  · simp only [dequeue, deal_with_empty_queue, hz, if_true, hadd]
  · rw [items_of_rep s1 _ hi1, hcells]; rfl
  · rw [waiters_of_rep s1 _ hth1, hmap]; rfl
  · show s1.item_queue.visited_items = s.item_queue.visited_items
    rw [hq1]

/-- The call `dequeue` on a well-formed state with a queued item: it returns
the head item at once. -/
theorem dequeue_wf_cons (s : State) (c : Cnd) (a : Item) (rest : List Item) (h : WF s)
    (he : items s = a :: rest) :
    ∃ s1, dequeue s c = some (Dequeued.returned a s1) ∧ WF s1 ∧ items s1 = rest ∧
      waiters s1 = waiters s ∧ s1.signalled = s.signalled ∧
      visited s1 = visited s + 1 := by
  have hnz : s.item_queue.queue_size ≠ 0 := by
    rw [wf_size_items s h, he, List.length_cons]; omega
  obtain ⟨s1, hpop, hrest⟩ := item_dequeue_wf s a rest h he
  refine ⟨s1, ?_, hrest⟩
  simp only [dequeue, deal_with_empty_queue, hnz, if_false, hpop]

/-- The call `tryDequeue` on a well-formed state without surplus. -/
theorem tryDequeue_wf_fail (s : State) (out : Item) (h : WF s)
    (hle : (items s).length ≤ (waiters s).length) :
    tryDequeue s out = some (false, out, s) := by
  have hn : ¬ s.item_queue.queue_size > s.thread_queue.queue_size := by
    rw [wf_size_items s h, wf_size_waiters s h]; omega
  simp only [tryDequeue, hn, if_false]

/-- The call `tryDequeue` on a well-formed state without waiters. -/
theorem tryDequeue_wf_head (s : State) (out : Item) (a : Item) (rest : List Item) (h : WF s)
    (hw : waiters s = []) (he : items s = a :: rest) :
    ∃ s1, tryDequeue s out = some (true, a, s1) ∧ WF s1 ∧ items s1 = rest ∧
      waiters s1 = waiters s ∧ s1.signalled = s.signalled ∧
      visited s1 = visited s + 1 := by
  have hz : s.thread_queue.queue_size = 0 := by
    rw [wf_size_waiters s h, hw]; rfl
  have hgt : s.item_queue.queue_size > s.thread_queue.queue_size := by
    rw [wf_size_items s h, hz, he, List.length_cons]; omega
  obtain ⟨s1, hpop, hrest⟩ := item_dequeue_wf s a rest h he
  refine ⟨s1, ?_, hrest⟩
  unfold tryDequeue
  rw [if_pos hgt, if_pos hz, hpop]

theorem getElem_mid {α : Type} (a : α) (l2 : List α) :
    ∀ l1 : List α, (l1 ++ a :: l2)[l1.length]? = some a
  | [] => by simp
  | _ :: l1 => by simpa using getElem_mid a l2 l1

theorem take_drop_mid {α : Type} (a : α) (l2 : List α) :
    ∀ l1 : List α,
      (l1 ++ a :: l2).take l1.length ++ (l1 ++ a :: l2).drop (l1.length + 1) = l1 ++ l2
  | [] => rfl
  | b :: l1 => by
    have ih := take_drop_mid a l2 l1
    simp only [List.cons_append, List.length_cons, List.take_succ_cons, List.drop_succ_cons]
    rw [ih]

theorem split_at_pair {α : Type} :
    ∀ (n : Nat) (l : List α), n + 1 < l.length →
      ∃ pre c r suf, l = pre ++ c :: r :: suf ∧ pre.length = n
  | 0, [], h => by simp at h
  | 0, [_], h => by simp at h
  | 0, c :: r :: suf, _ => ⟨[], c, r, suf, rfl, rfl⟩
  | n + 1, [], h => by simp at h
  | n + 1, d :: l, h => by
    obtain ⟨pre, c, r, suf, hl, hn⟩ := split_at_pair n l (by simpa using h)
    exact ⟨d :: pre, c, r, suf, by rw [hl]; rfl, by simp [hn]⟩

/-- The skip branch of `tryDequeue` on a well-formed state with `W` waiters and
more than `W` items, `W ≥ 1`: the item at position `W` (counted from 0) is
unlinked, everything before and after it stays. -/
theorem tryDequeue_wf_skip (s : State) (out : Item) (h : WF s)
    (h1 : 1 ≤ (waiters s).length) (h2 : (waiters s).length < (items s).length) :
    ∃ s1 a, tryDequeue s out = some (true, a, s1) ∧
      (items s)[(waiters s).length]? = some a ∧
      items s1 = (items s).take (waiters s).length ++ (items s).drop ((waiters s).length + 1) ∧
      ItemsLinked s1 ∧ WFThreads s1 ∧ waiters s1 = waiters s ∧
      s1.thread_queue = s.thread_queue ∧ s1.nodes = s.nodes ∧ s1.signalled = s.signalled ∧
      s1.item_queue.tail = s.item_queue.tail ∧
      s1.item_queue.queue_size = s.item_queue.queue_size - 1 ∧
      visited s1 = visited s + 1 := by
  obtain ⟨hi, hit, hth⟩ := rep_of_wf s h
  have hlen : (items s).length = (item_cells s).length := by simp [items]
  obtain ⟨pre, c, r, suf, hsplit, hpre⟩ :=
    split_at_pair ((waiters s).length - 1) (item_cells s) (by omega)
  have hW : s.thread_queue.queue_size = (pre.length : Int) + 1 := by
    rw [wf_size_waiters s h, hpre]; omega
  have hwl : (waiters s).length = (pre ++ [c]).length := by
    rw [List.length_append, hpre, List.length_singleton]; omega
  have hitems : items s = (pre ++ [c]).map (fun c => c.2.item) ++
      r.2.item :: suf.map (fun c => c.2.item) := by
    simp [items, hsplit]
  rw [hsplit] at hi
  obtain ⟨s1, htry, hi1, ht1, hn1, hq1, hb1, hs1, hv1⟩ := skip_item_rep s out pre suf c r hi hW
  have hth1 : ThreadRep s1 (thread_cells s) :=
    threadRep_transfer s s1 _ hth hn1 hq1 (by rw [hb1])
  have hwl2 : (waiters s).length = ((pre ++ [c]).map (fun c => c.2.item)).length := by
    rw [List.length_map]; exact hwl
  refine ⟨s1, r.2.item, htry, ?_, ?_, linked_of_itemRep s1 _ hi1, wf_of_threadRep s1 _ hth1,
    ?_, hq1, hn1, hs1, ht1, ?_, hv1⟩
  · rw [hitems, hwl2]
    exact getElem_mid _ _ _
  · rw [items_of_rep s1 _ hi1, hitems, hwl2, take_drop_mid]
    simp
  · rw [waiters_of_rep s1 _ hth1]; rfl
  · rw [hi1.size, hi.size]
    simp only [List.length_append, List.length_cons]
    omega

/-! ## Sequences of steps -/

theorem run_append (ops1 ops2 : List Op) :
    ∀ y : Sys, run y (ops1 ++ ops2) = (run y ops1).bind (fun y1 => run y1 ops2) := by
  induction ops1 with
  | nil => intro y; rfl
  | cons op ops ih =>
    intro y
    simp only [List.cons_append, run]
    cases step y op with
    | none => rfl
    | some y1 => exact ih y1

theorem wf_initQueue : WF initQueue := by decide

theorem wf_empty (s : State) (h : WF s) (he : items s = []) :
    s.item_queue.queue_size = 0 ∧ s.item_queue.head = none ∧ s.item_queue.tail = none := by
  obtain ⟨hi, hit, _⟩ := rep_of_wf s h
  have hcells : item_cells s = [] := by simpa [items] using he
  rw [hcells] at hi hit
  refine ⟨?_, ?_, ?_⟩
  · rw [hi.size]; rfl
  · exact hi.seg
  · rw [hit]; rfl

/-- A run of `enqueue` calls from a well-formed state. -/
theorem run_enqueues (xs : List Item) :
    ∀ y : Sys, WF y.st →
      ∃ y1, run y (xs.map Op.enq) = some y1 ∧ WF y1.st ∧
        items y1.st = items y.st ++ xs ∧
        waiters y1.st = (waiters y.st).drop xs.length ∧
        y1.st.signalled = y.st.signalled ++ (waiters y.st).take xs.length ∧
        y1.log = y.log ++ xs.map Event.enqueued ∧
        visited y1.st = visited y.st := by
  induction xs with
  | nil =>
    intro y h
    exact ⟨y, rfl, h, by simp, by simp, by simp, by simp, rfl⟩
  | cons x xs ih =>
    intro y h
    obtain ⟨s1, henq, hwf1, hit1, hw1, hs1, hv1⟩ := enqueue_wf y.st x h
    obtain ⟨y2, hrun, hwf2, hit2, hw2, hs2, hl2, hv2⟩ :=
      ih { st := s1, woken := y.woken ++ s1.signalled.drop y.st.signalled.length,
           log := y.log ++ [Event.enqueued x] } hwf1
    refine ⟨y2, ?_, hwf2, ?_, ?_, ?_, ?_, ?_⟩
    · simp only [List.map_cons, run, step, henq]
      exact hrun
    · rw [hit2]
      show items s1 ++ xs = _
      rw [hit1]; simp
    · rw [hw2]
      show (waiters s1).drop xs.length = _
      rw [hw1]
      cases waiters y.st <;> simp
    · rw [hs2]
      show s1.signalled ++ (waiters s1).take xs.length = _
      rw [hs1, hw1]
      cases waiters y.st <;> simp
    · rw [hl2]; simp
    · rw [hv2]; exact hv1

/-- A run of `dequeue` calls that each find an item. -/
theorem run_dequeues (l : List (Cnd × Item)) :
    ∀ (y : Sys) (rest : List Item), WF y.st →
      items y.st = l.map Prod.snd ++ rest →
      ∃ y1, run y (l.map (fun p => Op.deq p.1)) = some y1 ∧ WF y1.st ∧
        items y1.st = rest ∧ waiters y1.st = waiters y.st ∧
        y1.log = y.log ++ l.map (fun p => Event.returned p.1 p.2) ∧
        visited y1.st = visited y.st + l.length := by
  induction l with
  | nil =>
    intro y rest h he
    exact ⟨y, rfl, h, by simpa using he, rfl, by simp, rfl⟩
  | cons p l ih =>
    intro y rest h he
    obtain ⟨s1, hdeq, hwf1, hit1, hw1, _, hv1⟩ :=
      dequeue_wf_cons y.st p.1 p.2 (l.map Prod.snd ++ rest) h (by simpa using he)
    obtain ⟨y2, hrun, hwf2, hit2, hw2, hl2, hv2⟩ :=
      ih { y with st := s1, log := y.log ++ [Event.returned p.1 p.2] } rest hwf1 hit1
    refine ⟨y2, ?_, hwf2, hit2, ?_, ?_, ?_⟩
    · simp only [List.map_cons, run, step, hdeq]
      exact hrun
    · rw [hw2]; exact hw1
    · rw [hl2]; simp
    · rw [hv2]
      show visited s1 + l.length = _
      rw [hv1, List.length_cons]; omega

/-- A run of `dequeue` calls that each find the item queue empty. -/
theorem run_registers (cs : List Cnd) :
    ∀ y : Sys, WF y.st → items y.st = [] →
      ∃ y1, run y (cs.map Op.deq) = some y1 ∧ WF y1.st ∧ items y1.st = [] ∧
        waiters y1.st = waiters y.st ++ cs ∧ y1.st.signalled = y.st.signalled ∧
        y1.log = y.log ++ cs.map Event.blocked ∧ y1.woken = y.woken ∧
        visited y1.st = visited y.st := by
  induction cs with
  | nil =>
    intro y h he
    exact ⟨y, rfl, h, he, by simp, rfl, by simp, rfl, rfl⟩
  | cons c cs ih =>
    intro y h he
    obtain ⟨s1, hdeq, hwf1, hit1, hw1, hs1, hv1⟩ := dequeue_wf_empty y.st c h he
    obtain ⟨y2, hrun, hwf2, hit2, hw2, hs2, hl2, hk2, hv2⟩ :=
      ih { y with st := s1, log := y.log ++ [Event.blocked c] } hwf1 hit1
    refine ⟨y2, ?_, hwf2, hit2, ?_, ?_, ?_, hk2, ?_⟩
    · simp only [List.map_cons, run, step, hdeq]
      exact hrun
    · rw [hw2]
      show waiters s1 ++ cs = _
      rw [hw1]; simp
    · rw [hs2]; exact hs1
    · rw [hl2]; simp
    · rw [hv2]; exact hv1

/-! ## Item order, `tryDequeue` and signalling -/

/-- C1. Item FIFO order: on a freshly initialised queue, enqueueing the items
of `l` in order and then calling `dequeue` as many times (the i-th call with the
handle paired to the i-th item) makes the i-th call return the i-th item at
once, and afterwards `queue_size` is 0 and `head` and `tail` are `NULL`. -/
theorem fifo_order (l : List (Cnd × Item)) :
    ∃ y, run initSys (l.map (fun p => Op.enq p.2) ++ l.map (fun p => Op.deq p.1)) = some y ∧
      y.log = l.map (fun p => Event.enqueued p.2) ++
        l.map (fun p => Event.returned p.1 p.2) ∧
      items y.st = [] ∧ y.st.item_queue.queue_size = 0 ∧
      y.st.item_queue.head = none ∧ y.st.item_queue.tail = none := by
  obtain ⟨y1, hrun1, hwf1, hit1, _, _, hl1, _⟩ :=
    run_enqueues (l.map Prod.snd) initSys wf_initQueue
  have hit1b : items y1.st = l.map Prod.snd ++ [] := by
    rw [hit1]
    show [] ++ l.map Prod.snd = _
    simp
  obtain ⟨y2, hrun2, hwf2, hit2, _, hl2, _⟩ := run_dequeues l y1 [] hwf1 hit1b
  refine ⟨y2, ?_, ?_, hit2, wf_empty y2.st hwf2 hit2⟩
  · rw [run_append]
    have e : l.map (fun p => Op.enq p.2) = (l.map Prod.snd).map Op.enq := by simp
    rw [e, hrun1]
    exact hrun2
  · rw [hl2, hl1]
    show ([] ++ _) ++ _ = _
    simp

/-- C2. On every well-formed state `tryDequeue` returns, and it returns true
exactly when there are more queued items than registered waiters; when it
returns false the whole state (item queue, waiter queue, `queue_size`,
`visited_items`) and the caller's output location are unchanged. -/
theorem tryDequeue_true_iff_surplus (s : State) (out : Item) (h : WF s) :
    ∃ found out1 s1, tryDequeue s out = some (found, out1, s1) ∧
      (found = true ↔ (items s).length > (waiters s).length) ∧
      (found = false → s1 = s ∧ out1 = out) := by
  by_cases hle : (items s).length ≤ (waiters s).length
  · refine ⟨false, out, s, tryDequeue_wf_fail s out h hle, ?_, fun _ => ⟨rfl, rfl⟩⟩
    constructor
    · intro hf; cases hf
    · intro hgt; omega
  · by_cases hw : (waiters s).length = 0
    · cases hi : items s with
      | nil => rw [hi] at hle; simp at hle
      | cons a rest =>
        obtain ⟨s1, htry, _⟩ :=
          tryDequeue_wf_head s out a rest h (List.length_eq_zero.mp hw) hi
        refine ⟨true, a, s1, htry, ?_, ?_⟩
        · constructor
          · intro _; rw [← hi]; omega
          · intro _; rfl
        · intro hf; cases hf
    · obtain ⟨s1, a, htry, _⟩ := tryDequeue_wf_skip s out h (by omega) (by omega)
      refine ⟨true, a, s1, htry, ?_, ?_⟩
      · constructor
        · intro _; omega
        · intro _; rfl
      · intro hf; cases hf

theorem tryDequeue_true_iff_surplus_witness :
    WF two_waiters ∧
    ∃ found out1 s1, tryDequeue two_waiters 7 = some (found, out1, s1) ∧
      (found = true ↔ (items two_waiters).length > (waiters two_waiters).length) ∧
      (found = false → s1 = two_waiters ∧ out1 = 7) :=
  ⟨by decide, tryDequeue_true_iff_surplus two_waiters 7 (by decide)⟩

/-- C3. On a well-formed state with `W` waiters and `I` items, `1 ≤ W < I`,
`tryDequeue` returns true and stores the item of the `(W+1)`-th node; the
remaining item sequence is the old one without that element (the first `W`
items and everything after it keep their order), `queue_size` goes down by
1, `visited_items` up by 1, and the waiter queue is unchanged. -/
theorem tryDequeue_takes_first_unreserved (s : State) (out : Item) (h : WF s)
    (h1 : 1 ≤ (waiters s).length) (h2 : (waiters s).length < (items s).length) :
    ∃ s1 a, tryDequeue s out = some (true, a, s1) ∧
      (items s)[(waiters s).length]? = some a ∧
      items s1 = (items s).take (waiters s).length ++ (items s).drop ((waiters s).length + 1) ∧
      s1.item_queue.queue_size = s.item_queue.queue_size - 1 ∧
      visited s1 = visited s + 1 ∧
      waiters s1 = waiters s ∧ s1.thread_queue = s.thread_queue ∧ s1.nodes = s.nodes := by
  obtain ⟨s1, a, htry, hget, hit, _, _, hw, hq, hn, _, _, hsz, hv⟩ :=
    tryDequeue_wf_skip s out h h1 h2
  exact ⟨s1, a, htry, hget, hit, hsz, hv, hw, hq, hn⟩

theorem tryDequeue_takes_first_unreserved_witness :
    WF two_items_one_waiter ∧ 1 ≤ (waiters two_items_one_waiter).length ∧
    (waiters two_items_one_waiter).length < (items two_items_one_waiter).length ∧
    ∃ s1 a, tryDequeue two_items_one_waiter 7 = some (true, a, s1) ∧
      (items two_items_one_waiter)[(waiters two_items_one_waiter).length]? = some a ∧
      items s1 = (items two_items_one_waiter).take (waiters two_items_one_waiter).length ++
        (items two_items_one_waiter).drop ((waiters two_items_one_waiter).length + 1) ∧
      s1.item_queue.queue_size = two_items_one_waiter.item_queue.queue_size - 1 ∧
      visited s1 = visited two_items_one_waiter + 1 ∧
      waiters s1 = waiters two_items_one_waiter ∧
      s1.thread_queue = two_items_one_waiter.thread_queue ∧
      s1.nodes = two_items_one_waiter.nodes :=
  ⟨by decide, by decide, by decide,
    tryDequeue_takes_first_unreserved two_items_one_waiter 7 (by decide) (by decide)
      (by decide)⟩

/-- C4. Waiters are signalled in arrival order: when consumers with distinct
handles `cs` register in that order from `initQueue` and as many `enqueue`
calls follow, then after the first `i` of the `enqueue` calls the handles
signalled so far are exactly the first `i` of `cs` in order (so the i-th call
signals the i-th handle and nothing else) and the other handles still wait in
order; after all of them every handle was signalled once, none twice, and
the waiter queue is empty. -/
theorem waiters_signalled_in_arrival_order (cs : List Cnd) (xs : List Item)
    (hd : cs.Nodup) (hl : xs.length = cs.length) :
    (∀ i, i ≤ cs.length →
      ∃ y, run initSys (cs.map Op.deq ++ (xs.take i).map Op.enq) = some y ∧
        y.st.signalled = cs.take i ∧ waiters y.st = cs.drop i) ∧
    ∃ y, run initSys (cs.map Op.deq ++ xs.map Op.enq) = some y ∧
      y.st.signalled = cs ∧ y.st.signalled.Nodup ∧ waiters y.st = [] ∧
      y.st.thread_queue.queue_size = 0 ∧ y.st.thread_queue.head = none ∧
      y.st.thread_queue.tail = none := by
  obtain ⟨y1, hrun1, hwf1, _, hw1, hs1, _, _, _⟩ :=
    run_registers cs initSys wf_initQueue (by decide)
  have hw1b : waiters y1.st = cs := by
    rw [hw1]
    show [] ++ cs = cs
    simp
  have hs1b : y1.st.signalled = [] := hs1
  have key : ∀ i, i ≤ cs.length →
      ∃ y, run initSys (cs.map Op.deq ++ (xs.take i).map Op.enq) = some y ∧ WF y.st ∧
        y.st.signalled = cs.take i ∧ waiters y.st = cs.drop i := by
    intro i hi
    obtain ⟨y2, hrun2, hwf2, _, hw2, hs2, _, _⟩ := run_enqueues (xs.take i) y1 hwf1
    have hlen : (xs.take i).length = i := by
      rw [List.length_take]; omega
    refine ⟨y2, ?_, hwf2, ?_, ?_⟩
    · rw [run_append, hrun1]; exact hrun2
    · rw [hs2, hs1b, hw1b, hlen]; simp
    · rw [hw2, hw1b, hlen]
  refine ⟨fun i hi => ?_, ?_⟩
  · obtain ⟨y, hrun, _, hs, hw⟩ := key i hi
    exact ⟨y, hrun, hs, hw⟩
  · obtain ⟨y, hrun, hwf, hs, hw⟩ := key cs.length (Nat.le_refl _)
    rw [← hl, List.take_length] at hrun
    rw [List.take_length] at hs
    rw [List.drop_length] at hw
    have hth := threadRep_of_wf y.st hwf.2
    have hcells : thread_cells y.st = [] := by simpa [waiters] using hw
    rw [hcells] at hth
    refine ⟨y, hrun, hs, by rw [hs]; exact hd, hw, ?_, hth.seg, ?_⟩
    · rw [hth.size]; rfl
    · rw [hth.tail]; rfl

theorem waiters_signalled_in_arrival_order_witness :
    [4, 9].Nodup ∧ [10, 20].length = [4, 9].length ∧
    ((∀ i, i ≤ [4, 9].length →
      ∃ y, run initSys ([4, 9].map Op.deq ++ (([10, 20] : List Item).take i).map Op.enq) =
          some y ∧
        y.st.signalled = [4, 9].take i ∧ waiters y.st = [4, 9].drop i) ∧
    ∃ y, run initSys ([4, 9].map Op.deq ++ [10, 20].map Op.enq) = some y ∧
      y.st.signalled = [4, 9] ∧ y.st.signalled.Nodup ∧ waiters y.st = [] ∧
      y.st.thread_queue.queue_size = 0 ∧ y.st.thread_queue.head = none ∧
      y.st.thread_queue.tail = none) :=
  ⟨by decide, by decide,
    waiters_signalled_in_arrival_order [4, 9] [10, 20] (by decide) (by decide)⟩

/-- C5. One `enqueue x` on a well-formed state appends `x` at the end of the
item sequence and leaves `visited_items` as it is; when the waiter queue is
empty it signals nothing and the waiter queue stays empty, otherwise it
removes the head waiter, signals exactly that handle, and the other waiters
stay in their order. -/
theorem enqueue_appends_and_wakes_oldest (s : State) (x : Item) (h : WF s) :
    ∃ s1, enqueue s x = some s1 ∧ WF s1 ∧ items s1 = items s ++ [x] ∧
      visited s1 = visited s ∧
      (waiters s = [] → waiters s1 = [] ∧ s1.signalled = s.signalled) ∧
      (∀ c rest, waiters s = c :: rest →
        waiters s1 = rest ∧ s1.signalled = s.signalled ++ [c]) := by
  obtain ⟨s1, henq, hwf, hit, hw, hs, hv⟩ := enqueue_wf s x h
  refine ⟨s1, henq, hwf, hit, hv, ?_, ?_⟩
  · intro he
    rw [he] at hw hs
    exact ⟨hw, by simpa using hs⟩
  · intro c rest he
    rw [he] at hw hs
    exact ⟨hw, by simpa using hs⟩

theorem enqueue_appends_and_wakes_oldest_witness :
    WF two_waiters ∧
    ∃ s1, enqueue two_waiters 5 = some s1 ∧ WF s1 ∧ items s1 = items two_waiters ++ [5] ∧
      visited s1 = visited two_waiters ∧
      (waiters two_waiters = [] → waiters s1 = [] ∧ s1.signalled = two_waiters.signalled) ∧
      (∀ c rest, waiters two_waiters = c :: rest →
        waiters s1 = rest ∧ s1.signalled = two_waiters.signalled ++ [c]) :=
  ⟨by decide, enqueue_appends_and_wakes_oldest two_waiters 5 (by decide)⟩

/-! ## The visited counter -/

theorem add_item_visited (s s1 : State) (p : Ptr)
    (h : add_element_to_item_queue s p = some s1) : visited s1 = visited s := by
  unfold add_element_to_item_queue at h
  split at h
  · cases h; rfl
  · split at h
    · cases h
    · split at h
      · cases h
      · cases h; rfl

theorem thread_dequeue_visited (s s1 : State) (c : Cnd)
    (h : thread_dequeue s = some (c, s1)) : visited s1 = visited s := by
  unfold thread_dequeue at h
  split at h
  · cases h
  · split at h
    · cases h
    · cases h; rfl

theorem enqueue_visited (s s1 : State) (x : Item) (h : enqueue s x = some s1) :
    visited s1 = visited s := by
  unfold enqueue at h
  split at h
  · cases h
  · rename_i s2 hadd
    have h2 := add_item_visited _ _ _ hadd
    unfold check_for_waiting_threads at h
    split at h
    · split at h
      · cases h
      · rename_i c s3 hpop
        cases h
        have h3 := thread_dequeue_visited _ _ _ hpop
        show visited s3 = visited s
        rw [h3, h2]; rfl
    · cases h
      rw [h2]; rfl

theorem item_dequeue_visited (s s1 : State) (a : Item)
    (h : item_dequeue_impl s = some (a, s1)) : visited s1 = visited s + 1 := by
  unfold item_dequeue_impl at h
  split at h
  · cases h
  · split at h
    · cases h
    · cases h; rfl

theorem thread_enqueue_visited (s s1 : State) (c : Cnd)
    (h : thread_enqueue s c = some s1) : visited s1 = visited s := by
  unfold thread_enqueue add_element_to_thread_queue at h
  split at h
  · cases h; rfl
  · split at h
    · cases h
    · split at h
      · cases h
      · cases h; rfl

theorem deal_with_empty_queue_visited (s s1 : State) (c : Cnd) (b : Bool)
    (h : deal_with_empty_queue s c = some (b, s1)) : visited s1 = visited s := by
  unfold deal_with_empty_queue at h
  split at h
  · split at h
    · cases h
    · rename_i s2 hreg
      cases h
      exact thread_enqueue_visited _ _ _ hreg
  · cases h; rfl

theorem dequeue_visited (s : State) (c : Cnd) {d : Dequeued} (h : dequeue s c = some d) :
    (∀ x s1, d = Dequeued.returned x s1 → visited s1 = visited s + 1) ∧
    (∀ s1, d = Dequeued.waiting s1 → visited s1 = visited s) := by
  unfold dequeue at h
  split at h
  · cases h
  · rename_i s2 hd
    cases h
    refine ⟨(fun x s1 hx => by cases hx), (fun s1 hx => ?_)⟩
    cases hx
    exact deal_with_empty_queue_visited _ _ _ _ hd
  · rename_i s2 hd
    split at h
    · cases h
    · rename_i a s3 hpop
      cases h
      refine ⟨(fun x s1 hx => ?_), (fun s1 hx => by cases hx)⟩
      cases hx
      rw [item_dequeue_visited _ _ _ hpop, deal_with_empty_queue_visited _ _ _ _ hd]

theorem tryDequeue_visited (s s1 : State) (out out1 : Item) (found : Bool)
    (h : tryDequeue s out = some (found, out1, s1)) :
    visited s1 = visited s + (if found = true then 1 else 0) := by
  unfold tryDequeue at h
  split at h
  · split at h
    · split at h
      · cases h
      · rename_i a s2 hpop
        cases h
        exact item_dequeue_visited _ _ _ hpop
    · split at h
      · cases h
      · rename_i p s2 hskip
        split at h
        · cases h
        · cases h
          unfold dequeue_first_non_acquired_element at hskip
          repeat (split at hskip <;> try cases hskip)
          rfl
  · cases h; rfl

theorem successes_append (l : List Event) (e : Event) :
    successes (l ++ [e]) = successes l + successes [e] := by
  induction l with
  | nil => simp [successes]
  | cons d l ih =>
    cases d with
    | enqueued x => simpa [successes] using ih
    | returned c x =>
      show successes (l ++ [e]) + 1 = successes l + 1 + successes [e]
      rw [ih]; omega
    | blocked c => simpa [successes] using ih
    | tried found out =>
      cases found
      · simpa [successes] using ih
      · show successes (l ++ [e]) + 1 = successes l + 1 + successes [e]
        rw [ih]; omega

/-- One step adds one event to the history, and `visited_items` grows by 1
exactly when that event is a returned item. -/
theorem step_visited (y y1 : Sys) (op : Op) (h : step y op = some y1) :
    ∃ e, y1.log = y.log ++ [e] ∧ visited y1.st = visited y.st + successes [e] ∧
      (∀ x, op = Op.enq x → e = Event.enqueued x) := by
  cases op with
  | enq x =>
    simp only [step] at h
    split at h
    · cases h
    · rename_i s1 henq
      cases h
      exact ⟨Event.enqueued x, rfl, enqueue_visited _ _ _ henq, fun _ hx => by cases hx; rfl⟩
  | deq c =>
    simp only [step] at h
    split at h
    · cases h
    · rename_i x s1 hdeq
      cases h
      refine ⟨Event.returned c x, rfl, ?_, fun _ hx => by cases hx⟩
      exact (dequeue_visited _ _ hdeq).1 x s1 rfl
    · rename_i s1 hdeq
      cases h
      refine ⟨Event.blocked c, rfl, ?_, fun _ hx => by cases hx⟩
      exact (dequeue_visited _ _ hdeq).2 s1 rfl
  | resume c =>
    simp only [step] at h
    split at h
    · split at h
      · cases h
      · rename_i x s1 hres
        cases h
        exact ⟨Event.returned c x, rfl, item_dequeue_visited _ _ _ hres,
          fun _ hx => by cases hx⟩
    · cases h
  | tryDeq out =>
    simp only [step] at h
    split at h
    · cases h
    · rename_i found out1 s1 htry
      cases h
      refine ⟨Event.tried found out1, rfl, ?_, fun _ hx => by cases hx⟩
      have hv := tryDequeue_visited _ _ _ _ _ htry
      cases found
      · simpa [successes] using hv
      · simpa [successes] using hv

theorem run_visited (ops : List Op) :
    ∀ y0 y : Sys, run y0 ops = some y →
      visited y.st + successes y0.log = visited y0.st + successes y.log := by
  induction ops with
  | nil =>
    intro y0 y h
    cases h; rfl
  | cons op ops ih =>
    intro y0 y h
    simp only [run] at h
    split at h
    · cases h
    · rename_i y1 hstep
      obtain ⟨e, hlog, hv, _⟩ := step_visited y0 y1 op hstep
      have h2 := ih y1 y h
      rw [hlog, successes_append, hv] at h2
      omega

/-- C9. The counter `visited()` is 0 after `initQueue`; in every state reached
from `initQueue` by `enqueue`, `dequeue` and `tryDequeue` steps it equals the
number of `dequeue` calls that returned plus the number of `tryDequeue` calls
that returned true; no step decreases it; `enqueue` and a `tryDequeue`
returning false leave it unchanged. -/
theorem visited_counts_returned_items (ops : List Op) (op : Op) (y y1 : Sys)
    (hrun : run initSys ops = some y) (hstep : step y op = some y1) :
    visited initQueue = 0 ∧ visited y.st = successes y.log ∧
      visited y1.st = successes y1.log ∧ visited y.st ≤ visited y1.st ∧
      (∀ x, op = Op.enq x → visited y1.st = visited y.st) ∧
      (∀ out1, y1.log = y.log ++ [Event.tried false out1] →
        visited y1.st = visited y.st) := by
  have h1 := run_visited ops initSys y hrun
  have h1b : visited y.st = successes y.log := by
    have e1 : successes initSys.log = 0 := rfl
    have e2 : visited initSys.st = 0 := rfl
    omega
  obtain ⟨e, hlog, hv, henq⟩ := step_visited y y1 op hstep
  refine ⟨rfl, h1b, ?_, ?_, ?_, ?_⟩
  · rw [hlog, successes_append, hv, h1b]
  · omega
  · intro x hx
    rw [hv, henq x hx]; rfl
  · intro out1 hl
    rw [hlog] at hl
    have he : e = Event.tried false out1 := by
      have := List.append_cancel_left hl
      simpa using this
    rw [hv, he]; rfl

theorem visited_counts_returned_items_witness :
    run initSys [Op.enq 10, Op.enq 20, Op.deq 1] = some (sys_after [Op.enq 10, Op.enq 20, Op.deq 1]) ∧
    step (sys_after [Op.enq 10, Op.enq 20, Op.deq 1]) (Op.tryDeq 0) =
      some (sys_after [Op.enq 10, Op.enq 20, Op.deq 1, Op.tryDeq 0]) ∧
    (visited initQueue = 0 ∧
      visited (sys_after [Op.enq 10, Op.enq 20, Op.deq 1]).st =
        successes (sys_after [Op.enq 10, Op.enq 20, Op.deq 1]).log ∧
      visited (sys_after [Op.enq 10, Op.enq 20, Op.deq 1, Op.tryDeq 0]).st =
        successes (sys_after [Op.enq 10, Op.enq 20, Op.deq 1, Op.tryDeq 0]).log ∧
      visited (sys_after [Op.enq 10, Op.enq 20, Op.deq 1]).st ≤
        visited (sys_after [Op.enq 10, Op.enq 20, Op.deq 1, Op.tryDeq 0]).st ∧
      (∀ x, Op.tryDeq 0 = Op.enq x →
        visited (sys_after [Op.enq 10, Op.enq 20, Op.deq 1, Op.tryDeq 0]).st =
          visited (sys_after [Op.enq 10, Op.enq 20, Op.deq 1]).st) ∧
      (∀ out1, (sys_after [Op.enq 10, Op.enq 20, Op.deq 1, Op.tryDeq 0]).log =
          (sys_after [Op.enq 10, Op.enq 20, Op.deq 1]).log ++ [Event.tried false out1] →
        visited (sys_after [Op.enq 10, Op.enq 20, Op.deq 1, Op.tryDeq 0]).st =
          visited (sys_after [Op.enq 10, Op.enq 20, Op.deq 1]).st)) :=
  ⟨rfl, rfl,
    visited_counts_returned_items [Op.enq 10, Op.enq 20, Op.deq 1] (Op.tryDeq 0)
      (sys_after [Op.enq 10, Op.enq 20, Op.deq 1])
      (sys_after [Op.enq 10, Op.enq 20, Op.deq 1, Op.tryDeq 0]) rfl rfl⟩

/-! ## Runs on which the code leaves its documented behaviour -/

/-- C6. Two consumers block in the order 1, 2 and two items 10, 20 are
enqueued.  Both consumers are signalled; when consumer 2 re-acquires the lock
first, `item_dequeue_impl` hands it the head item 10, and consumer 1 gets
20: the second consumer returns the first enqueued item. -/
theorem second_consumer_can_take_first_item :
    (run initSys [Op.deq 1, Op.deq 2, Op.enq 10, Op.enq 20, Op.resume 2, Op.resume 1]).map
        (fun y => y.log) =
      some [Event.blocked 1, Event.blocked 2, Event.enqueued 10, Event.enqueued 20,
        Event.returned 2 10, Event.returned 1 20] := by
  decide

/-- C7. Consumer 1 blocks, `enqueue 10` signals it, and before it resumes a
`tryDequeue` runs: the waiter queue is already empty, so `tryDequeue` returns
true with 10.  No item is left, while one blocked consumer has not yet
removed its item. -/
theorem tryDequeue_takes_item_of_signalled_consumer :
    (run initSys [Op.deq 1, Op.enq 10, Op.tryDeq 0]).map
        (fun y => (y.log.getLast?, (items y.st).length,
          (waiters y.st).length + y.woken.length)) =
      some (some (Event.tried true 10), 0, 1) := by
  decide

/-- C8. Consumer 1 blocks and `enqueue 10` signals it.  A `tryDequeue`, or a
`dequeue` of another thread, that runs before consumer 1 resumes takes the
item; consumer 1 is still to resume, `head` is `NULL`, and its
`item_dequeue_impl` dereferences `NULL`. -/
theorem woken_consumer_can_find_queue_empty :
    (run initSys [Op.deq 1, Op.enq 10, Op.tryDeq 0]).map
        (fun y => (y.woken, y.st.item_queue.head, (dequeue_resume y.st).isSome,
          (step y (Op.resume 1)).isSome)) =
      some ([1], none, false, false) ∧
    (run initSys [Op.deq 1, Op.enq 10, Op.deq 2]).map
        (fun y => (y.log.getLast?, y.woken, y.st.item_queue.head,
          (dequeue_resume y.st).isSome, (step y (Op.resume 1)).isSome)) =
      some (some (Event.returned 2 10), [1], none, false, false) := by
  decide

/-- C10. Three consumers block, two items are enqueued (two consumers are
signalled, one waiter stays), and `tryDequeue` takes its skip branch with
`W = 1`: it unlinks and frees the last node, at address 4, and leaves `tail`
pointing to it.  One node (address 3) is linked from `head`, `tail` is a
freed address, and the next `enqueue` writes `tail->next` through it. -/
theorem skip_branch_leaves_tail_dangling :
    (run initSys [Op.deq 1, Op.deq 2, Op.deq 3, Op.enq 10, Op.enq 20, Op.tryDeq 0]).map
        (fun y => (y.log.getLast?, y.st.item_queue.queue_size,
          (item_cells y.st).map Prod.fst)) =
      some (some (Event.tried true 20), 1, [3]) ∧
    (run initSys [Op.deq 1, Op.deq 2, Op.deq 3, Op.enq 10, Op.enq 20, Op.tryDeq 0]).map
        (fun y => (y.st.item_queue.tail, (y.st.item_queue.tail.bind y.st.elems).isSome,
          (enqueue y.st 30).isSome)) =
      some (some 4, false, false) ∧
    (run initSys [Op.deq 1, Op.deq 2, Op.deq 3, Op.enq 10, Op.enq 20, Op.tryDeq 0,
        Op.enq 30]).isSome = false := by
  decide

/-! ## `tryDequeue` against `dequeue`, and the scenarios of the specification -/

/-- The first critical section of `dequeue` on an empty item queue leaves the
item queue and its cells as they are and counts one more waiter. -/
theorem dequeue_wf_empty_frame (s : State) (c : Cnd) (h : WF s) (he : items s = []) :
    ∃ s1, dequeue s c = some (Dequeued.waiting s1) ∧ s1.item_queue = s.item_queue ∧
      s1.elems = s.elems ∧
      s1.thread_queue.queue_size = s.thread_queue.queue_size + 1 := by
  obtain ⟨_, _, hth⟩ := rep_of_wf s h
  have hz : s.item_queue.queue_size = 0 := by
    rw [wf_size_items s h, he]; rfl
  obtain ⟨s1, tc1, hadd, hth1, hmap, he1, hq1, _, _⟩ := add_thread_rep s _ c hth
  refine ⟨s1, ?_, hq1, he1, ?_⟩
  · simp only [dequeue, deal_with_empty_queue, hz, if_true, hadd]
  · have hlen := congrArg List.length hmap
    simp only [List.length_map, List.length_append, List.length_singleton] at hlen
    rw [hth1.size, hth.size, hlen]
    push_cast
    rfl

/-- A `dequeue` that finds an item leaves the waiter queue and its cells as
they are. -/
theorem dequeue_wf_cons_frame (s : State) (c : Cnd) (a : Item) (rest : List Item) (h : WF s)
    (he : items s = a :: rest) :
    ∃ s1, dequeue s c = some (Dequeued.returned a s1) ∧ s1.thread_queue = s.thread_queue ∧
      s1.nodes = s.nodes := by
  obtain ⟨hi, _, _⟩ := rep_of_wf s h
  have hnz : s.item_queue.queue_size ≠ 0 := by
    rw [wf_size_items s h, he, List.length_cons]; omega
  cases hc : item_cells s with
  | nil => simp [items, hc] at he
  | cons d cells =>
    rw [hc] at hi
    have he2 : d.2.item = a := by
      have := he
      simp only [items, hc, List.map_cons, List.cons.injEq] at this
      exact this.1
    obtain ⟨s1, hpop, _, _, hn1, hq1, _⟩ := pop_item_rep s d cells hi
    refine ⟨s1, ?_, hq1, hn1⟩
    simp only [dequeue, deal_with_empty_queue, hnz, if_false, hpop, he2]

/-- C11. On a well-formed state with no waiter and at least one item,
`tryDequeue` and `dequeue` are the same removal: both hand out the head item
and both end in the same state, which holds the remaining items. -/
theorem tryDequeue_is_dequeue_without_waiters (s : State) (c : Cnd) (out : Item)
    (h : WF s) (hw : waiters s = []) (hi : items s ≠ []) :
    ∃ a s1, dequeue s c = some (Dequeued.returned a s1) ∧
      tryDequeue s out = some (true, a, s1) ∧
      items s = a :: items s1 ∧ WF s1 ∧
      s1.item_queue.queue_size = s.item_queue.queue_size - 1 ∧
      visited s1 = visited s + 1 := by
  cases hit : items s with
  | nil => exact absurd hit hi
  | cons a rest =>
    obtain ⟨s1, hdeq, hwf1, hit1, _, _, hv1⟩ := dequeue_wf_cons s c a rest h hit
    obtain ⟨s2, htry, _⟩ := tryDequeue_wf_head s out a rest h hw hit
    have hsame : s2 = s1 := by
      have hnz : s.item_queue.queue_size ≠ 0 := by
        rw [wf_size_items s h, hit, List.length_cons]; omega
      simp only [dequeue, deal_with_empty_queue, hnz, if_false] at hdeq
      unfold tryDequeue at htry
      have hz : s.thread_queue.queue_size = 0 := by
        rw [wf_size_waiters s h, hw]; rfl
      have hgt : s.item_queue.queue_size > s.thread_queue.queue_size := by
        rw [wf_size_items s h, hz, hit, List.length_cons]; omega
      rw [if_pos hgt, if_pos hz] at htry
      cases hp : item_dequeue_impl s with
      | none => rw [hp] at hdeq; cases hdeq
      | some r =>
        rw [hp] at hdeq htry
        cases hdeq
        cases htry
        rfl
    subst hsame
    refine ⟨a, s2, hdeq, htry, by rw [hit1], hwf1, ?_, hv1⟩
    rw [wf_size_items s2 hwf1, wf_size_items s h, hit, hit1, List.length_cons]
    omega

theorem tryDequeue_is_dequeue_without_waiters_witness :
    WF (state_after [Op.enq 10, Op.enq 20]) ∧
    waiters (state_after [Op.enq 10, Op.enq 20]) = [] ∧
    items (state_after [Op.enq 10, Op.enq 20]) ≠ [] ∧
    ∃ a s1, dequeue (state_after [Op.enq 10, Op.enq 20]) 1 = some (Dequeued.returned a s1) ∧
      tryDequeue (state_after [Op.enq 10, Op.enq 20]) 0 = some (true, a, s1) ∧
      items (state_after [Op.enq 10, Op.enq 20]) = a :: items s1 ∧ WF s1 ∧
      s1.item_queue.queue_size =
        (state_after [Op.enq 10, Op.enq 20]).item_queue.queue_size - 1 ∧
      visited s1 = visited (state_after [Op.enq 10, Op.enq 20]) + 1 :=
  ⟨by decide, by decide, by decide,
    tryDequeue_is_dequeue_without_waiters (state_after [Op.enq 10, Op.enq 20]) 1 0
      (by decide) (by decide) (by decide)⟩

/-- C12. For every pair of items `A`, `B`: after `initQueue`, `enqueue A` and
`enqueue B`, a `dequeue` returns `A`, a `tryDequeue` returns true with `B`
stored, a second `tryDequeue` returns false (the output location keeps its
content), and `visited()` is 2. -/
theorem scenario_two_items (A B : Item) (c : Cnd) (out1 out2 : Item) :
    ∃ y, run initSys [Op.enq A, Op.enq B, Op.deq c, Op.tryDeq out1, Op.tryDeq out2] = some y ∧
      y.log = [Event.enqueued A, Event.enqueued B, Event.returned c A, Event.tried true B,
        Event.tried false out2] ∧
      visited y.st = 2 ∧ items y.st = [] :=
  ⟨_, rfl, rfl, rfl, rfl⟩

/-- C13. For every item `X`: after `initQueue` a `dequeue` finds the item queue
empty, registers its handle `c` and waits; one `enqueue X` signals exactly
`c`; when that call resumes with nothing in between it returns `X`, and
afterwards `visited()` is 1 and both queues are empty. -/
theorem scenario_blocked_consumer (X : Item) (c : Cnd) :
    ∃ y1 y2 y3, step initSys (Op.deq c) = some y1 ∧ y1.log = [Event.blocked c] ∧
      waiters y1.st = [c] ∧
      step y1 (Op.enq X) = some y2 ∧ y2.st.signalled = [c] ∧ y2.woken = [c] ∧
      step y2 (Op.resume c) = some y3 ∧
      y3.log = [Event.blocked c, Event.enqueued X, Event.returned c X] ∧
      visited y3.st = 1 ∧ items y3.st = [] ∧ waiters y3.st = [] := by
  obtain ⟨s1, h1, hwf1, hi1, hw1, hs1, hv1⟩ :=
    dequeue_wf_empty initQueue c wf_initQueue (by decide)
  have hw1b : waiters s1 = [c] := hw1
  have hs1b : s1.signalled = [] := hs1
  obtain ⟨s2, h2, hwf2, hi2, hw2, hs2, hv2⟩ := enqueue_wf s1 X hwf1
  have hi2b : items s2 = [X] := by rw [hi2, hi1]; rfl
  have hw2b : waiters s2 = [] := by rw [hw2, hw1b]; rfl
  have hs2b : s2.signalled = [c] := by rw [hs2, hs1b, hw1b]; rfl
  obtain ⟨s3, h3, _, hi3, hw3, _, hv3⟩ := item_dequeue_wf s2 X [] hwf2 hi2b
  refine ⟨{ initSys with st := s1, log := initSys.log ++ [Event.blocked c] },
    { st := s2, woken := [c], log := [Event.blocked c, Event.enqueued X] },
    { st := s3, woken := [], log := [Event.blocked c, Event.enqueued X, Event.returned c X] },
    ?_, rfl, hw1b, ?_, hs2b, rfl, ?_, rfl, ?_, hi3, ?_⟩
  · show step initSys (Op.deq c) = _
    simp only [step]
    have h1b : dequeue initSys.st c = some (Dequeued.waiting s1) := h1
    rw [h1b]
  · simp only [step, h2, hs2b, hs1b]
    rfl
  · simp only [step, List.mem_singleton, if_true, dequeue_resume, h3]
    simp
  · rw [hv3, hv2, hv1]; rfl
  · rw [hw3, hw2b]

/-- C14. Waiter registration on a well-formed state.  A `dequeue` that enters
with an empty item queue appends one waiter node holding its own handle at
the end of the waiter queue (the others keep their order, the waiter
`queue_size` grows by 1, the item queue is untouched) and then waits; a
`dequeue` that enters with an item returns it, registers nothing and leaves
the waiter queue as it is. -/
theorem dequeue_registers_only_when_empty (s : State) (c : Cnd) (h : WF s) :
    (items s = [] →
      ∃ s1, dequeue s c = some (Dequeued.waiting s1) ∧ WF s1 ∧
        waiters s1 = waiters s ++ [c] ∧
        s1.thread_queue.queue_size = s.thread_queue.queue_size + 1 ∧
        s1.item_queue = s.item_queue ∧ s1.elems = s.elems ∧ items s1 = items s ∧
        s1.signalled = s.signalled) ∧
    (items s ≠ [] →
      ∃ a s1, dequeue s c = some (Dequeued.returned a s1) ∧ items s = a :: items s1 ∧
        waiters s1 = waiters s ∧ s1.thread_queue = s.thread_queue ∧ s1.nodes = s.nodes) := by
  constructor
  · intro he
    obtain ⟨s1, h1, hwf1, hi1, hw1, hs1, _⟩ := dequeue_wf_empty s c h he
    obtain ⟨s2, h2, hq2, he2, hsz2⟩ := dequeue_wf_empty_frame s c h he
    have hsame : s2 = s1 := by
      rw [h1] at h2
      cases h2
      rfl
    subst hsame
    exact ⟨s2, h1, hwf1, hw1, hsz2, hq2, he2, by rw [hi1, he], hs1⟩
  · intro hne
    cases hit : items s with
    | nil => exact absurd hit hne
    | cons a rest =>
      obtain ⟨s1, h1, _, hi1, hw1, _, _⟩ := dequeue_wf_cons s c a rest h hit
      obtain ⟨s2, h2, hq2, hn2⟩ := dequeue_wf_cons_frame s c a rest h hit
      have hsame : s2 = s1 := by
        rw [h1] at h2
        cases h2
        rfl
      subst hsame
      exact ⟨a, s2, h1, by rw [hi1], hw1, hq2, hn2⟩

theorem dequeue_registers_only_when_empty_witness :
    WF two_waiters ∧
    ((items two_waiters = [] →
      ∃ s1, dequeue two_waiters 3 = some (Dequeued.waiting s1) ∧ WF s1 ∧
        waiters s1 = waiters two_waiters ++ [3] ∧
        s1.thread_queue.queue_size = two_waiters.thread_queue.queue_size + 1 ∧
        s1.item_queue = two_waiters.item_queue ∧ s1.elems = two_waiters.elems ∧
        items s1 = items two_waiters ∧ s1.signalled = two_waiters.signalled) ∧
    (items two_waiters ≠ [] →
      ∃ a s1, dequeue two_waiters 3 = some (Dequeued.returned a s1) ∧
        items two_waiters = a :: items s1 ∧
        waiters s1 = waiters two_waiters ∧ s1.thread_queue = two_waiters.thread_queue ∧
        s1.nodes = two_waiters.nodes)) :=
  ⟨by decide, dequeue_registers_only_when_empty two_waiters 3 (by decide)⟩

/-- In a proper list the `k`-th step of the walk lands on the `k`-th cell. -/
theorem advance_lt (elems : Ptr → Option QueueElem) :
    ∀ (k : Nat) (l : List (Ptr × QueueElem)) (h : Option Ptr),
      Seg elems QueueElem.next h l none → k < l.length →
      ∃ c, l[k]? = some c ∧ advance elems k h = some (some c.1) ∧ elems c.1 = some c.2
  | _, [], _, _, hk => by simp at hk
  | 0, c :: rest, h, hs, _ => by
    obtain ⟨h1, h2, _⟩ := hs
    exact ⟨c, by simp, by simp [advance, h1], h2⟩
  | k + 1, c :: rest, h, hs, hk => by
    obtain ⟨h1, h2, h3⟩ := hs
    obtain ⟨d, hd, hadv, hel⟩ := advance_lt elems k rest _ h3 (by simpa using hk)
    refine ⟨d, by simpa using hd, ?_, hel⟩
    subst h1
    simp only [advance, h2]
    exact hadv

/-- C17. The walk of `tryDequeue` stays in bounds: on a state whose item list
is a proper list counted by `queue_size`, with a waiter count `W ≥ 0` below
`queue_size`, `tryDequeue` returns true without touching `NULL` or a freed
cell.  With `W = 0` the head node exists; with `W ≥ 1` every one of the
`W - 1` steps `current_elem = current_elem->next` lands on an existing node,
and the node after the last one, `element_to_return`, exists as well. -/
theorem tryDequeue_walk_in_bounds (s : State) (out : Item) (hl : ItemsLinked s)
    (h0 : 0 ≤ s.thread_queue.queue_size)
    (hgt : s.item_queue.queue_size > s.thread_queue.queue_size) :
    (∃ a s1, tryDequeue s out = some (true, a, s1)) ∧
    (s.thread_queue.queue_size = 0 →
      ∃ d e, s.item_queue.head = some d ∧ s.elems d = some e) ∧
    (1 ≤ s.thread_queue.queue_size →
      (∀ k, k ≤ (s.thread_queue.queue_size - 1).toNat →
        ∃ p e, advance s.elems k s.item_queue.head = some (some p) ∧ s.elems p = some e) ∧
      ∃ cur e r re,
        advance s.elems (s.thread_queue.queue_size - 1).toNat s.item_queue.head =
          some (some cur) ∧
        s.elems cur = some e ∧ e.next = some r ∧ s.elems r = some re) := by
  have hi := itemRep_of_linked s hl
  have hsize := hi.size
  refine ⟨?_, ?_, ?_⟩
  · by_cases hz : s.thread_queue.queue_size = 0
    · cases hc : item_cells s with
      | nil =>
        rw [hc] at hsize
        rw [hz, hsize] at hgt
        simp at hgt
      | cons d cells =>
        rw [hc] at hi
        obtain ⟨s1, hpop, _⟩ := pop_item_rep s d cells hi
        refine ⟨d.2.item, s1, ?_⟩
        unfold tryDequeue
        rw [if_pos hgt, if_pos hz, hpop]
    · obtain ⟨pre, c, r, suf, hsplit, hpre⟩ :=
        split_at_pair (s.thread_queue.queue_size - 1).toNat (item_cells s) (by omega)
      rw [hsplit] at hi
      obtain ⟨s1, htry, _⟩ := skip_item_rep s out pre suf c r hi (by omega)
      exact ⟨r.2.item, s1, htry⟩
  · intro hz
    obtain ⟨c, _, hadv, hel⟩ := advance_lt s.elems 0 (item_cells s) _ hi.seg (by omega)
    refine ⟨c.1, c.2, ?_, hel⟩
    simpa [advance] using hadv
  · intro h1
    refine ⟨?_, ?_⟩
    · intro k hk
      obtain ⟨c, _, hadv, hel⟩ := advance_lt s.elems k (item_cells s) _ hi.seg (by omega)
      exact ⟨c.1, c.2, hadv, hel⟩
    · obtain ⟨pre, c, r, suf, hsplit, hpre⟩ :=
        split_at_pair (s.thread_queue.queue_size - 1).toNat (item_cells s) (by omega)
      have hseg := hi.seg
      rw [hsplit, seg_append] at hseg
      obtain ⟨m, hp, hm, hc, hcn, hr, _⟩ := hseg
      refine ⟨c.1, c.2, r.1, r.2, ?_, hc, hcn, hr⟩
      rw [← hpre, ← hm]
      exact advance_of_seg s.elems pre _ _ hp

theorem tryDequeue_walk_in_bounds_witness :
    ItemsLinked two_items_one_waiter ∧ 0 ≤ two_items_one_waiter.thread_queue.queue_size ∧
    two_items_one_waiter.item_queue.queue_size > two_items_one_waiter.thread_queue.queue_size ∧
    ((∃ a s1, tryDequeue two_items_one_waiter 0 = some (true, a, s1)) ∧
    (two_items_one_waiter.thread_queue.queue_size = 0 →
      ∃ d e, two_items_one_waiter.item_queue.head = some d ∧
        two_items_one_waiter.elems d = some e) ∧
    (1 ≤ two_items_one_waiter.thread_queue.queue_size →
      (∀ k, k ≤ (two_items_one_waiter.thread_queue.queue_size - 1).toNat →
        ∃ p e, advance two_items_one_waiter.elems k two_items_one_waiter.item_queue.head =
            some (some p) ∧
          two_items_one_waiter.elems p = some e) ∧
      ∃ cur e r re,
        advance two_items_one_waiter.elems
            (two_items_one_waiter.thread_queue.queue_size - 1).toNat
            two_items_one_waiter.item_queue.head =
          some (some cur) ∧
        two_items_one_waiter.elems cur = some e ∧ e.next = some r ∧
        two_items_one_waiter.elems r = some re)) :=
  ⟨by decide, by decide, by decide,
    tryDequeue_walk_in_bounds two_items_one_waiter 0 (by decide) (by decide) (by decide)⟩

/-! ## Teardown -/

/-- What `thread_dequeue` does to a well-formed state with a waiter. -/
theorem thread_dequeue_wf (s : State) (c : Cnd) (rest : List Cnd) (h : WF s)
    (hw : waiters s = c :: rest) :
    ∃ s1, thread_dequeue s = some (c, s1) ∧ WF s1 ∧ items s1 = items s ∧
      waiters s1 = rest ∧ s1.signalled = s.signalled ∧ visited s1 = visited s := by
  obtain ⟨hi, hit, hth⟩ := rep_of_wf s h
  cases hc : thread_cells s with
  | nil => simp [waiters, hc] at hw
  | cons d cells =>
    rw [hc] at hth
    have hw2 : d.2.condition = c ∧ cells.map (fun c => c.2.condition) = rest := by
      simpa [waiters, hc] using hw
    obtain ⟨s1, hpop, hth1, he1, hq1, hb1, hs1⟩ := pop_thread_rep s d cells hth
    have hi1 : ItemRep s1 (item_cells s) := itemRep_transfer s s1 _ hi he1 hq1 (by rw [hb1])
    have hrep : Rep s1 (item_cells s) cells := ⟨hi1, by rw [hq1]; exact hit, hth1⟩
    refine ⟨s1, ?_, wf_of_rep s1 _ _ hrep, ?_, ?_, hs1, ?_⟩
    · rw [hpop, hw2.1]
    · rw [items_of_rep s1 _ hi1]; rfl
    · rw [waiters_of_rep s1 _ hth1]; exact hw2.2
    · show s1.item_queue.visited_items = s.item_queue.visited_items
      rw [hq1]

theorem drain_items_wf :
    ∀ (n : Nat) (s : State), WF s → n ≤ (items s).length →
      ∃ s1, drain_items n s = some s1 ∧ WF s1 ∧ items s1 = (items s).drop n ∧
        waiters s1 = waiters s ∧ s1.signalled = s.signalled ∧
        visited s1 = visited s + n
  | 0, s, h, _ => ⟨s, rfl, h, rfl, rfl, rfl, rfl⟩
  | n + 1, s, h, hn => by
    cases hit : items s with
    | nil => rw [hit] at hn; simp at hn
    | cons a rest =>
      obtain ⟨s1, hpop, hwf1, hi1, hw1, hs1, hv1⟩ := item_dequeue_wf s a rest h hit
      obtain ⟨s2, hd, hwf2, hi2, hw2, hs2, hv2⟩ :=
        drain_items_wf n s1 hwf1 (by rw [hi1]; rw [hit] at hn; simpa using hn)
      refine ⟨s2, ?_, hwf2, ?_, ?_, ?_, ?_⟩
      · simp only [drain_items, hpop]
        exact hd
      · rw [hi2, hi1]; rfl
      · rw [hw2, hw1]
      · rw [hs2, hs1]
      · rw [hv2, hv1]; omega

theorem drain_threads_wf :
    ∀ (n : Nat) (s : State), WF s → n ≤ (waiters s).length →
      ∃ s1, drain_threads n s = some s1 ∧ WF s1 ∧ items s1 = items s ∧
        waiters s1 = (waiters s).drop n ∧ s1.signalled = s.signalled ∧
        visited s1 = visited s
  | 0, s, h, _ => ⟨s, rfl, h, rfl, rfl, rfl, rfl⟩
  | n + 1, s, h, hn => by
    cases hw : waiters s with
    | nil => rw [hw] at hn; simp at hn
    | cons c rest =>
      obtain ⟨s1, hpop, hwf1, hi1, hw1, hs1, hv1⟩ := thread_dequeue_wf s c rest h hw
      obtain ⟨s2, hd, hwf2, hi2, hw2, hs2, hv2⟩ :=
        drain_threads_wf n s1 hwf1 (by rw [hw1]; rw [hw] at hn; simpa using hn)
      refine ⟨s2, ?_, hwf2, ?_, ?_, ?_, ?_⟩
      · simp only [drain_threads, hpop]
        exact hd
      · rw [hi2, hi1]
      · rw [hw2, hw1]; rfl
      · rw [hs2, hs1]
      · rw [hv2, hv1]

theorem store_relabel (elems : Ptr → Option QueueElem) (g : QueueElem → QueueElem) (d : Ptr) :
    (fun p => (store elems d none p).map g) = store (fun p => (elems p).map g) d none := by
  funext p
  by_cases hp : p = d
  · simp [store, hp]
  · simp [store, hp]

theorem item_dequeue_relabel (f : Item → Item) (s : State) :
    item_dequeue_impl (relabel f s) =
      (item_dequeue_impl s).map (fun r => (f r.1, relabel f r.2)) := by
  unfold item_dequeue_impl
  cases hh : s.item_queue.head with
  | none => simp [relabel, hh]
  | some d =>
    cases he : s.elems d with
    | none => simp [relabel, hh, he]
    | some e =>
      simp only [relabel, hh, he, Option.map_some', Option.some.injEq, Prod.mk.injEq, true_and]
      rw [store_relabel]

theorem thread_dequeue_relabel (f : Item → Item) (s : State) :
    thread_dequeue (relabel f s) = (thread_dequeue s).map (fun r => (r.1, relabel f r.2)) := by
  unfold thread_dequeue
  cases hh : s.thread_queue.head with
  | none => simp [relabel, hh]
  | some d =>
    cases he : s.nodes d with
    | none => simp [relabel, hh, he]
    | some e => simp [relabel, hh, he]

theorem drain_items_relabel (f : Item → Item) :
    ∀ (n : Nat) (s : State),
      drain_items n (relabel f s) = (drain_items n s).map (relabel f)
  | 0, _ => rfl
  | n + 1, s => by
    simp only [drain_items, item_dequeue_relabel]
    cases item_dequeue_impl s with
    | none => rfl
    | some r => exact drain_items_relabel f n r.2

theorem drain_threads_relabel (f : Item → Item) :
    ∀ (n : Nat) (s : State),
      drain_threads n (relabel f s) = (drain_threads n s).map (relabel f)
  | 0, _ => rfl
  | n + 1, s => by
    simp only [drain_threads, thread_dequeue_relabel]
    cases thread_dequeue s with
    | none => rfl
    | some r => exact drain_threads_relabel f n r.2

theorem destroyQueue_relabel (f : Item → Item) (s : State) :
    destroyQueue (relabel f s) = (destroyQueue s).map (relabel f) := by
  unfold destroyQueue
  have e1 : (relabel f s).item_queue = s.item_queue := rfl
  rw [e1, drain_items_relabel]
  cases drain_items s.item_queue.queue_size.toNat s with
  | none => rfl
  | some s1 =>
    have e2 : (relabel f s1).thread_queue = s1.thread_queue := rfl
    simp only [Option.map_some', e2]
    exact drain_threads_relabel f _ s1

/-- C15. On a well-formed state with `I` items and `W` waiters `destroyQueue`
runs `item_dequeue_impl` exactly `I` times and `thread_dequeue` exactly `W`
times, none of them on an empty container, so that both containers are empty
when they are freed.  It signals nothing, and it does not look at the
payloads: on the same state with other payloads it does the same. -/
theorem destroyQueue_drains_without_waking (s : State) (h : WF s) :
    ∃ s1 s2, drain_items (items s).length s = some s1 ∧
      drain_threads (waiters s).length s1 = some s2 ∧
      destroyQueue s = some s2 ∧
      items s1 = [] ∧ waiters s1 = waiters s ∧
      items s2 = [] ∧ waiters s2 = [] ∧
      s2.item_queue.queue_size = 0 ∧ s2.item_queue.head = none ∧
      s2.item_queue.tail = none ∧
      s2.thread_queue.queue_size = 0 ∧ s2.thread_queue.head = none ∧
      s2.thread_queue.tail = none ∧
      s2.signalled = s.signalled ∧ visited s2 = visited s + (items s).length ∧
      ∀ f : Item → Item, destroyQueue (relabel f s) = some (relabel f s2) := by
  obtain ⟨s1, hd1, hwf1, hi1, hw1, hs1, hv1⟩ :=
    drain_items_wf (items s).length s h (Nat.le_refl _)
  obtain ⟨s2, hd2, hwf2, hi2, hw2, hs2, hv2⟩ :=
    drain_threads_wf (waiters s).length s1 hwf1 (by rw [hw1])
  rw [List.drop_length] at hi1
  rw [hw1, List.drop_length] at hw2
  rw [hi1] at hi2
  have hdes : destroyQueue s = some s2 := by
    unfold destroyQueue
    have e1 : s.item_queue.queue_size.toNat = (items s).length := by
      rw [wf_size_items s h]; simp
    have e2 : s1.thread_queue.queue_size.toNat = (waiters s).length := by
      rw [wf_size_waiters s1 hwf1, hw1]; simp
    rw [e1, hd1]
    simp only [e2]
    exact hd2
  have hth := threadRep_of_wf s2 hwf2.2
  have hcells : thread_cells s2 = [] := by simpa [waiters] using hw2
  rw [hcells] at hth
  obtain ⟨hz, hhead, htail⟩ := wf_empty s2 hwf2 hi2
  refine ⟨s1, s2, hd1, hd2, hdes, hi1, hw1, hi2, hw2, hz, hhead, htail, ?_, hth.seg, ?_,
    ?_, ?_, ?_⟩
  · rw [hth.size]; rfl
  · rw [hth.tail]; rfl
  · rw [hs2, hs1]
  · rw [hv2, hv1]
  · intro f
    rw [destroyQueue_relabel, hdes]
    rfl

theorem destroyQueue_drains_without_waking_witness :
    WF two_items_one_waiter ∧
    ∃ s1 s2, drain_items (items two_items_one_waiter).length two_items_one_waiter = some s1 ∧
      drain_threads (waiters two_items_one_waiter).length s1 = some s2 ∧
      destroyQueue two_items_one_waiter = some s2 ∧
      items s1 = [] ∧ waiters s1 = waiters two_items_one_waiter ∧
      items s2 = [] ∧ waiters s2 = [] ∧
      s2.item_queue.queue_size = 0 ∧ s2.item_queue.head = none ∧
      s2.item_queue.tail = none ∧
      s2.thread_queue.queue_size = 0 ∧ s2.thread_queue.head = none ∧
      s2.thread_queue.tail = none ∧
      s2.signalled = two_items_one_waiter.signalled ∧
      visited s2 = visited two_items_one_waiter + (items two_items_one_waiter).length ∧
      ∀ f : Item → Item, destroyQueue (relabel f two_items_one_waiter) = some (relabel f s2) :=
  ⟨by decide, destroyQueue_drains_without_waking two_items_one_waiter (by decide)⟩

/-! ## The tail pointer after the skip branch -/

/-- C18. On the well-formed state with items 10, 20 and one waiter (`I = W + 1`)
`tryDequeue` returns true with 20, the item of the last node.  Afterwards one
node, at address 3, is linked from `head`, while `tail` still holds address 4,
the node that was unlinked and freed; the next `enqueue` writes `tail->next`
through that freed address. -/
theorem tail_is_stale_after_last_node_is_skipped :
    WF two_items_one_waiter ∧
    (tryDequeue two_items_one_waiter 0).map
        (fun r => (r.1, r.2.1, r.2.2.item_queue.tail,
          (item_cells r.2.2).getLast?.map Prod.fst, (enqueue r.2.2 30).isSome)) =
      some (true, 20, some 4, some 3, false) := by
  decide

/-! ## Quiescent schedules -/

/-- One call of a quiescent schedule, from a well-formed state with no
consumer left to resume and not both queues occupied: it does not fault and
ends in such a state again. -/
theorem quiet_step_keeps (y : Sys) (call : Call) (h : WF y.st) (hk : y.woken = [])
    (hq : items y.st = [] ∨ waiters y.st = []) :
    ∃ y1, quiet_step y call = some y1 ∧ WF y1.st ∧ y1.woken = [] ∧
      (items y1.st = [] ∨ waiters y1.st = []) := by
  cases call with
  | enqueue x =>
    obtain ⟨s1, henq, hwf1, hi1, hw1, hs1, _⟩ := enqueue_wf y.st x h
    have hdrop : s1.signalled.drop y.st.signalled.length = (waiters y.st).head?.toList := by
      rw [hs1, List.drop_left]
    cases hw : waiters y.st with
    | nil =>
      rw [hw] at hw1 hdrop
      refine ⟨{ st := s1, woken := y.woken ++ s1.signalled.drop y.st.signalled.length,
                log := y.log ++ [Event.enqueued x] }, ?_, hwf1, ?_, Or.inr hw1⟩
      · simp only [quiet_step, step, henq, hdrop, hk]
        rfl
      · show y.woken ++ s1.signalled.drop y.st.signalled.length = []
        rw [hdrop, hk]; rfl
    | cons c rest =>
      rw [hw] at hw1 hdrop
      have hitems : items y.st = [] := by
        rcases hq with hq | hq
        · exact hq
        · rw [hw] at hq; cases hq
      have hi1b : items s1 = [x] := by rw [hi1, hitems]; rfl
      obtain ⟨s2, hpop, hwf2, hi2, _, _, _⟩ := item_dequeue_wf s1 x [] hwf1 hi1b
      refine ⟨{ st := s2, woken := [],
                log := y.log ++ [Event.enqueued x] ++ [Event.returned c x] }, ?_, hwf2, rfl,
        Or.inl hi2⟩
      simp only [quiet_step, step, henq, hdrop, hk, Option.toList,
        List.head?_cons, List.nil_append, List.mem_singleton, if_true, dequeue_resume, hpop]
      simp
  | dequeue c =>
    cases hit : items y.st with
    | nil =>
      obtain ⟨s1, hdeq, hwf1, hi1, _, _, _⟩ := dequeue_wf_empty y.st c h hit
      refine ⟨{ y with st := s1, log := y.log ++ [Event.blocked c] }, ?_, hwf1, hk,
        Or.inl hi1⟩
      simp only [quiet_step, step, hdeq]
    | cons a rest =>
      have hw : waiters y.st = [] := by
        rcases hq with hq | hq
        · rw [hit] at hq; cases hq
        · exact hq
      obtain ⟨s1, hdeq, hwf1, _, hw1, _, _⟩ := dequeue_wf_cons y.st c a rest h hit
      refine ⟨{ y with st := s1, log := y.log ++ [Event.returned c a] }, ?_, hwf1, hk,
        Or.inr (by rw [hw1, hw])⟩
      simp only [quiet_step, step, hdeq]
  | tryDequeue out =>
    by_cases hle : (items y.st).length ≤ (waiters y.st).length
    · have htry := tryDequeue_wf_fail y.st out h hle
      refine ⟨{ y with st := y.st, log := y.log ++ [Event.tried false out] }, ?_, h, hk, hq⟩
      simp only [quiet_step, step, htry]
    · cases hit : items y.st with
      | nil => rw [hit] at hle; simp at hle
      | cons a rest =>
        have hw : waiters y.st = [] := by
          rcases hq with hq | hq
          · rw [hit] at hq; cases hq
          · exact hq
        obtain ⟨s1, htry, hwf1, _, hw1, _, _⟩ := tryDequeue_wf_head y.st out a rest h hw hit
        refine ⟨{ y with st := s1, log := y.log ++ [Event.tried true a] }, ?_, hwf1, hk,
          Or.inr (by rw [hw1, hw])⟩
        simp only [quiet_step, step, htry]

theorem quiet_run_keeps (calls : List Call) :
    ∀ y : Sys, WF y.st → y.woken = [] → (items y.st = [] ∨ waiters y.st = []) →
      ∃ y1, quiet_run y calls = some y1 ∧ WF y1.st ∧ y1.woken = [] ∧
        (items y1.st = [] ∨ waiters y1.st = []) := by
  induction calls with
  | nil =>
    intro y h hk hq
    exact ⟨y, rfl, h, hk, hq⟩
  | cons call calls ih =>
    intro y h hk hq
    obtain ⟨y1, hstep, h1, hk1, hq1⟩ := quiet_step_keeps y call h hk hq
    obtain ⟨y2, hrun, h2⟩ := ih y1 h1 hk1 hq1
    refine ⟨y2, ?_, h2⟩
    simp only [quiet_run, hstep]
    exact hrun

/-- C19. In a schedule where every `dequeue` that waited completes its head
removal right after the `enqueue` that signals it, every sequence of
`enqueue`, `dequeue` and `tryDequeue` calls from `initQueue` runs without a
fault and ends in a well-formed state where the item queue and the waiter
queue are not both non-empty.  So with `I` items and `W` waiters the skip
branch condition `1 ≤ W < I` of `tryDequeue` never holds there, and the number
`min I W` of reserved items is 0. -/
theorem items_and_waiters_never_both (calls : List Call) :
    ∃ y, quiet_run initSys calls = some y ∧ WF y.st ∧ y.woken = [] ∧
      (items y.st = [] ∨ waiters y.st = []) ∧
      ¬ (1 ≤ y.st.thread_queue.queue_size ∧
          y.st.thread_queue.queue_size < y.st.item_queue.queue_size) ∧
      min (items y.st).length (waiters y.st).length = 0 := by
  obtain ⟨y, hrun, hwf, hk, hq⟩ :=
    quiet_run_keeps calls initSys wf_initQueue rfl (Or.inl (by decide))
  refine ⟨y, hrun, hwf, hk, hq, ?_, ?_⟩
  · rw [wf_size_items y.st hwf, wf_size_waiters y.st hwf]
    rcases hq with hq | hq
    · rw [hq]; simp
    · rw [hq]; simp
  · rcases hq with hq | hq
    · rw [hq]; simp
    · rw [hq]; simp

/-! ## States reached by arbitrary interleavings -/

theorem sound_of_wf (s : State) (h : WF s) : Sound s :=
  ⟨h.2, h.1.1, Or.inl h.1.2⟩

theorem sound_intro (s : State) (cells : List (Ptr × QueueElem)) (hi : ItemRep s cells)
    (hth : WFThreads s)
    (ht : s.item_queue.tail = cells.getLast?.map Prod.fst ∨
      ∃ t, s.item_queue.tail = some t ∧ s.elems t = none ∧ t < s.brk ∧ cells ≠ []) :
    Sound s := by
  refine ⟨hth, linked_of_itemRep s cells hi, ?_⟩
  unfold TailDangling
  rw [item_cells_of_rep s cells hi]
  exact ht

theorem items_length (s : State) : (items s).length = (item_cells s).length := by
  simp [items]

theorem enqueue_sound (s s1 : State) (x : Item) (h : Sound s) (he : enqueue s x = some s1) :
    Sound s1 ∧ items s1 = items s ++ [x] := by
  obtain ⟨hth, hl, ht⟩ := h
  rcases ht with ht | ⟨t, htl, hfree, hlt, hne⟩
  · obtain ⟨s2, he2, hwf2, hi2, _⟩ := enqueue_wf s x ⟨⟨hl, ht⟩, hth⟩
    rw [he] at he2
    cases he2
    exact ⟨sound_of_wf _ hwf2, hi2⟩
  · exfalso
    have hsz : s.item_queue.queue_size ≠ 0 := by
      rw [hl.2.2]
      have : (item_cells s).length ≠ 0 := fun h0 => hne (List.length_eq_zero.mp h0)
      omega
    have hlook : store s.elems s.brk (some { item := x, next := none }) t = none := by
      rw [store_other _ _ _ _ (Nat.ne_of_lt hlt)]; exact hfree
    have hadd : add_element_to_item_queue (init_item s x).2 (init_item s x).1 = none := by
      simp only [add_element_to_item_queue, init_item, hsz, if_false, htl, hlook]
    unfold enqueue at he
    rw [hadd] at he
    cases he

theorem item_dequeue_explicit (s s1 : State) (a : Item)
    (h : item_dequeue_impl s = some (a, s1)) :
    s1.item_queue.tail =
        (if s.item_queue.queue_size - 1 = 0 then none else s.item_queue.tail) ∧
      (∀ t, s.elems t = none → s1.elems t = none) := by
  unfold item_dequeue_impl at h
  split at h
  · cases h
  · split at h
    · cases h
    · cases h
      refine ⟨rfl, ?_⟩
      intro t ht
      show store s.elems _ none t = none
      unfold store
      split
      · rfl
      · exact ht

theorem item_dequeue_sound (s s1 : State) (a : Item) (h : Sound s)
    (he : item_dequeue_impl s = some (a, s1)) :
    Sound s1 ∧ items s = a :: items s1 := by
  obtain ⟨hth, hl, ht⟩ := h
  have hi := itemRep_of_linked s hl
  cases hc : item_cells s with
  | nil =>
    rw [hc] at hi
    have hh : s.item_queue.head = none := hi.seg
    simp [item_dequeue_impl, hh] at he
  | cons d cells =>
    rw [hc] at hi
    obtain ⟨s2, hpop, hi2, hit2, hn2, hq2, hb2, _, _⟩ := pop_item_rep s d cells hi
    rw [he] at hpop
    cases hpop
    obtain ⟨htail, hfreed⟩ := item_dequeue_explicit s s1 _ he
    have hth1 : WFThreads s1 :=
      wf_of_threadRep s1 _ (threadRep_transfer s s1 _ (threadRep_of_wf s hth) hn2 hq2
        (by rw [hb2]))
    refine ⟨sound_intro s1 cells hi2 hth1 ?_, ?_⟩
    · rcases ht with ht | ⟨t, htl, hfree, hlt, _⟩
      · left
        rw [hc] at ht
        exact hit2 ht
      · cases cells with
        | nil =>
          left
          rw [htail, hi.size]
          simp
        | cons d2 cells2 =>
          right
          refine ⟨t, ?_, hfreed t hfree, by rw [hb2]; exact hlt, by simp⟩
          rw [htail, hi.size, if_neg (by simp only [List.length_cons]; omega)]
          exact htl
    · rw [items_of_rep s1 cells hi2]
      simp [items, hc]

theorem deal_with_empty_queue_sound (s s1 : State) (c : Cnd) (b : Bool) (h : Sound s)
    (he : deal_with_empty_queue s c = some (b, s1)) :
    Sound s1 ∧ items s1 = items s := by
  unfold deal_with_empty_queue at he
  split at he
  · obtain ⟨hth, hl, ht⟩ := h
    have hi := itemRep_of_linked s hl
    obtain ⟨s2, tc1, hadd, hth2, _, he2, hq2, hb2, _⟩ :=
      add_thread_rep s _ c (threadRep_of_wf s hth)
    rw [hadd] at he
    cases he
    have hi1 : ItemRep s1 (item_cells s) :=
      itemRep_transfer s s1 _ hi he2 hq2 (by rw [hb2]; exact Nat.le_succ _)
    refine ⟨sound_intro s1 _ hi1 (wf_of_threadRep s1 _ hth2) ?_, ?_⟩
    · rcases ht with ht | ⟨t, htl, hfree, hlt, hne⟩
      · left; rw [hq2]; exact ht
      · right
        exact ⟨t, by rw [hq2]; exact htl, by rw [he2]; exact hfree,
          by rw [hb2]; exact Nat.lt_succ_of_lt hlt, hne⟩
    · rw [items_of_rep s1 _ hi1]; rfl
  · cases he
    exact ⟨h, rfl⟩

theorem skip_item_elems (s : State) (out : Item) (pre suf : List (Ptr × QueueElem))
    (c r : Ptr × QueueElem) (h : ItemRep s (pre ++ c :: r :: suf))
    (hW : s.thread_queue.queue_size = (pre.length : Int) + 1) :
    ∃ s1, tryDequeue s out = some (true, r.2.item, s1) ∧
      s1.elems = store (store s.elems c.1 (some { c.2 with next := r.2.next })) r.1 none := by
  obtain ⟨hseg, hbound, hsize⟩ := h
  have hnd := seg_nodup s.elems QueueElem.next _ s.item_queue.head hseg
  have hcne := ne_of_nodup_mid pre (r :: suf) c hnd
  have hrc : r.1 ≠ c.1 := hcne.2 r (List.mem_cons_self _ _)
  rw [seg_append] at hseg
  obtain ⟨m, hpre, hm, hc, hcn, hr, hsuf⟩ := hseg
  have hadv : advance s.elems (s.thread_queue.queue_size - 1).toNat s.item_queue.head =
      some (some c.1) := by
    have e1 : (s.thread_queue.queue_size - 1).toNat = pre.length := by
      rw [hW]; simp
    rw [e1, ← hm]
    exact advance_of_seg s.elems pre _ _ hpre
  have hgt : s.item_queue.queue_size > s.thread_queue.queue_size := by
    rw [hsize, hW]
    simp only [List.length_append, List.length_cons]
    omega
  have hWne : s.thread_queue.queue_size ≠ 0 := by
    rw [hW]; omega
  have hlook : store s.elems c.1 (some { item := c.2.item, next := r.2.next }) r.1 =
      some r.2 := by
    rw [store_other _ _ _ _ hrc]; exact hr
  apply Exists.intro
  refine ⟨?comp, ?el⟩
  case comp =>
    simp only [tryDequeue, hgt, if_true, hWne, if_false, dequeue_first_non_acquired_element,
      hadv, hc, hcn, hr, hlook]
    rfl
  case el => rfl

theorem tryDequeue_sound (s s1 : State) (out out1 : Item) (found : Bool) (h : Sound s)
    (he : tryDequeue s out = some (found, out1, s1)) :
    Sound s1 ∧ (found = false → items s1 = items s) ∧
      (found = true → (out1 :: items s1).Perm (items s)) := by
  by_cases hgt : s.item_queue.queue_size > s.thread_queue.queue_size
  · by_cases hz : s.thread_queue.queue_size = 0
    · unfold tryDequeue at he
      rw [if_pos hgt, if_pos hz] at he
      cases hp : item_dequeue_impl s with
      | none => rw [hp] at he; cases he
      | some r =>
        rw [hp] at he
        cases he
        obtain ⟨hs1, hit⟩ := item_dequeue_sound s r.2 r.1 h hp
        refine ⟨hs1, (fun hb => by cases hb), (fun _ => ?_)⟩
        rw [hit]
    · obtain ⟨hth, hl, ht⟩ := h
      have hi := itemRep_of_linked s hl
      have htsz := hth.2.2.1
      obtain ⟨pre, c, r, suf, hsplit, hpre⟩ :=
        split_at_pair (s.thread_queue.queue_size - 1).toNat (item_cells s)
          (by have := hi.size; omega)
      have hW : s.thread_queue.queue_size = (pre.length : Int) + 1 := by omega
      rw [hsplit] at hi
      obtain ⟨s2, htry, hi2, ht2, hn2, hq2, hb2, _, _⟩ := skip_item_rep s out pre suf c r hi hW
      obtain ⟨s3, htry3, hel⟩ := skip_item_elems s out pre suf c r hi hW
      rw [he] at htry htry3
      cases htry
      cases htry3
      have hth1 : WFThreads s1 :=
        wf_of_threadRep s1 _ (threadRep_transfer s s1 _ (threadRep_of_wf s hth) hn2 hq2
          (by rw [hb2]))
      refine ⟨sound_intro s1 _ hi2 hth1 ?_, (fun hb => by cases hb), (fun _ => ?_)⟩
      · rcases ht with ht | ⟨t, htl, hfree, hlt, _⟩
        · rw [hsplit] at ht
          cases suf with
          | nil =>
            right
            refine ⟨r.1, ?_, ?_, ?_, by simp⟩
            · rw [ht2, ht]; simp
            · rw [hel, store_same]
            · rw [hb2]; exact hi.bound r (by simp)
          | cons d suf2 =>
            left
            rw [ht2, ht]
            simp [List.getLast?_append, List.getLast?_cons_cons]
        · right
          refine ⟨t, by rw [ht2]; exact htl, ?_, by rw [hb2]; exact hlt, by simp⟩
          rw [hel]
          unfold store
          split
          · rfl
          · split
            · rename_i _ htc
              have hc : s.elems c.1 = some c.2 := by
                have hseg := hi.seg
                rw [seg_append] at hseg
                obtain ⟨_, _, _, hc, _⟩ := hseg
                exact hc
              rw [htc, hc] at hfree
              cases hfree
            · exact hfree
      · rw [items_of_rep s1 _ hi2]
        have e : items s = (pre ++ c :: r :: suf).map (fun c => c.2.item) := by
          simp [items, hsplit]
        rw [e]
        have hm := (@List.perm_middle Item r.2.item
          (pre.map (fun c => c.2.item) ++ [c.2.item])
          (suf.map (fun c => c.2.item))).symm
        simpa using hm
  · unfold tryDequeue at he
    rw [if_neg hgt] at he
    cases he
    exact ⟨h, (fun _ => rfl), (fun hb => by cases hb)⟩

theorem returned_items_append (l : List Event) (e : Event) :
    returned_items (l ++ [e]) = returned_items l ++ returned_items [e] := by
  induction l with
  | nil => simp [returned_items]
  | cons d l ih =>
    cases d with
    | enqueued x => simpa [returned_items] using ih
    | returned c x =>
      show x :: returned_items (l ++ [e]) = x :: returned_items l ++ returned_items [e]
      rw [ih]; rfl
    | blocked c => simpa [returned_items] using ih
    | tried found out =>
      cases found
      · simpa [returned_items] using ih
      · show out :: returned_items (l ++ [e]) = out :: returned_items l ++ returned_items [e]
        rw [ih]; rfl

theorem enqueued_items_append (l : List Event) (e : Event) :
    enqueued_items (l ++ [e]) = enqueued_items l ++ enqueued_items [e] := by
  induction l with
  | nil => simp [enqueued_items]
  | cons d l ih =>
    cases d with
    | enqueued x =>
      show x :: enqueued_items (l ++ [e]) = x :: enqueued_items l ++ enqueued_items [e]
      rw [ih]; rfl
    | returned c x => simpa [enqueued_items] using ih
    | blocked c => simpa [enqueued_items] using ih
    | tried found out => simpa [enqueued_items] using ih

theorem returned_items_length (l : List Event) : (returned_items l).length = successes l := by
  induction l with
  | nil => rfl
  | cons d l ih =>
    cases d with
    | enqueued x => simpa [returned_items, successes] using ih
    | returned c x => simp [returned_items, successes, ih]
    | blocked c => simpa [returned_items, successes] using ih
    | tried found out =>
      cases found
      · simpa [returned_items, successes] using ih
      · simp [returned_items, successes, ih]

/-- One step from a sound state ends in a sound state, and the item it hands
out or takes in accounts for the change of the item sequence. -/
theorem step_sound (y y1 : Sys) (op : Op) (h : Sound y.st) (hs : step y op = some y1) :
    Sound y1.st ∧ ∃ e, y1.log = y.log ++ [e] ∧
      (returned_items [e] ++ items y1.st).Perm (items y.st ++ enqueued_items [e]) := by
  cases op with
  | enq x =>
    simp only [step] at hs
    split at hs
    · cases hs
    · rename_i s1 henq
      cases hs
      obtain ⟨h1, hit⟩ := enqueue_sound y.st s1 x h henq
      refine ⟨h1, Event.enqueued x, rfl, ?_⟩
      show ([] ++ items s1).Perm (items y.st ++ [x])
      rw [hit]
      simp
  | deq c =>
    simp only [step] at hs
    split at hs
    · cases hs
    · rename_i x s1 hdeq
      cases hs
      unfold dequeue at hdeq
      split at hdeq
      · cases hdeq
      · cases hdeq
      · rename_i s2 hd
        split at hdeq
        · cases hdeq
        · rename_i a s3 hpop
          cases hdeq
          obtain ⟨h2, hit2⟩ := deal_with_empty_queue_sound _ _ _ _ h hd
          obtain ⟨h3, hit3⟩ := item_dequeue_sound _ _ _ h2 hpop
          refine ⟨h3, Event.returned c x, rfl, ?_⟩
          show ([x] ++ items s1).Perm (items y.st ++ [])
          rw [← hit2, hit3]
          simp
    · rename_i s1 hdeq
      cases hs
      unfold dequeue at hdeq
      split at hdeq
      · cases hdeq
      · rename_i s2 hd
        cases hdeq
        obtain ⟨h2, hit2⟩ := deal_with_empty_queue_sound _ _ _ _ h hd
        refine ⟨h2, Event.blocked c, rfl, ?_⟩
        show ([] ++ items s1).Perm (items y.st ++ [])
        rw [hit2]
        simp
      · split at hdeq <;> cases hdeq
  | resume c =>
    simp only [step] at hs
    split at hs
    · split at hs
      · cases hs
      · rename_i x s1 hres
        cases hs
        obtain ⟨h1, hit⟩ := item_dequeue_sound _ _ _ h hres
        refine ⟨h1, Event.returned c x, rfl, ?_⟩
        show ([x] ++ items s1).Perm (items y.st ++ [])
        rw [hit]
        simp
    · cases hs
  | tryDeq out =>
    simp only [step] at hs
    split at hs
    · cases hs
    · rename_i found out1 s1 htry
      cases hs
      obtain ⟨h1, hf, ht⟩ := tryDequeue_sound _ _ _ _ _ h htry
      refine ⟨h1, Event.tried found out1, rfl, ?_⟩
      cases found
      · show ([] ++ items s1).Perm (items y.st ++ [])
        rw [hf rfl]
        simp
      · show ([out1] ++ items s1).Perm (items y.st ++ [])
        simpa using ht rfl

theorem run_sound (ops : List Op) :
    ∀ y0 y : Sys, Sound y0.st →
      (returned_items y0.log ++ items y0.st).Perm (enqueued_items y0.log) →
      run y0 ops = some y →
      Sound y.st ∧ (returned_items y.log ++ items y.st).Perm (enqueued_items y.log) := by
  induction ops with
  | nil =>
    intro y0 y h hp hr
    cases hr
    exact ⟨h, hp⟩
  | cons op ops ih =>
    intro y0 y h hp hr
    simp only [run] at hr
    split at hr
    · cases hr
    · rename_i y1 hstep
      obtain ⟨h1, e, hlog, hpe⟩ := step_sound y0 y1 op h hstep
      refine ih y1 y h1 ?_ hr
      rw [hlog, returned_items_append, enqueued_items_append, List.append_assoc]
      exact ((List.Perm.append_left _ hpe).trans
        (by rw [← List.append_assoc])).trans (List.Perm.append_right _ hp)

/-- Conservation of items on the runs that do not fault: in a state reached
from `initQueue` by `enqueue`, `dequeue` and `tryDequeue` steps none of which
dereferences a freed node, `queue_size + visited_items` is the number of
`enqueue` calls made so far, and the items returned so far together with the
items still queued are, as a multiset, the items enqueued.  The hypothesis
leaves out the runs in which an `enqueue` follows a `tryDequeue` that removed
the tail node. -/
theorem items_are_conserved (ops : List Op) (y : Sys) (h : run initSys ops = some y) :
    y.st.item_queue.queue_size + (visited y.st : Int) =
        ((enqueued_items y.log).length : Int) ∧
      (returned_items y.log : Multiset Item) + (items y.st : Multiset Item) =
        (enqueued_items y.log : Multiset Item) := by
  obtain ⟨hs, hp⟩ := run_sound ops initSys y (sound_of_wf _ wf_initQueue)
    (by decide) h
  have hv := run_visited ops initSys y h
  have hv2 : visited y.st = successes y.log := by
    have e1 : successes initSys.log = 0 := rfl
    have e2 : visited initSys.st = 0 := rfl
    omega
  refine ⟨?_, ?_⟩
  · have hlen := hp.length_eq
    rw [List.length_append, returned_items_length, items_length] at hlen
    rw [hs.2.1.2.2, hv2]
    omega
  · rw [Multiset.coe_add]
    exact Multiset.coe_eq_coe.mpr hp

theorem items_are_conserved_witness :
    run initSys [Op.deq 1, Op.deq 2, Op.deq 3, Op.enq 10, Op.enq 20, Op.tryDeq 0, Op.resume 1] =
      some (sys_after
        [Op.deq 1, Op.deq 2, Op.deq 3, Op.enq 10, Op.enq 20, Op.tryDeq 0, Op.resume 1]) ∧
    ((sys_after [Op.deq 1, Op.deq 2, Op.deq 3, Op.enq 10, Op.enq 20, Op.tryDeq 0,
          Op.resume 1]).st.item_queue.queue_size +
        (visited (sys_after [Op.deq 1, Op.deq 2, Op.deq 3, Op.enq 10, Op.enq 20, Op.tryDeq 0,
          Op.resume 1]).st : Int) =
        ((enqueued_items (sys_after [Op.deq 1, Op.deq 2, Op.deq 3, Op.enq 10, Op.enq 20,
          Op.tryDeq 0, Op.resume 1]).log).length : Int) ∧
      (returned_items (sys_after [Op.deq 1, Op.deq 2, Op.deq 3, Op.enq 10, Op.enq 20,
          Op.tryDeq 0, Op.resume 1]).log : Multiset Item) +
        (items (sys_after [Op.deq 1, Op.deq 2, Op.deq 3, Op.enq 10, Op.enq 20, Op.tryDeq 0,
          Op.resume 1]).st : Multiset Item) =
        (enqueued_items (sys_after [Op.deq 1, Op.deq 2, Op.deq 3, Op.enq 10, Op.enq 20,
          Op.tryDeq 0, Op.resume 1]).log : Multiset Item)) :=
  ⟨rfl, items_are_conserved
    [Op.deq 1, Op.deq 2, Op.deq 3, Op.enq 10, Op.enq 20, Op.tryDeq 0, Op.resume 1] _ rfl⟩

/-! ## An `enqueue` after the tail node was skipped -/

/-- C20. Three consumers block, 10 and 20 are enqueued, and `tryDequeue` skips
the one node reserved for the remaining waiter and returns 20, the item of the
tail node.  Up to here the items are conserved: 20 was returned, 10 is queued,
10 and 20 were enqueued, and `queue_size + visited_items = 1 + 1`.  But `tail`
still holds address 4, the node that `tryDequeue` freed, and `enqueue(30)`
writes `tail->next` through it: the step is a use of freed memory.  Where the
freed node is still mapped, whatever it holds, `enqueue(30)` returns with
`queue_size = 2` and `visited_items = 1`, and the only item linked from `head`
is 10: item 30 is neither returned nor queued. -/
theorem item_enqueued_after_skipped_tail_is_lost :
    (run initSys [Op.deq 1, Op.deq 2, Op.deq 3, Op.enq 10, Op.enq 20, Op.tryDeq 0]).map
        (fun y => (returned_items y.log, items y.st, enqueued_items y.log,
          y.st.item_queue.queue_size + (visited y.st : Int))) =
      some ([20], [10], [10, 20], 2) ∧
    (run initSys [Op.deq 1, Op.deq 2, Op.deq 3, Op.enq 10, Op.enq 20, Op.tryDeq 0]).map
        (fun y => (y.st.item_queue.tail, (y.st.elems 4).isSome,
          (step y (Op.enq 30)).isSome)) =
      some (some 4, false, false) ∧
    ∀ e : QueueElem,
      ((run initSys [Op.deq 1, Op.deq 2, Op.deq 3, Op.enq 10, Op.enq 20, Op.tryDeq 0]).bind
          (fun y => enqueue { y.st with elems := store y.st.elems 4 (some e) } 30)).map
          (fun s => (items s, s.item_queue.queue_size, visited s)) =
        some ([10], 2, 1) := by
  refine ⟨by decide, by decide, ?_⟩
  intro e
  rfl

end ConcurrentQueue

namespace MessageSlotDriver

/-! ## The channel tree -/

theorem find_channel_id :
    ∀ (t : RbTree) (c : Nat) (ch : Channel), find_channel t c = some ch → ch.channel_id = c
  | RbTree.nil, _, _, h => by simp [find_channel] at h
  | RbTree.node l ch0 r, c, ch, h => by
    unfold find_channel at h
    split at h
    · exact find_channel_id r c ch h
    · split at h
      · exact find_channel_id l c ch h
      · cases h
        omega

theorem find_store_same :
    ∀ (t : RbTree) (c : Nat) (ch new_channel : Channel), find_channel t c = some ch →
      new_channel.channel_id = c →
      find_channel (store_channel t c new_channel) c = some new_channel
  | RbTree.nil, _, _, _, h, _ => by simp [find_channel] at h
  | RbTree.node l ch0 r, c, ch, new_channel, h, hid => by
    unfold find_channel at h
    unfold store_channel
    split at h
    · rename_i hlt
      rw [if_pos hlt]
      unfold find_channel
      rw [if_pos hlt]
      exact find_store_same r c ch new_channel h hid
    · rename_i hlt
      split at h
      · rename_i hgt
        rw [if_neg hlt, if_pos hgt]
        unfold find_channel
        rw [if_neg hlt, if_pos hgt]
        exact find_store_same l c ch new_channel h hid
      · rename_i hgt
        rw [if_neg hlt, if_neg hgt]
        unfold find_channel
        rw [hid]
        simp

theorem find_insert_keep (id : Nat) (alloc_ok : Bool) :
    ∀ (t : RbTree) (c : Nat) (ch : Channel), find_channel t c = some ch →
      find_channel (insert_channel t id alloc_ok).2 c = some ch
  | RbTree.nil, _, _, h => by simp [find_channel] at h
  | RbTree.node l ch0 r, c, ch, h => by
    unfold insert_channel
    unfold find_channel at h
    split
    · show find_channel (RbTree.node l ch0 (insert_channel r id alloc_ok).2) c = some ch
      unfold find_channel
      split at h
      · rename_i hlt
        rw [if_pos hlt]
        exact find_insert_keep id alloc_ok r c ch h
      · rename_i hlt
        rw [if_neg hlt]
        exact h
    · split
      · show find_channel (RbTree.node (insert_channel l id alloc_ok).2 ch0 r) c = some ch
        unfold find_channel
        split at h
        · rename_i hlt
          rw [if_pos hlt]
          exact h
        · rename_i hlt
          rw [if_neg hlt]
          split at h
          · rename_i hgt
            rw [if_pos hgt]
            exact find_insert_keep id alloc_ok l c ch h
          · rename_i hgt
            rw [if_neg hgt]
            exact h
      · show find_channel (RbTree.node l ch0 r) c = some ch
        unfold find_channel
        exact h

theorem find_insert_new (id : Nat) (alloc_ok : Bool) :
    ∀ t : RbTree, find_channel t id = none → ¬ (insert_channel t id alloc_ok).1 < 0 →
      find_channel (insert_channel t id alloc_ok).2 id = some (create_channel id)
  | RbTree.nil, _, hres => by
    unfold insert_channel at hres ⊢
    cases alloc_ok
    · simp [ENOMEM] at hres
    · simp [find_channel, create_channel]
  | RbTree.node l ch0 r, h, hres => by
    unfold insert_channel at hres ⊢
    unfold find_channel at h
    split at h
    · rename_i hlt
      rw [if_pos hlt] at hres ⊢
      show find_channel (RbTree.node l ch0 (insert_channel r id alloc_ok).2) id = _
      unfold find_channel
      rw [if_pos hlt]
      exact find_insert_new id alloc_ok r h hres
    · rename_i hlt
      split at h
      · rename_i hgt
        rw [if_neg hlt, if_pos hgt] at hres ⊢
        show find_channel (RbTree.node (insert_channel l id alloc_ok).2 ch0 r) id = _
        unfold find_channel
        rw [if_neg hlt, if_pos hgt]
        exact find_insert_new id alloc_ok l h hres
      · cases h

/-! ## Channels are kept by every call but a write to them -/

theorem channel_at_set_other (m : MessageSlotManager) (k minor c : Nat) (v : Option MessageSlot)
    (hne : k ≠ minor) :
    channel_at { message_slots := m.message_slots.set k v } minor c = channel_at m minor c := by
  simp [channel_at, List.getElem?_set, hne]

theorem channel_at_set_same (m : MessageSlotManager) (minor c : Nat) (slot : MessageSlot)
    (hlt : minor < m.message_slots.length) :
    channel_at { message_slots := m.message_slots.set minor (some slot) } minor c =
      find_channel slot.channels c := by
  simp [channel_at, List.getElem?_set, hlt]

theorem channel_at_of_slot (m : MessageSlotManager) (file : File) (slot : MessageSlot)
    (h : get_files_message_slot m file = some slot) (c : Nat) :
    channel_at m file.f_inode c = find_channel slot.channels c ∧
      file.f_inode < m.message_slots.length := by
  unfold get_files_message_slot at h
  cases hg : m.message_slots[file.f_inode]? with
  | none => rw [hg] at h; cases h
  | some v =>
    rw [hg] at h
    simp only at h
    subst h
    refine ⟨by simp [channel_at, hg], ?_⟩
    by_contra hnot
    rw [List.getElem?_eq_none (by omega)] at hg
    cases hg

theorem slot_of_channel_at (m : MessageSlotManager) (file : File) (c : Nat) (ch : Channel)
    (h : channel_at m file.f_inode c = some ch) :
    ∃ slot, get_files_message_slot m file = some slot ∧ find_channel slot.channels c = some ch := by
  unfold channel_at at h
  unfold get_files_message_slot
  cases hg : m.message_slots[file.f_inode]? with
  | none => rw [hg] at h; cases h
  | some v =>
    cases v with
    | none => rw [hg] at h; cases h
    | some slot =>
      rw [hg] at h
      exact ⟨slot, rfl, h⟩

theorem create_message_slot_keeps (m m1 : MessageSlotManager) (k : Nat) (alloc_ok : Bool)
    (res : Int) (minor c : Nat) (ch : Channel)
    (ho : create_message_slot m k alloc_ok = some (res, m1))
    (h : channel_at m minor c = some ch) : channel_at m1 minor c = some ch := by
  unfold create_message_slot at ho
  cases hg : m.message_slots[k]? with
  | none => rw [hg] at ho; cases ho
  | some v =>
    rw [hg] at ho
    cases v with
    | some slot =>
      simp only [Option.some.injEq, Prod.mk.injEq] at ho
      rw [← ho.2]; exact h
    | none =>
      cases alloc_ok with
      | false =>
        simp only [Bool.false_eq_true, if_false, Option.some.injEq, Prod.mk.injEq] at ho
        rw [← ho.2]; exact h
      | true =>
        simp only [if_true, Option.some.injEq, Prod.mk.injEq] at ho
        have hne : k ≠ minor := by
          intro he
          rw [he] at hg
          simp [channel_at, hg] at h
        rw [← ho.2, channel_at_set_other m _ _ _ _ hne]
        exact h

theorem open_keeps (m m1 : MessageSlotManager) (file file1 : File) (alloc_ok : Bool) (res : Int)
    (minor c : Nat) (ch : Channel)
    (ho : device_open m file alloc_ok = some (res, m1, file1))
    (h : channel_at m minor c = some ch) : channel_at m1 minor c = some ch := by
  unfold device_open at ho
  cases hc : create_message_slot m file.f_inode alloc_ok with
  | none => rw [hc] at ho; cases ho
  | some r =>
    rw [hc] at ho
    have hk := create_message_slot_keeps m r.2 file.f_inode alloc_ok r.1 minor c ch hc h
    by_cases hneg : r.1 < 0
    · simp only [hneg, if_true, Option.some.injEq, Prod.mk.injEq] at ho
      rw [← ho.2.1]; exact hk
    · simp only [hneg, if_false, Option.some.injEq, Prod.mk.injEq] at ho
      rw [← ho.2.1]; exact hk

theorem ioctl_keeps (m m1 : MessageSlotManager) (file file1 : File) (cmd cid : Nat)
    (alloc_ok : Bool) (res : Int) (minor c : Nat) (ch : Channel)
    (ho : device_ioctl m file cmd cid alloc_ok = some (res, m1, file1))
    (h : channel_at m minor c = some ch) : channel_at m1 minor c = some ch := by
  unfold device_ioctl at ho
  split at ho
  · cases ho; exact h
  · cases hs : get_files_message_slot m file with
    | none => rw [hs] at ho; cases ho
    | some slot =>
      rw [hs] at ho
      simp only at ho
      split at ho
      · cases ho; exact h
      · split at ho
        · cases ho; exact h
        · cases ho
          obtain ⟨hat, hlt⟩ := channel_at_of_slot m file slot hs c
          by_cases he : file.f_inode = minor
          · subst he
            rw [channel_at_set_same m _ _ _ hlt]
            rw [hat] at h
            exact find_insert_keep _ _ _ _ _ h
          · rw [channel_at_set_other m _ _ _ _ he]; exact h

theorem slot_step_keeps (m m1 : MessageSlotManager) (call : SlotCall) (minor c : Nat)
    (ch : Channel) (hs : slot_step m call = some m1) (h : channel_at m minor c = some ch) :
    channel_at m1 minor c = some ch := by
  cases call with
  | «open» file alloc_ok =>
    simp only [slot_step] at hs
    cases ho : device_open m file alloc_ok with
    | none => rw [ho] at hs; cases hs
    | some r =>
      rw [ho] at hs
      cases hs
      exact open_keeps m _ file r.2.2 alloc_ok r.1 minor c ch ho h
  | ioctl file cmd cid alloc_ok =>
    simp only [slot_step] at hs
    cases ho : device_ioctl m file cmd cid alloc_ok with
    | none => rw [ho] at hs; cases hs
    | some r =>
      rw [ho] at hs
      cases hs
      exact ioctl_keeps m _ file r.2.2 cmd cid alloc_ok r.1 minor c ch ho h
  | release file =>
    simp only [slot_step, device_release] at hs
    split at hs
    · cases hs
    · cases hs; exact h
  | read file user_buffer buffer_len =>
    simp only [slot_step] at hs
    cases ho : device_read m file user_buffer buffer_len with
    | none => rw [ho] at hs; cases hs
    | some r =>
      rw [ho] at hs
      cases hs
      exact h

theorem slot_run_keeps (calls : List SlotCall) :
    ∀ (m m1 : MessageSlotManager) (minor c : Nat) (ch : Channel),
      slot_run m calls = some m1 → channel_at m minor c = some ch →
      channel_at m1 minor c = some ch := by
  induction calls with
  | nil =>
    intro m m1 minor c ch hr h
    cases hr
    exact h
  | cons call calls ih =>
    intro m m1 minor c ch hr h
    simp only [slot_run] at hr
    split at hr
    · cases hr
    · rename_i m2 hstep
      exact ih m2 m1 minor c ch hr (slot_step_keeps m m2 call minor c ch hstep h)

/-! ## Attaching, writing and reading -/

theorem to_unsigned_int_idem (v : Nat) : to_unsigned_int (to_unsigned_int v) = to_unsigned_int v := by
  simp [to_unsigned_int]

theorem ioctl_attaches (m m1 : MessageSlotManager) (file file1 : File) (cmd cid : Nat)
    (alloc_ok : Bool)
    (ho : device_ioctl m file cmd cid alloc_ok = some (SUCCESS, m1, file1)) :
    file1.f_inode = file.f_inode ∧
      to_unsigned_int file1.private_data = to_unsigned_int cid ∧
      to_unsigned_int cid ≠ 0 ∧
      ∃ ch, channel_at m1 file.f_inode (to_unsigned_int cid) = some ch := by
  unfold device_ioctl at ho
  by_cases hbad : cmd ≠ MSG_SLOT_CHANNEL ∨ to_unsigned_int cid = 0
  · rw [if_pos hbad] at ho
    simp [SUCCESS, EINVAL] at ho
  · rw [if_neg hbad] at ho
    have hnz : to_unsigned_int cid ≠ 0 := fun h0 => hbad (Or.inr h0)
    cases hs : get_files_message_slot m file with
    | none => rw [hs] at ho; cases ho
    | some slot =>
      rw [hs] at ho
      simp only at ho
      obtain ⟨hat, hlt⟩ := channel_at_of_slot m file slot hs (to_unsigned_int cid)
      cases hf : find_channel slot.channels (to_unsigned_int cid) with
      | some ch0 =>
        rw [hf] at ho
        simp only [Option.some.injEq, Prod.mk.injEq, true_and] at ho
        obtain ⟨hm, hfile⟩ := ho
        subst hm
        subst hfile
        exact ⟨rfl, to_unsigned_int_idem cid, hnz, ch0, by rw [hat, hf]⟩
      | none =>
        rw [hf] at ho
        simp only at ho
        by_cases hneg : (insert_channel slot.channels (to_unsigned_int cid) alloc_ok).1 < 0
        · rw [if_pos hneg] at ho
          simp only [Option.some.injEq, Prod.mk.injEq] at ho
          rw [ho.1] at hneg
          simp [SUCCESS] at hneg
        · rw [if_neg hneg] at ho
          simp only [Option.some.injEq, Prod.mk.injEq, true_and] at ho
          obtain ⟨hm, hfile⟩ := ho
          subst hm
          subst hfile
          refine ⟨rfl, rfl, hnz, create_channel (to_unsigned_int cid), ?_⟩
          rw [channel_at_set_same m _ _ _ hlt]
          exact find_insert_new _ _ _ hf hneg

theorem copy_user_loop_ok (user : Nat → Int × Byte) (msg : List Byte)
    (huser : ∀ i, i < msg.length → 0 ≤ (user i).1 ∧ (user i).2 = msg.getD i 0) :
    ∀ (k i : Nat) (temp : List Byte), i + k = msg.length → msg.length ≤ temp.length →
      temp.take i = msg.take i →
      ∃ temp1, copy_user_loop user k i temp = Except.ok temp1 ∧
        temp1.take msg.length = msg
  | 0, i, temp, hik, _, ht => by
    refine ⟨temp, rfl, ?_⟩
    have hi : i = msg.length := by omega
    rw [← hi, ht, hi, List.take_length]
  | k + 1, i, temp, hik, hlen, ht => by
    have hi : i < msg.length := by omega
    obtain ⟨hcode, hbyte⟩ := huser i hi
    unfold copy_user_loop
    rw [if_neg (by omega)]
    apply copy_user_loop_ok user msg huser k (i + 1) _ (by omega) (by simpa using hlen)
    have hget : msg[i]? = some (msg.getD i 0) := by
      rw [List.getD_eq_getElem?_getD, List.getElem?_eq_getElem hi]
      rfl
    rw [List.take_succ, List.take_succ, List.set_take,
      List.set_eq_of_length_le (by rw [List.length_take]; omega),
      List.getElem?_set_self (by omega), hbyte, hget, ht]

theorem write_stores (m : MessageSlotManager) (file : File) (user : Nat → Int × Byte)
    (msg : List Byte) (ch : Channel)
    (hnz : to_unsigned_int file.private_data ≠ 0)
    (hat : channel_at m file.f_inode (to_unsigned_int file.private_data) = some ch)
    (h1 : 1 ≤ msg.length) (h2 : msg.length ≤ BUFF_SIZE)
    (huser : ∀ i, i < msg.length → 0 ≤ (user i).1 ∧ (user i).2 = msg.getD i 0) :
    ∃ m2 ch2, device_write m file user msg.length = some ((msg.length : Int), m2) ∧
      channel_at m2 file.f_inode (to_unsigned_int file.private_data) = some ch2 ∧
      ch2.size_of_message = msg.length ∧ ch2.message.take msg.length = msg := by
  obtain ⟨slot, hs, hf⟩ := slot_of_channel_at m file _ ch hat
  obtain ⟨_, hlt⟩ := channel_at_of_slot m file slot hs (to_unsigned_int file.private_data)
  obtain ⟨temp, hloop, htake⟩ := copy_user_loop_ok user msg huser msg.length 0
    (List.replicate BUFF_SIZE 0) (by omega) (by simpa using h2) (by simp)
  have hlen : ¬ (msg.length = 0 ∨ msg.length > BUFF_SIZE) := by omega
  apply Exists.intro
  refine ⟨{ ch with message := temp.take msg.length ++ ch.message.drop msg.length,
                    size_of_message := msg.length }, ?comp, ?at2, rfl, ?tk⟩
  case comp =>
    unfold device_write
    rw [if_neg hlen, if_neg hnz, hs]
    simp only [hf, copy_user_message, hloop]
    rfl
  case at2 =>
    rw [channel_at_set_same m _ _ _ hlt]
    exact find_store_same _ _ ch _ hf (find_channel_id _ _ ch hf)
  case tk =>
    show (temp.take msg.length ++ ch.message.drop msg.length).take msg.length = msg
    rw [htake, List.take_left]

theorem copy_channel_loop_ok (message : List Byte) :
    ∀ (k i : Nat) (buf : UserBuffer),
      (∀ j, i ≤ j → j < i + k → 0 ≤ buf.put_result j) →
      ∃ buf1, copy_channel_loop message k i buf = (none, buf1) ∧
        (∀ j, i ≤ j → j < i + k → buf1.bytes j = message.getD j 0) ∧
        (∀ j, j < i → buf1.bytes j = buf.bytes j)
  | 0, i, buf, _ => ⟨buf, rfl, fun j h1 h2 => by omega, fun _ _ => rfl⟩
  | k + 1, i, buf, hput => by
    have hi := hput i (Nat.le_refl _) (by omega)
    obtain ⟨buf1, hloop, hb, hkeep⟩ := copy_channel_loop_ok message k (i + 1)
      { buf with bytes := fun j => if j = i then message.getD i 0 else buf.bytes j }
      (fun j h1 h2 => hput j (by omega) (by omega))
    refine ⟨buf1, ?_, ?_, ?_⟩
    · unfold copy_channel_loop
      rw [if_neg (by omega)]
      exact hloop
    · intro j h1 h2
      by_cases hj : j = i
      · subst hj
        rw [hkeep j (Nat.lt_succ_self j)]
        simp
      · exact hb j (by omega) (by omega)
    · intro j hj
      rw [hkeep j (by omega)]
      simp [Nat.ne_of_lt hj]

theorem read_delivers (m : MessageSlotManager) (file : File) (buf : UserBuffer)
    (buffer_len : Nat) (ch : Channel)
    (hnz : to_unsigned_int file.private_data ≠ 0)
    (hat : channel_at m file.f_inode (to_unsigned_int file.private_data) = some ch)
    (hpos : 0 < ch.size_of_message) (hle : ch.size_of_message ≤ buffer_len)
    (hput : ∀ i, i < ch.size_of_message → 0 ≤ buf.put_result i) :
    ∃ buf1, device_read m file buf buffer_len = some ((ch.size_of_message : Int), buf1) ∧
      ∀ j, j < ch.size_of_message → buf1.bytes j = ch.message.getD j 0 := by
  obtain ⟨slot, hs, hf⟩ := slot_of_channel_at m file _ ch hat
  obtain ⟨buf1, hloop, hb, _⟩ := copy_channel_loop_ok ch.message ch.size_of_message 0 buf
    (fun j _ h2 => hput j (by omega))
  refine ⟨buf1, ?_, fun j hj => hb j (Nat.zero_le _) (by omega)⟩
  unfold device_read
  rw [if_neg hnz, hs]
  simp only [hf]
  rw [if_neg (by omega), if_neg (by omega)]
  simp only [copy_channel_message, hloop]

theorem delivered_eq (l msg : List Byte) (b : Nat → Byte) (hl : l.take msg.length = msg)
    (hb : ∀ j, j < msg.length → b j = l.getD j 0) :
    (List.range msg.length).map b = msg := by
  apply List.ext_getElem?
  intro j
  by_cases hj : j < msg.length
  · rw [List.getElem?_map, List.getElem?_range hj]
    simp only [Option.map_some']
    rw [hb j hj, List.getD_eq_getElem?_getD]
    have e : msg[j]? = l[j]? := by
      conv_lhs => rw [← hl]
      exact List.getElem?_take_of_lt hj
    rw [← e, List.getElem?_eq_getElem hj]
    rfl
  · rw [List.getElem?_eq_none (by simpa using hj), List.getElem?_eq_none (by omega)]

/-! ## Searching after a store or an insertion -/

theorem store_channel_self :
    ∀ (t : RbTree) (c : Nat) (ch : Channel), find_channel t c = some ch →
      store_channel t c ch = t
  | RbTree.nil, _, _, _ => rfl
  | RbTree.node l ch0 r, c, ch, h => by
    unfold find_channel at h
    unfold store_channel
    split at h
    · rename_i hlt
      rw [if_pos hlt, store_channel_self r c ch h]
    · rename_i hlt
      split at h
      · rename_i hgt
        rw [if_neg hlt, if_pos hgt, store_channel_self l c ch h]
      · rename_i hgt
        rw [if_neg hlt, if_neg hgt]
        cases h
        rfl

theorem find_store_other :
    ∀ (t : RbTree) (c c1 : Nat) (ch new_channel : Channel), find_channel t c = some ch →
      new_channel.channel_id = ch.channel_id → c1 ≠ c →
      find_channel (store_channel t c new_channel) c1 = find_channel t c1
  | RbTree.nil, _, _, _, _, _, _, _ => rfl
  | RbTree.node l ch0 r, c, c1, ch, new_channel, h, hid, hne => by
    unfold find_channel at h
    unfold store_channel
    split at h
    · rename_i hlt
      rw [if_pos hlt]
      unfold find_channel
      rw [find_store_other r c c1 ch new_channel h hid hne]
    · rename_i hlt
      split at h
      · rename_i hgt
        rw [if_neg hlt, if_pos hgt]
        unfold find_channel
        rw [find_store_other l c c1 ch new_channel h hid hne]
      · rename_i hgt
        rw [if_neg hlt, if_neg hgt]
        cases h
        have hc : ch0.channel_id = c := by omega
        unfold find_channel
        rw [hid, hc]
        have h1 : ¬ (c < c1 ∧ c > c1) := by omega
        by_cases hlt1 : c < c1
        · rw [if_pos hlt1, if_pos hlt1]
        · have hgt1 : c > c1 := by omega
          rw [if_neg hlt1, if_neg hlt1, if_pos hgt1, if_pos hgt1]

theorem find_insert_other (id : Nat) (alloc_ok : Bool) :
    ∀ (t : RbTree) (c1 : Nat), c1 ≠ id →
      find_channel (insert_channel t id alloc_ok).2 c1 = find_channel t c1
  | RbTree.nil, c1, hne => by
    unfold insert_channel
    cases alloc_ok
    · rfl
    · simp only [if_true]
      unfold find_channel
      have hid : (create_channel id).channel_id = id := rfl
      rw [hid]
      by_cases hlt : id < c1
      · rw [if_pos hlt]; rfl
      · have hgt : id > c1 := by omega
        rw [if_neg hlt, if_pos hgt]; rfl
  | RbTree.node l ch0 r, c1, hne => by
    unfold insert_channel
    split
    · show find_channel (RbTree.node l ch0 (insert_channel r id alloc_ok).2) c1 = _
      unfold find_channel
      rw [find_insert_other id alloc_ok r c1 hne]
    · split
      · show find_channel (RbTree.node (insert_channel l id alloc_ok).2 ch0 r) c1 = _
        unfold find_channel
        rw [find_insert_other id alloc_ok l c1 hne]
      · rfl

theorem set_self {α : Type} :
    ∀ (l : List α) (i : Nat) (v : α), l[i]? = some v → l.set i v = l
  | [], _, _, _ => rfl
  | a :: l, 0, v, h => by
    simp only [List.getElem?_cons_zero, Option.some.injEq] at h
    rw [h]; rfl
  | a :: l, i + 1, v, h => by
    simp only [List.getElem?_cons_succ] at h
    simp only [List.set_cons_succ, set_self l i v h]

theorem slot_lookup (m : MessageSlotManager) (file : File) (slot : MessageSlot)
    (h : get_files_message_slot m file = some slot) :
    m.message_slots[file.f_inode]? = some (some slot) := by
  unfold get_files_message_slot at h
  cases hg : m.message_slots[file.f_inode]? with
  | none => rw [hg] at h; cases h
  | some v =>
    rw [hg] at h
    simp only at h
    rw [h]

theorem manager_set_self (m : MessageSlotManager) (file : File) (slot : MessageSlot)
    (h : get_files_message_slot m file = some slot) (c : Nat) (ch : Channel)
    (hf : find_channel slot.channels c = some ch) :
    ({ message_slots := m.message_slots.set file.f_inode
        (some { slot with channels := store_channel slot.channels c ch }) } :
      MessageSlotManager) = m := by
  rw [store_channel_self _ _ _ hf]
  have e : ({ slot with channels := slot.channels } : MessageSlot) = slot := rfl
  rw [e, set_self _ _ _ (slot_lookup m file slot h)]

/-! ## The result of `device_write` -/

theorem copy_user_loop_error (user : Nat → Int × Byte) :
    ∀ (k i0 idx : Nat) (temp : List Byte), i0 ≤ idx → idx < i0 + k → (user idx).1 < 0 →
      (∀ j, i0 ≤ j → j < idx → 0 ≤ (user j).1) →
      copy_user_loop user k i0 temp = Except.error (user idx).1
  | 0, _, _, _, h1, h2, _, _ => by omega
  | k + 1, i0, idx, temp, h1, h2, hneg, hok => by
    unfold copy_user_loop
    by_cases he : idx = i0
    · subst he
      rw [if_pos hneg]
    · have h0 := hok i0 (Nat.le_refl _) (by omega)
      rw [if_neg (by omega)]
      exact copy_user_loop_error user k (i0 + 1) idx _ (by omega) (by omega) hneg
        (fun j a b => hok j (by omega) b)

theorem copy_user_loop_error_neg (user : Nat → Int × Byte) :
    ∀ (k i0 : Nat) (temp : List Byte) (e : Int),
      copy_user_loop user k i0 temp = Except.error e → e < 0
  | 0, _, _, _, h => by cases h
  | k + 1, i0, temp, e, h => by
    unfold copy_user_loop at h
    split at h
    · rename_i hneg
      cases h
      exact hneg
    · exact copy_user_loop_error_neg user k (i0 + 1) _ e h

theorem copy_user_loop_fetched (user : Nat → Int × Byte) (len : Nat)
    (hok : ∀ j, j < len → 0 ≤ (user j).1) (hlen : len ≤ BUFF_SIZE) :
    ∃ temp, copy_user_loop user len 0 (List.replicate BUFF_SIZE 0) = Except.ok temp ∧
      temp.take len = (List.range len).map (fun j => (user j).2) := by
  have hl : ((List.range len).map (fun j => (user j).2)).length = len := by simp
  obtain ⟨temp, hloop, htake⟩ := copy_user_loop_ok user
    ((List.range len).map (fun j => (user j).2))
    (by
      intro i hi
      rw [hl] at hi
      refine ⟨hok i hi, ?_⟩
      rw [List.getD_eq_getElem?_getD, List.getElem?_map, List.getElem?_range hi]
      rfl)
    len 0 (List.replicate BUFF_SIZE 0) (by rw [hl]; omega) (by rw [hl]; simpa using hlen)
    (by simp)
  rw [hl] at htake
  exact ⟨temp, hloop, htake⟩

theorem device_write_negative_keeps (m m2 : MessageSlotManager) (file : File)
    (user : Nat → Int × Byte) (len : Nat) (r : Int)
    (h : device_write m file user len = some (r, m2)) (hneg : r < 0) : m2 = m := by
  unfold device_write at h
  split at h
  · cases h; rfl
  · split at h
    · cases h; rfl
    · cases hs : get_files_message_slot m file with
      | none => rw [hs] at h; cases h
      | some slot =>
        rw [hs] at h
        simp only at h
        unfold copy_user_message at h
        cases hl : copy_user_loop user len 0 (List.replicate BUFF_SIZE 0) with
        | error e =>
          rw [hl] at h
          simp only at h
          cases hf : find_channel slot.channels (to_unsigned_int file.private_data) with
          | none =>
            rw [hf] at h
            simp only [Option.some.injEq, Prod.mk.injEq] at h
            exact h.2.symm
          | some ch =>
            rw [hf] at h
            simp only [Option.some.injEq, Prod.mk.injEq] at h
            rw [← h.2]
            exact manager_set_self m file slot hs _ ch hf
        | ok temp =>
          rw [hl] at h
          simp only at h
          cases hf : find_channel slot.channels (to_unsigned_int file.private_data) with
          | none => rw [hf] at h; cases h
          | some ch =>
            rw [hf] at h
            simp only [Option.some.injEq, Prod.mk.injEq] at h
            have : (len : Int) < 0 := by rw [h.1]; exact hneg
            omega

/-- C21. The result of `device_write`.  A length of 0 or above 128 gives
`-EMSGSIZE`, whatever the channel of the file; otherwise a file with no channel
set gives `-EINVAL`; otherwise, on a file whose slot exists, the first
`get_user` that fails gives its error, and when all of them succeed on a file
whose channel exists the call returns `message_len` with the fetched bytes
stored in the channel.  Whenever the call returns a negative value the whole
driver state, hence the stored message and length of the channel, is what it
was before. -/
theorem device_write_result (m : MessageSlotManager) (file : File)
    (user : Nat → Int × Byte) (len : Nat) :
    ((len = 0 ∨ len > BUFF_SIZE) → device_write m file user len = some (-EMSGSIZE, m)) ∧
    (¬ (len = 0 ∨ len > BUFF_SIZE) → to_unsigned_int file.private_data = 0 →
      device_write m file user len = some (-EINVAL, m)) ∧
    (¬ (len = 0 ∨ len > BUFF_SIZE) → to_unsigned_int file.private_data ≠ 0 →
      ∀ slot, get_files_message_slot m file = some slot →
        (∀ i, i < len → (user i).1 < 0 → (∀ j, j < i → 0 ≤ (user j).1) →
          device_write m file user len = some ((user i).1, m)) ∧
        (∀ ch, find_channel slot.channels (to_unsigned_int file.private_data) = some ch →
          (∀ j, j < len → 0 ≤ (user j).1) →
          ∃ m2, device_write m file user len = some ((len : Int), m2) ∧
            channel_at m2 file.f_inode (to_unsigned_int file.private_data) =
              some { ch with
                message := (List.range len).map (fun j => (user j).2) ++ ch.message.drop len,
                size_of_message := len })) ∧
    (∀ r m2, device_write m file user len = some (r, m2) → r < 0 →
      m2 = m ∧ ∀ minor c, channel_at m2 minor c = channel_at m minor c) := by
  refine ⟨?_, ?_, ?_, ?_⟩
  · intro hbad
    unfold device_write
    rw [if_pos hbad]
  · intro hbad hz
    unfold device_write
    rw [if_neg hbad, if_pos hz]
  · intro hbad hnz slot hs
    refine ⟨?_, ?_⟩
    · intro i hi hneg hok
      have hl := copy_user_loop_error user len 0 i (List.replicate BUFF_SIZE 0)
        (Nat.zero_le _) (by omega) hneg (fun j _ b => hok j b)
      unfold device_write
      rw [if_neg hbad, if_neg hnz, hs]
      simp only [copy_user_message, hl]
      cases hf : find_channel slot.channels (to_unsigned_int file.private_data) with
      | none => rfl
      | some ch =>
        simp only
        rw [manager_set_self m file slot hs _ ch hf]
    · intro ch hf hok
      obtain ⟨temp, hl, htake⟩ := copy_user_loop_fetched user len hok (by omega)
      obtain ⟨_, hlt⟩ := channel_at_of_slot m file slot hs (to_unsigned_int file.private_data)
      apply Exists.intro
      refine ⟨?comp, ?at2⟩
      case comp =>
        unfold device_write
        rw [if_neg hbad, if_neg hnz, hs]
        simp only [hf, copy_user_message, hl]
        rfl
      case at2 =>
        rw [channel_at_set_same m _ _ _ hlt, ← htake]
        exact find_store_same _ _ ch _ hf (find_channel_id _ _ ch hf)
  · intro r m2 h hneg
    have e := device_write_negative_keeps m m2 file user len r h hneg
    subst e
    exact ⟨rfl, fun _ _ => rfl⟩

set_option maxRecDepth 8192 in
theorem device_write_result_witness :
    device_write sample_manager { f_inode := 3, private_data := 0 } (user_bytes [9, 8]) 129 =
      some (-EMSGSIZE, sample_manager) ∧
    device_write sample_manager { f_inode := 3, private_data := 0 } (user_bytes [9, 8]) 2 =
      some (-EINVAL, sample_manager) ∧
    device_write sample_manager { f_inode := 3, private_data := 7 }
        (user_bytes_bad_at [9, 8] 1) 2 = some (-EFAULT, sample_manager) ∧
    ∃ m2, device_write sample_manager { f_inode := 3, private_data := 7 } (user_bytes [9, 8]) 2 =
        some (2, m2) ∧
      channel_at m2 3 7 =
        some { message := [9, 8, 3, 4, 5] ++ List.replicate 123 0, size_of_message := 2,
               channel_id := 7 } :=
  ⟨(device_write_result sample_manager { f_inode := 3, private_data := 0 }
      (user_bytes [9, 8]) 129).1 (by decide),
    (device_write_result sample_manager { f_inode := 3, private_data := 0 }
      (user_bytes [9, 8]) 2).2.1 (by decide) (by decide),
    ((device_write_result sample_manager { f_inode := 3, private_data := 7 }
      (user_bytes_bad_at [9, 8] 1) 2).2.2.1 (by decide) (by decide) sample_slot rfl).1 1
        (by decide) (by decide) (by decide),
    ((device_write_result sample_manager { f_inode := 3, private_data := 7 }
      (user_bytes [9, 8]) 2).2.2.1 (by decide) (by decide) sample_slot rfl).2 sample_channel
        rfl (by decide)⟩

/-! ## Message round trip -/

theorem copy_user_loop_codes (user : Nat → Int × Byte) :
    ∀ (k i : Nat) (temp t : List Byte), copy_user_loop user k i temp = Except.ok t →
      ∀ j, i ≤ j → j < i + k → 0 ≤ (user j).1
  | 0, _, _, _, _ => fun j h1 h2 => by omega
  | k + 1, i, temp, t, h => by
    unfold copy_user_loop at h
    split at h
    · cases h
    · rename_i hneg
      intro j h1 h2
      by_cases hj : j = i
      · subst hj
        omega
      · exact copy_user_loop_codes user k (i + 1) _ t h j (by omega) (by omega)

/-- A `device_write` that returns `message_len` had a length of 1 to 128 and
every `get_user` of it succeeded. -/
theorem device_write_success (m m2 : MessageSlotManager) (file : File)
    (user : Nat → Int × Byte) (len : Nat)
    (h : device_write m file user len = some ((len : Int), m2)) :
    ¬ (len = 0 ∨ len > BUFF_SIZE) ∧ ∀ j, j < len → 0 ≤ (user j).1 := by
  unfold device_write at h
  split at h
  · simp only [Option.some.injEq, Prod.mk.injEq] at h
    have h1 := h.1
    have e : EMSGSIZE = 90 := rfl
    rw [e] at h1
    omega
  · rename_i hbad
    split at h
    · simp only [Option.some.injEq, Prod.mk.injEq] at h
      have h1 := h.1
      have e : EINVAL = 22 := rfl
      rw [e] at h1
      omega
    · cases hs : get_files_message_slot m file with
      | none => rw [hs] at h; cases h
      | some slot =>
        rw [hs] at h
        simp only at h
        unfold copy_user_message at h
        cases hl : copy_user_loop user len 0 (List.replicate BUFF_SIZE 0) with
        | error e =>
          have hneg := copy_user_loop_error_neg user len 0 _ e hl
          rw [hl] at h
          simp only at h
          cases hf : find_channel slot.channels (to_unsigned_int file.private_data) with
          | none =>
            rw [hf] at h
            simp only [Option.some.injEq, Prod.mk.injEq] at h
            omega
          | some ch =>
            rw [hf] at h
            simp only [Option.some.injEq, Prod.mk.injEq] at h
            omega
        | ok temp =>
          exact ⟨hbad, fun j hj =>
            copy_user_loop_codes user len 0 _ temp hl j (Nat.zero_le _) (by omega)⟩

set_option maxRecDepth 8192 in
/-- C16, as stated, fails: on minor 3 a file is attached by `device_ioctl` to
channel 7 and the 2 bytes 9, 8 are written (`device_write` returns 2); a
`device_read` with `buffer_len = 10` on a file of minor 3 attached to channel 7
whose user buffer cannot be written at its first byte returns `-EFAULT`, not
2. -/
theorem round_trip_read_returns_put_user_error :
    device_ioctl sample_manager_two { f_inode := 3, private_data := 0 } MSG_SLOT_CHANNEL 7 true =
      some (SUCCESS, sample_manager_two, { f_inode := 3, private_data := 7 }) ∧
    device_write sample_manager_two { f_inode := 3, private_data := 7 } (user_bytes [9, 8]) 2 =
      some (2, sample_after_write) ∧
    (10 : Nat) ≥ 2 ∧
    (device_read sample_after_write { f_inode := 3, private_data := 7 } (buffer_bad_at 0) 10).map
        Prod.fst = some (-EFAULT) ∧
    (-EFAULT : Int) ≠ 2 := by
  refine ⟨rfl, rfl, by decide, rfl, by decide⟩

/-- C16, amended.  Message round trip.  Let `file` be attached by a successful
`device_ioctl` to channel `c` of its minor, whatever that channel held before,
and let a `device_write` of `message_len` bytes on it succeed, that is, return
`message_len`.  Then `message_len` is 1 to 128, and after any further calls of
`device_open`, `device_ioctl`, `device_release` and `device_read` on any
files, a `device_read` with `buffer_len ≥ message_len` into a user buffer
where every `put_user` succeeds, on any file of the same minor whose
`private_data` designates `c`, returns `message_len` and delivers exactly the
bytes that were written. -/
theorem message_round_trip (m0 m1 m2 : MessageSlotManager) (file0 file : File) (cid : Nat)
    (alloc_ok : Bool) (user : Nat → Int × Byte) (message_len : Nat)
    (hio : device_ioctl m0 file0 MSG_SLOT_CHANNEL cid alloc_ok = some (SUCCESS, m1, file))
    (hw : device_write m1 file user message_len = some ((message_len : Int), m2))
    (calls : List SlotCall) (m3 : MessageSlotManager) (reader : File) (buf : UserBuffer)
    (buffer_len : Nat)
    (hrun : slot_run m2 calls = some m3)
    (hrino : reader.f_inode = file.f_inode)
    (hrpd : to_unsigned_int reader.private_data = to_unsigned_int cid)
    (hlen : message_len ≤ buffer_len)
    (hput : ∀ i, i < message_len → 0 ≤ buf.put_result i) :
    1 ≤ message_len ∧ message_len ≤ BUFF_SIZE ∧
      ∃ buf1, device_read m3 reader buf buffer_len = some ((message_len : Int), buf1) ∧
        (List.range message_len).map buf1.bytes =
          (List.range message_len).map (fun j => (user j).2) := by
  obtain ⟨hino, hpd, hnz, ch, hat⟩ := ioctl_attaches m0 m1 file0 file _ cid alloc_ok hio
  rw [← hino, ← hpd] at hat
  rw [← hpd] at hnz
  obtain ⟨hbad, hok⟩ := device_write_success m1 m2 file user message_len hw
  have h1 : 1 ≤ message_len := by omega
  have h2 : message_len ≤ BUFF_SIZE := by omega
  have hl : ((List.range message_len).map (fun j => (user j).2)).length = message_len := by simp
  have key := write_stores m1 file user ((List.range message_len).map (fun j => (user j).2)) ch
    hnz hat (by rw [hl]; exact h1) (by rw [hl]; exact h2)
    (by
      intro i hi
      rw [hl] at hi
      refine ⟨hok i hi, ?_⟩
      rw [List.getD_eq_getElem?_getD, List.getElem?_map, List.getElem?_range hi]
      rfl)
  rw [hl] at key
  obtain ⟨m2w, ch2, hw2, hat2, hsz, htake⟩ := key
  rw [hw] at hw2
  simp only [Option.some.injEq, Prod.mk.injEq, true_and] at hw2
  subst hw2
  have hat3 := slot_run_keeps calls m2 m3 _ _ ch2 hrun hat2
  rw [← hrino, hpd, ← hrpd] at hat3
  obtain ⟨buf1, hread, hbytes⟩ := read_delivers m3 reader buf buffer_len ch2
    (by rw [hrpd, ← hpd]; exact hnz) hat3 (by omega) (by omega)
    (fun i hi => hput i (by omega))
  rw [hsz] at hread
  refine ⟨h1, h2, buf1, hread, ?_⟩
  have hd := delivered_eq ch2.message ((List.range message_len).map (fun j => (user j).2))
    buf1.bytes (by rw [hl]; exact htake) (by
      intro j hj
      rw [hl] at hj
      exact hbytes j (by omega))
  rw [hl] at hd
  exact hd

set_option maxRecDepth 8192 in
theorem message_round_trip_witness :
    device_ioctl sample_manager_two { f_inode := 3, private_data := 0 } MSG_SLOT_CHANNEL 7 true =
      some (SUCCESS, sample_manager_two, { f_inode := 3, private_data := 7 }) ∧
    device_write sample_manager_two { f_inode := 3, private_data := 7 } (user_bytes [9, 8]) 2 =
      some (((2 : Nat) : Int), sample_after_write) ∧
    slot_run sample_after_write
        [SlotCall.release { f_inode := 3, private_data := 7 },
          SlotCall.open { f_inode := 3, private_data := 0 } true,
          SlotCall.ioctl { f_inode := 3, private_data := 0 } MSG_SLOT_CHANNEL 7 true] =
      some sample_after_write ∧
    to_unsigned_int 7 = to_unsigned_int 7 ∧
    2 ≤ 10 ∧
    (∀ i, i < 2 → 0 ≤ empty_buffer.put_result i) ∧
    (1 ≤ 2 ∧ 2 ≤ BUFF_SIZE ∧
      ∃ buf1, device_read sample_after_write { f_inode := 3, private_data := 7 } empty_buffer 10 =
          some (((2 : Nat) : Int), buf1) ∧
        (List.range 2).map buf1.bytes = (List.range 2).map (fun j => (user_bytes [9, 8] j).2)) :=
  ⟨rfl, rfl, rfl, rfl, by decide, fun _ _ => Int.le_refl 0,
    message_round_trip sample_manager_two sample_manager_two sample_after_write
      { f_inode := 3, private_data := 0 } { f_inode := 3, private_data := 7 } 7 true
      (user_bytes [9, 8]) 2 rfl rfl
      [SlotCall.release { f_inode := 3, private_data := 7 },
        SlotCall.open { f_inode := 3, private_data := 0 } true,
        SlotCall.ioctl { f_inode := 3, private_data := 0 } MSG_SLOT_CHANNEL 7 true]
      sample_after_write { f_inode := 3, private_data := 7 } empty_buffer 10
      rfl rfl rfl (by decide) (fun _ _ => Int.le_refl 0)⟩

/-! ## The result of `device_read` -/

theorem copy_channel_loop_frame (message : List Byte) :
    ∀ (k i : Nat) (buf : UserBuffer),
      (copy_channel_loop message k i buf).2.put_result = buf.put_result ∧
        ∀ j, (j < i ∨ i + k ≤ j) → (copy_channel_loop message k i buf).2.bytes j = buf.bytes j
  | 0, _, _ => ⟨rfl, fun _ _ => rfl⟩
  | k + 1, i, buf => by
    unfold copy_channel_loop
    split
    · exact ⟨rfl, fun _ _ => rfl⟩
    · obtain ⟨h1, h2⟩ := copy_channel_loop_frame message k (i + 1)
        { buf with bytes := fun j => if j = i then message.getD i 0 else buf.bytes j }
      refine ⟨h1, ?_⟩
      intro j hj
      rw [h2 j (by omega)]
      have hne : j ≠ i := by omega
      simp [hne]

theorem copy_channel_loop_error (message : List Byte) :
    ∀ (k i0 idx : Nat) (buf : UserBuffer), i0 ≤ idx → idx < i0 + k →
      buf.put_result idx < 0 → (∀ j, i0 ≤ j → j < idx → 0 ≤ buf.put_result j) →
      (copy_channel_loop message k i0 buf).1 = some (buf.put_result idx) ∧
        (∀ j, i0 ≤ j → j < idx →
          (copy_channel_loop message k i0 buf).2.bytes j = message.getD j 0) ∧
        (∀ j, idx ≤ j → (copy_channel_loop message k i0 buf).2.bytes j = buf.bytes j)
  | 0, _, _, _, h1, h2, _, _ => by omega
  | k + 1, i0, idx, buf, h1, h2, hneg, hok => by
    unfold copy_channel_loop
    by_cases he : idx = i0
    · subst he
      rw [if_pos hneg]
      exact ⟨rfl, fun j a b => by omega, fun _ _ => rfl⟩
    · have h0 := hok i0 (Nat.le_refl _) (by omega)
      rw [if_neg (by omega)]
      obtain ⟨hc, hb, hk⟩ := copy_channel_loop_error message k (i0 + 1) idx
        { buf with bytes := fun j => if j = i0 then message.getD i0 0 else buf.bytes j }
        (by omega) (by omega) hneg (fun j a b => hok j (by omega) b)
      refine ⟨hc, ?_, ?_⟩
      · intro j a b
        by_cases hj : j = i0
        · subst hj
          rw [(copy_channel_loop_frame message k (j + 1) _).2 j (by omega)]
          simp
        · exact hb j (by omega) b
      · intro j a
        rw [hk j a]
        have hne : j ≠ i0 := by omega
        simp [hne]

theorem copy_channel_loop_code (message : List Byte) :
    ∀ (k i : Nat) (buf buf1 : UserBuffer), buf1.put_result = buf.put_result →
      (copy_channel_loop message k i buf1).1 = (copy_channel_loop message k i buf).1
  | 0, _, _, _, _ => rfl
  | k + 1, i, buf, buf1, h => by
    unfold copy_channel_loop
    rw [h]
    split
    · rfl
    · exact copy_channel_loop_code message k (i + 1) _ _ rfl

theorem copy_channel_message_code (ch : Channel) (buf buf1 : UserBuffer)
    (h : buf1.put_result = buf.put_result) :
    (copy_channel_message ch buf1).1 = (copy_channel_message ch buf).1 ∧
      (copy_channel_message ch buf).2.put_result = buf.put_result := by
  have hc := copy_channel_loop_code ch.message ch.size_of_message 0 buf buf1 h
  have hf := (copy_channel_loop_frame ch.message ch.size_of_message 0 buf).1
  unfold copy_channel_message
  cases h1 : copy_channel_loop ch.message ch.size_of_message 0 buf with
  | mk code b =>
    cases h2 : copy_channel_loop ch.message ch.size_of_message 0 buf1 with
    | mk code1 b1 =>
      rw [h1, h2] at hc
      rw [h1] at hf
      simp only at hc hf
      subst hc
      cases code1 with
      | none => exact ⟨rfl, hf⟩
      | some e => exact ⟨rfl, hf⟩

/-- The return value of `device_read` depends on the user buffer only through
the results of `put_user`, and the call leaves those as they are. -/
theorem device_read_code (m : MessageSlotManager) (file : File) (buf buf1 : UserBuffer)
    (n : Nat) (r : Int) (out : UserBuffer)
    (h : device_read m file buf n = some (r, out))
    (hp : buf1.put_result = buf.put_result) :
    out.put_result = buf.put_result ∧ ∃ out1, device_read m file buf1 n = some (r, out1) := by
  unfold device_read at h ⊢
  split at h
  · rename_i hz
    cases h
    exact ⟨rfl, buf1, by rw [if_pos hz]⟩
  · rename_i hz
    rw [if_neg hz]
    cases hs : get_files_message_slot m file with
    | none => rw [hs] at h; cases h
    | some slot =>
      rw [hs] at h
      simp only at h ⊢
      cases hf : find_channel slot.channels (to_unsigned_int file.private_data) with
      | none => rw [hf] at h; cases h
      | some ch =>
        rw [hf] at h
        simp only at h ⊢
        split at h
        · rename_i h0
          cases h
          exact ⟨rfl, buf1, by rw [if_pos h0]⟩
        · rename_i h0
          rw [if_neg h0]
          split at h
          · rename_i hgt
            cases h
            exact ⟨rfl, buf1, by rw [if_pos hgt]⟩
          · rename_i hgt
            rw [if_neg hgt]
            obtain ⟨hc, hpr⟩ := copy_channel_message_code ch buf buf1 hp
            simp only [Option.some.injEq] at h
            refine ⟨by rw [← hpr, h], (copy_channel_message ch buf1).2, ?_⟩
            have e : (copy_channel_message ch buf).1 = r := by rw [h]
            rw [← e, ← hc]

set_option maxRecDepth 8192 in
/-- C22, as stated, fails: channel 7 of minor 3 holds 5 bytes, the file has
this channel set and `buffer_len` is 10, but the store to the first byte of
the user buffer fails; `device_read` returns `-EFAULT`, not the stored length
5. -/
theorem device_read_returns_put_user_error :
    to_unsigned_int (7 : Nat) ≠ 0 ∧
    (channel_at sample_manager 3 7).map (fun ch => ch.size_of_message) = some 5 ∧
    ¬ (5 > 10) ∧
    (device_read sample_manager { f_inode := 3, private_data := 7 } (buffer_bad_at 0) 10).map
        Prod.fst = some (-EFAULT) ∧
    (-EFAULT : Int) ≠ 5 := by
  refine ⟨by decide, rfl, by decide, rfl, by decide⟩

/-- C22, amended.  The result of `device_read`: `-EINVAL` when the file has no
channel set; on a file whose channel exists `-EWOULDBLOCK` when the stored
length is 0 and `-ENOSPC` when it exceeds `buffer_len`; otherwise the error
of the first `put_user` that fails, the bytes before it being copied; and
when every `put_user` succeeds the stored length, which is at most
`buffer_len`, after copying exactly that many bytes and no other.  The call
never changes the driver state, and a second read with the same `buffer_len`
into the same user buffer returns the same value. -/
theorem device_read_result (m : MessageSlotManager) (file : File) (buf : UserBuffer)
    (n : Nat) :
    (to_unsigned_int file.private_data = 0 →
      device_read m file buf n = some (-EINVAL, buf)) ∧
    (to_unsigned_int file.private_data ≠ 0 →
      ∀ ch, channel_at m file.f_inode (to_unsigned_int file.private_data) = some ch →
        (ch.size_of_message = 0 → device_read m file buf n = some (-EWOULDBLOCK, buf)) ∧
        (ch.size_of_message ≠ 0 → ch.size_of_message > n →
          device_read m file buf n = some (-ENOSPC, buf)) ∧
        (ch.size_of_message ≠ 0 → ch.size_of_message ≤ n →
          (∀ i, i < ch.size_of_message → buf.put_result i < 0 →
            (∀ j, j < i → 0 ≤ buf.put_result j) →
            ∃ out, device_read m file buf n = some (buf.put_result i, out) ∧
              (∀ j, j < i → out.bytes j = ch.message.getD j 0) ∧
              (∀ j, i ≤ j → out.bytes j = buf.bytes j)) ∧
          ((∀ j, j < ch.size_of_message → 0 ≤ buf.put_result j) →
            ∃ out, device_read m file buf n = some ((ch.size_of_message : Int), out) ∧
              (∀ j, j < ch.size_of_message → out.bytes j = ch.message.getD j 0) ∧
              (∀ j, ch.size_of_message ≤ j → out.bytes j = buf.bytes j)))) ∧
    (∀ r out, device_read m file buf n = some (r, out) →
      ∃ out1, device_read m file out n = some (r, out1)) ∧
    (∀ m1, slot_step m (SlotCall.read file buf n) = some m1 → m1 = m) := by
  refine ⟨?_, ?_, ?_, ?_⟩
  · intro hz
    unfold device_read
    rw [if_pos hz]
  · intro hnz ch hat
    obtain ⟨slot, hs, hf⟩ := slot_of_channel_at m file _ ch hat
    have hread : device_read m file buf n =
        (if ch.size_of_message = 0 then some (-EWOULDBLOCK, buf)
         else if ch.size_of_message > n then some (-ENOSPC, buf)
         else some (copy_channel_message ch buf)) := by
      unfold device_read
      rw [if_neg hnz, hs]
      simp only [hf]
    refine ⟨?_, ?_, ?_⟩
    · intro h0
      rw [hread, if_pos h0]
    · intro h0 hgt
      rw [hread, if_neg h0, if_pos hgt]
    · intro h0 hle
      rw [hread, if_neg h0, if_neg (by omega)]
      refine ⟨?_, ?_⟩
      · intro i hi hneg hok
        obtain ⟨hc, hb, hk⟩ := copy_channel_loop_error ch.message ch.size_of_message 0 i buf
          (Nat.zero_le _) (by omega) hneg (fun j _ b => hok j b)
        cases hL : copy_channel_loop ch.message ch.size_of_message 0 buf with
        | mk code out =>
          rw [hL] at hc hb hk
          simp only at hc hb hk
          subst hc
          refine ⟨out, ?_, fun j hj => hb j (Nat.zero_le _) hj, hk⟩
          simp only [copy_channel_message, hL]
      · intro hok
        obtain ⟨out, hL, hb, _⟩ := copy_channel_loop_ok ch.message ch.size_of_message 0 buf
          (fun j _ b => hok j (by omega))
        have hfr := (copy_channel_loop_frame ch.message ch.size_of_message 0 buf).2
        rw [hL] at hfr
        refine ⟨out, ?_, fun j hj => hb j (Nat.zero_le _) (by omega),
          fun j hj => hfr j (Or.inr (by omega))⟩
        simp only [copy_channel_message, hL]
  · intro r out h
    exact (device_read_code m file buf out n r out h
      (device_read_code m file buf buf n r out h rfl).1).2
  · intro m1 h
    simp only [slot_step] at h
    cases hr : device_read m file buf n with
    | none => rw [hr] at h; cases h
    | some v =>
      rw [hr] at h
      cases h
      rfl

set_option maxRecDepth 8192 in
theorem device_read_result_witness :
    device_read sample_manager_two { f_inode := 3, private_data := 0 } empty_buffer 10 =
      some (-EINVAL, empty_buffer) ∧
    device_read sample_manager_two { f_inode := 3, private_data := 8 } empty_buffer 10 =
      some (-EWOULDBLOCK, empty_buffer) ∧
    device_read sample_manager_two { f_inode := 3, private_data := 7 } empty_buffer 3 =
      some (-ENOSPC, empty_buffer) ∧
    (∃ out, device_read sample_manager_two { f_inode := 3, private_data := 7 }
        (buffer_bad_at 1) 10 = some (-EFAULT, out) ∧
      (∀ j, j < 1 → out.bytes j = sample_channel.message.getD j 0) ∧
      (∀ j, 1 ≤ j → out.bytes j = (buffer_bad_at 1).bytes j)) ∧
    (∃ out, device_read sample_manager_two { f_inode := 3, private_data := 7 }
        empty_buffer 10 = some (5, out) ∧
      (∀ j, j < 5 → out.bytes j = sample_channel.message.getD j 0) ∧
      (∀ j, 5 ≤ j → out.bytes j = empty_buffer.bytes j)) :=
  ⟨(device_read_result sample_manager_two { f_inode := 3, private_data := 0 }
      empty_buffer 10).1 (by decide),
    ((device_read_result sample_manager_two { f_inode := 3, private_data := 8 }
      empty_buffer 10).2.1 (by decide) (create_channel 8) rfl).1 rfl,
    ((device_read_result sample_manager_two { f_inode := 3, private_data := 7 }
      empty_buffer 3).2.1 (by decide) sample_channel rfl).2.1 (by decide) (by decide),
    (((device_read_result sample_manager_two { f_inode := 3, private_data := 7 }
      (buffer_bad_at 1) 10).2.1 (by decide) sample_channel rfl).2.2 (by decide)
        (by decide)).1 1 (by decide) (by decide) (by decide),
    (((device_read_result sample_manager_two { f_inode := 3, private_data := 7 }
      empty_buffer 10).2.1 (by decide) sample_channel rfl).2.2 (by decide)
        (by decide)).2 (by decide)⟩

/-! ## Channel isolation -/

theorem copy_user_message_id (chan : Option Channel) (user : Nat → Int × Byte) (len : Nat)
    (res : Int) (new_channel : Channel)
    (h : copy_user_message chan user len = some (res, some new_channel)) :
    ∃ ch, chan = some ch ∧ new_channel.channel_id = ch.channel_id := by
  unfold copy_user_message at h
  cases hl : copy_user_loop user len 0 (List.replicate BUFF_SIZE 0) with
  | error e =>
    rw [hl] at h
    simp only [Option.some.injEq, Prod.mk.injEq] at h
    exact ⟨new_channel, h.2, rfl⟩
  | ok temp =>
    rw [hl] at h
    cases chan with
    | none => cases h
    | some ch =>
      simp only [Option.some.injEq, Prod.mk.injEq] at h
      refine ⟨ch, rfl, ?_⟩
      rw [← h.2]

theorem write_keeps_others (m m2 : MessageSlotManager) (file : File)
    (user : Nat → Int × Byte) (len : Nat) (r : Int)
    (h : device_write m file user len = some (r, m2)) (minor c : Nat)
    (hne : minor ≠ file.f_inode ∨ c ≠ to_unsigned_int file.private_data) :
    channel_at m2 minor c = channel_at m minor c := by
  unfold device_write at h
  split at h
  · cases h; rfl
  · split at h
    · cases h; rfl
    · cases hs : get_files_message_slot m file with
      | none => rw [hs] at h; cases h
      | some slot =>
        rw [hs] at h
        simp only at h
        cases hc : copy_user_message
            (find_channel slot.channels (to_unsigned_int file.private_data)) user len with
        | none => rw [hc] at h; cases h
        | some v =>
          obtain ⟨res, newc⟩ := v
          rw [hc] at h
          cases newc with
          | none =>
            simp only [Option.some.injEq, Prod.mk.injEq] at h
            rw [← h.2]
          | some new_channel =>
            simp only [Option.some.injEq, Prod.mk.injEq] at h
            rw [← h.2]
            obtain ⟨ch, hf, hid⟩ := copy_user_message_id _ user len res new_channel hc
            obtain ⟨hat, hlt⟩ := channel_at_of_slot m file slot hs c
            by_cases hm : file.f_inode = minor
            · subst hm
              have hcne : c ≠ to_unsigned_int file.private_data := by
                rcases hne with hne | hne
                · exact absurd rfl hne
                · exact hne
              rw [channel_at_set_same m _ _ _ hlt, hat]
              exact find_store_other _ _ _ ch new_channel hf hid hcne
            · exact channel_at_set_other m _ _ _ _ hm

theorem ioctl_keeps_others (m m3 : MessageSlotManager) (file file3 : File) (cmd cid : Nat)
    (alloc_ok : Bool) (r : Int)
    (h : device_ioctl m file cmd cid alloc_ok = some (r, m3, file3)) (minor c : Nat)
    (hne : minor ≠ file.f_inode ∨ c ≠ to_unsigned_int cid) :
    channel_at m3 minor c = channel_at m minor c := by
  unfold device_ioctl at h
  split at h
  · cases h; rfl
  · cases hs : get_files_message_slot m file with
    | none => rw [hs] at h; cases h
    | some slot =>
      rw [hs] at h
      simp only at h
      split at h
      · cases h; rfl
      · split at h
        · cases h; rfl
        · cases h
          obtain ⟨hat, hlt⟩ := channel_at_of_slot m file slot hs c
          by_cases hm : file.f_inode = minor
          · subst hm
            have hcne : c ≠ to_unsigned_int cid := by
              rcases hne with hne | hne
              · exact absurd rfl hne
              · exact hne
            rw [channel_at_set_same m _ _ _ hlt, hat]
            exact find_insert_other _ _ _ _ hcne
          · exact channel_at_set_other m _ _ _ _ hm

theorem ioctl_existing_keeps (m m3 : MessageSlotManager) (file file3 : File) (cmd cid : Nat)
    (alloc_ok : Bool) (r : Int) (ch : Channel)
    (h : device_ioctl m file cmd cid alloc_ok = some (r, m3, file3))
    (hat : channel_at m file.f_inode (to_unsigned_int cid) = some ch) : m3 = m := by
  obtain ⟨slot, hs, hf⟩ := slot_of_channel_at m file _ ch hat
  unfold device_ioctl at h
  split at h
  · cases h; rfl
  · rw [hs] at h
    simp only [hf] at h
    cases h
    rfl

/-- C23. Channel isolation.  A `device_write` through a file whose channel is
`c` on minor `m`, whatever it returns, leaves every other (minor, channel)
pair as it was, message and length; so does a `device_ioctl` that attaches a
file to channel `c` of minor `m`, also when it creates the channel; and a
`device_ioctl` onto a channel that exists already leaves the whole driver
state, that channel included, unchanged. -/
theorem channel_isolation (m m2 m3 : MessageSlotManager) (wfile file file3 : File)
    (user : Nat → Int × Byte) (len : Nat) (r r3 : Int) (cmd cid : Nat) (alloc_ok : Bool)
    (hw : device_write m wfile user len = some (r, m2))
    (hi : device_ioctl m file cmd cid alloc_ok = some (r3, m3, file3)) :
    (∀ minor c, (minor ≠ wfile.f_inode ∨ c ≠ to_unsigned_int wfile.private_data) →
      channel_at m2 minor c = channel_at m minor c ∧ stored m2 minor c = stored m minor c) ∧
    (∀ minor c, (minor ≠ file.f_inode ∨ c ≠ to_unsigned_int cid) →
      channel_at m3 minor c = channel_at m minor c ∧ stored m3 minor c = stored m minor c) ∧
    (∀ ch, channel_at m file.f_inode (to_unsigned_int cid) = some ch →
      m3 = m ∧ channel_at m3 file.f_inode (to_unsigned_int cid) = some ch) := by
  refine ⟨?_, ?_, ?_⟩
  · intro minor c hne
    have e := write_keeps_others m m2 wfile user len r hw minor c hne
    exact ⟨e, by unfold stored; rw [e]⟩
  · intro minor c hne
    have e := ioctl_keeps_others m m3 file file3 cmd cid alloc_ok r3 hi minor c hne
    exact ⟨e, by unfold stored; rw [e]⟩
  · intro ch hat
    have e := ioctl_existing_keeps m m3 file file3 cmd cid alloc_ok r3 ch hi hat
    subst e
    exact ⟨rfl, hat⟩

set_option maxRecDepth 8192 in
theorem channel_isolation_witness :
    device_write sample_manager_two { f_inode := 3, private_data := 7 } (user_bytes [9, 8]) 2 =
      some (2, sample_after_write) ∧
    device_ioctl sample_manager_two { f_inode := 3, private_data := 0 } MSG_SLOT_CHANNEL 9 true =
      some (SUCCESS, sample_after_ioctl, { f_inode := 3, private_data := 9 }) ∧
    device_ioctl sample_manager_two { f_inode := 3, private_data := 0 } MSG_SLOT_CHANNEL 7 true =
      some (SUCCESS, sample_manager_two, { f_inode := 3, private_data := 7 }) ∧
    ((∀ minor c, (minor ≠ 3 ∨ c ≠ to_unsigned_int 7) →
        channel_at sample_after_write minor c = channel_at sample_manager_two minor c ∧
        stored sample_after_write minor c = stored sample_manager_two minor c) ∧
      (∀ minor c, (minor ≠ 3 ∨ c ≠ to_unsigned_int 9) →
        channel_at sample_after_ioctl minor c = channel_at sample_manager_two minor c ∧
        stored sample_after_ioctl minor c = stored sample_manager_two minor c) ∧
      (∀ ch, channel_at sample_manager_two 3 (to_unsigned_int 9) = some ch →
        sample_after_ioctl = sample_manager_two ∧
        channel_at sample_after_ioctl 3 (to_unsigned_int 9) = some ch)) ∧
    (sample_manager_two = sample_manager_two ∧
      channel_at sample_manager_two 3 (to_unsigned_int 7) = some sample_channel) :=
  ⟨rfl, rfl, rfl,
    channel_isolation sample_manager_two sample_after_write sample_after_ioctl
      { f_inode := 3, private_data := 7 } { f_inode := 3, private_data := 0 }
      { f_inode := 3, private_data := 9 } (user_bytes [9, 8]) 2 2 SUCCESS MSG_SLOT_CHANNEL 9
      true rfl rfl,
    (channel_isolation sample_manager_two sample_after_write sample_manager_two
      { f_inode := 3, private_data := 7 } { f_inode := 3, private_data := 0 }
      { f_inode := 3, private_data := 7 } (user_bytes [9, 8]) 2 2 SUCCESS MSG_SLOT_CHANNEL 7
      true rfl rfl).2.2 sample_channel rfl⟩

end MessageSlotDriver
